import Mathlib

/-!
# A FAT-style file system emulation: embedding and verification

Shallow embedding of `filesystem.cpp`, `directoryentry.h`, `filesystem.h` and
`utility.cpp`.

* Machine integers are natural numbers; a value stored in a `uintN_t` field is
  reduced modulo `2^N` where the source truncates.
* `std::string` and `std::vector<char>` are lists of bytes (`List Nat`).
* `std::vector<T>` is `List T`; an access `v[i]` with `i ≥ v.size()` is undefined
  behaviour in C++ and is a `Fault` here.
* Loops whose termination depends on the data carry a step budget that is large
  enough for every run that terminates; running out of it is the `Fault`
  `nonTermination`.
* Messages printed on `std::cerr` / `std::cout` are returned as a `Status`.
* `std::time(nullptr)`, the host file and the password typed on `std::cin` are
  parameters of the operations that use them.
-/

namespace FatFs

/-! ## Constants (`directoryentry.h`) -/

def FAT_FREE : Nat := 0xFFFF
def FAT_USED : Nat := 0xFFFE
def FAT_EOC : Nat := 0xFFFD
def ATTR_DIRECTORY : Nat := 0x10

/-! ## Data model -/

structure Permissions where
  read : Bool
  write : Bool
deriving DecidableEq, Repr

/-- The private data members of the class `DirectoryEntry`; `attr` is the member
`attribute`, a reserved word of Lean. -/
structure EntryFields where
  filename : List Nat
  size : Nat
  permissions : Permissions
  creation_time : Int
  modification_time : Int
  password : List Nat
  start_block : Nat
  attr : Nat
deriving DecidableEq, Repr

/-- The class `DirectoryEntry`: its private members and the public vector `children`. -/
inductive DirectoryEntry where
  | mk (fields : EntryFields) (children : List DirectoryEntry)
deriving Repr

namespace DirectoryEntry

def fields : DirectoryEntry → EntryFields
  | mk f _ => f

def children : DirectoryEntry → List DirectoryEntry
  | mk _ c => c

def getFilename (e : DirectoryEntry) : List Nat := e.fields.filename
def getSize (e : DirectoryEntry) : Nat := e.fields.size
def getPermissions (e : DirectoryEntry) : Permissions := e.fields.permissions
def getCreationTime (e : DirectoryEntry) : Int := e.fields.creation_time
def getModificationTime (e : DirectoryEntry) : Int := e.fields.modification_time
def getPassword (e : DirectoryEntry) : List Nat := e.fields.password
def getStartBlock (e : DirectoryEntry) : Nat := e.fields.start_block
def getAttribute (e : DirectoryEntry) : Nat := e.fields.attr

def setFilename (e : DirectoryEntry) (v : List Nat) : DirectoryEntry :=
  mk { e.fields with filename := v } e.children
def setSize (e : DirectoryEntry) (v : Nat) : DirectoryEntry :=
  mk { e.fields with size := v % 2 ^ 32 } e.children
def setPermissions (e : DirectoryEntry) (v : Permissions) : DirectoryEntry :=
  mk { e.fields with permissions := v } e.children
def setCreationTime (e : DirectoryEntry) (v : Int) : DirectoryEntry :=
  mk { e.fields with creation_time := v } e.children
def setModificationTime (e : DirectoryEntry) (v : Int) : DirectoryEntry :=
  mk { e.fields with modification_time := v } e.children
def setPassword (e : DirectoryEntry) (v : List Nat) : DirectoryEntry :=
  mk { e.fields with password := v } e.children
def setStartBlock (e : DirectoryEntry) (v : Nat) : DirectoryEntry :=
  mk { e.fields with start_block := v % 2 ^ 16 } e.children
def setAttribute (e : DirectoryEntry) (v : Nat) : DirectoryEntry :=
  mk { e.fields with attr := v % 2 ^ 8 } e.children
def setChildren (e : DirectoryEntry) (c : List DirectoryEntry) : DirectoryEntry :=
  mk e.fields c

/-- The constructor `DirectoryEntry(int size = 0)`; both clock reads are parameters. -/
def init (size : Nat) (ctime mtime : Int) : DirectoryEntry :=
  mk { filename := [], size := size % 2 ^ 32, permissions := ⟨true, true⟩,
       creation_time := ctime, modification_time := mtime, password := [],
       start_block := 0, attr := 0 } []

end DirectoryEntry

mutual
def DirectoryEntry.decEq : (a b : DirectoryEntry) → Decidable (a = b)
  | .mk f cs, .mk g ds =>
    if h : f = g then
      match DirectoryEntry.decEqList cs ds with
      | isTrue h2 => isTrue (by rw [h, h2])
      | isFalse h2 => isFalse (by intro e; cases e; exact h2 rfl)
    else isFalse (by intro e; cases e; exact h rfl)
def DirectoryEntry.decEqList : (a b : List DirectoryEntry) → Decidable (a = b)
  | [], [] => isTrue rfl
  | [], _ :: _ => isFalse (by intro e; cases e)
  | _ :: _, [] => isFalse (by intro e; cases e)
  | c :: cs, d :: ds =>
    match DirectoryEntry.decEq c d with
    | isTrue h1 =>
      match DirectoryEntry.decEqList cs ds with
      | isTrue h2 => isTrue (by rw [h1, h2])
      | isFalse h2 => isFalse (by intro e; cases e; exact h2 rfl)
    | isFalse h1 => isFalse (by intro e; cases e; exact h1 rfl)
end

instance : DecidableEq DirectoryEntry := DirectoryEntry.decEq

structure Superblock where
  total_blocks : Nat
  fat_start : Nat
  root_dir_start : Nat
  block_size : Nat
deriving DecidableEq, Repr

structure DiskBlock where
  block_number : Nat
  data : List Nat
deriving DecidableEq, Repr

/-- The data members of the class `FileSystem`. -/
structure FileSystem where
  superblock : Superblock
  fat : List Nat
  blocks : List DiskBlock
  root_directory : DirectoryEntry
deriving DecidableEq, Repr

/-- Undefined behaviour or divergence of the C++ code. -/
inductive Fault where
  | outOfBounds
  | divByZero
  | nullDeref
  | nonTermination
deriving DecidableEq, Repr

/-- What an operation reports on `std::cerr` / `std::cout`, in the spec's taxonomy. -/
inductive Status where
  | ok
  | notFound
  | alreadyExists
  | wrongType
  | insufficientSpace
  | permissionDenied
  | authenticationFailed
  | hostError
  | invalidArgument
deriving DecidableEq, Repr

/-- `v[i]` on a `std::vector`: a fault outside the bounds. -/
def vecGet {α : Type} (v : List α) (i : Nat) : Except Fault α :=
  match v[i]? with
  | some a => .ok a
  | none => .error .outOfBounds

/-- `v[i] = a` on a `std::vector`: a fault outside the bounds. -/
def vecSet {α : Type} (v : List α) (i : Nat) (a : α) : Except Fault (List α) :=
  if i < v.length then .ok (v.set i a) else .error .outOfBounds

/-- `FileSystem::FileSystem(uint32_t total_blocks, uint32_t block_size)`. -/
def FileSystem.create (total_blocks block_size : Nat) (ctime mtime : Int) : FileSystem :=
  let fat_start := 16
  let root_dir_start := (fat_start + total_blocks * 2) % 2 ^ 32
  let root := DirectoryEntry.init 0 ctime mtime
  let root := root.setFilename [47]
  let root := root.setSize 0
  let root := root.setPermissions ⟨true, true⟩
  let root := root.setCreationTime ctime
  let root := root.setModificationTime mtime
  let root := root.setStartBlock root_dir_start
  let root := root.setAttribute ATTR_DIRECTORY
  { superblock := { total_blocks := total_blocks, fat_start := fat_start,
                    root_dir_start := root_dir_start, block_size := block_size },
    fat := List.replicate total_blocks FAT_FREE,
    blocks := (List.range total_blocks).map
      (fun i => { block_number := i, data := List.replicate block_size 0 }),
    root_directory := root }

/-- `FileSystem::is_directory`. -/
def is_directory (entry : DirectoryEntry) : Bool :=
  entry.getAttribute &&& ATTR_DIRECTORY != 0

/-! ## Persistence (`save_filesystem`, `load_filesystem`) -/

/-- The `w` low bytes of `n`, least significant first: the bytes `ofs.write` emits for a
`w`-byte unsigned integer on a little-endian host. -/
def le_bytes (n : Nat) : Nat → List Nat
  | 0 => []
  | w + 1 => n % 256 :: le_bytes (n / 256) w

/-- The unsigned integer stored in little-endian bytes. -/
def le_value : List Nat → Nat
  | [] => 0
  | b :: bs => b + 256 * le_value bs

/-- The 8 bytes of a `std::time_t` (two's complement). -/
def time_bytes (t : Int) : List Nat := le_bytes (t % 2 ^ 64).toNat 8

/-- The `std::time_t` stored in 8 bytes. -/
def time_value (bs : List Nat) : Int :=
  if le_value bs < 2 ^ 63 then (le_value bs : Int) else (le_value bs : Int) - 2 ^ 64

def bool_byte (b : Bool) : Nat := if b then 1 else 0

/-- `ifs.read(buf, n)`: the next `n` bytes and the rest of the stream; `none` is a short
read (the source does not test the stream state, so what it leaves behind then is not
modelled). -/
def readBytes (n : Nat) (s : List Nat) : Option (List Nat × List Nat) :=
  if s.length < n then none else some (s.take n, s.drop n)

mutual
/-- `FileSystem::write_directory`. -/
def write_directory : DirectoryEntry → List Nat
  | .mk f cs =>
    le_bytes f.filename.length 4 ++ f.filename
    ++ le_bytes f.size 4
    ++ [bool_byte f.permissions.read, bool_byte f.permissions.write]
    ++ time_bytes f.creation_time
    ++ time_bytes f.modification_time
    ++ le_bytes f.password.length 4 ++ f.password
    ++ le_bytes f.start_block 2
    ++ le_bytes f.attr 1
    ++ le_bytes cs.length 4
    ++ write_children cs
/-- The loop `for (child : directory.children) write_directory(ofs, child)`. -/
def write_children : List DirectoryEntry → List Nat
  | [] => []
  | c :: cs => write_directory c ++ write_children cs
end

/-- Run a reader `n` times in sequence. -/
def readN {α : Type} (f : List Nat → Option (α × List Nat)) :
    Nat → List Nat → Option (List α × List Nat)
  | 0, s => some ([], s)
  | n + 1, s =>
    match f s with
    | none => none
    | some (a, r) =>
      match readN f n r with
      | none => none
      | some (as, r') => some (a :: as, r')

/-- `FileSystem::read_directory`; `fuel` bounds the nesting depth. -/
def read_directory : Nat → List Nat → Option (DirectoryEntry × List Nat)
  | 0, _ => none
  | fuel + 1, s =>
    match readBytes 4 s with
    | none => none
    | some (nl, s) =>
    match readBytes (le_value nl) s with
    | none => none
    | some (filename, s) =>
    match readBytes 4 s with
    | none => none
    | some (sz, s) =>
    match readBytes 2 s with
    | none => none
    | some (pm, s) =>
    match readBytes 8 s with
    | none => none
    | some (ct, s) =>
    match readBytes 8 s with
    | none => none
    | some (mt, s) =>
    match readBytes 4 s with
    | none => none
    | some (pl, s) =>
    match readBytes (le_value pl) s with
    | none => none
    | some (password, s) =>
    match readBytes 2 s with
    | none => none
    | some (sb, s) =>
    match readBytes 1 s with
    | none => none
    | some (ab, s) =>
    match readBytes 4 s with
    | none => none
    | some (nc, s) =>
    match readN (read_directory fuel) (le_value nc) s with
    | none => none
    | some (cs, s) =>
      some (.mk { filename := filename, size := le_value sz,
                  permissions := ⟨pm.getD 0 0 != 0, pm.getD 1 0 != 0⟩,
                  creation_time := time_value ct, modification_time := time_value mt,
                  password := password, start_block := le_value sb,
                  attr := le_value ab } cs, s)

/-- The bytes of `ofs.write(&superblock, sizeof(superblock))`: four `uint32_t`. -/
def save_superblock (sb : Superblock) : List Nat :=
  le_bytes sb.total_blocks 4 ++ le_bytes sb.fat_start 4
  ++ le_bytes sb.root_dir_start 4 ++ le_bytes sb.block_size 4

/-- The FAT section: `fat_size` as `uint32_t`, then `fat_size` entries of two bytes. -/
def save_fat (fat : List Nat) : List Nat :=
  let fat_size := fat.length % 2 ^ 32
  le_bytes fat_size 4 ++ (fat.take fat_size).flatMap (fun e => le_bytes e 2)

/-- The loop over `blocks` in `save_filesystem`. For each block it writes
`sizeof(DiskBlock)` bytes starting at the address of the block, then `block_size` bytes of
its data. The object starts with the member `block_number`; the bytes after it
(alignment padding and the `std::vector<char>` header) are not fixed by the source, so
they are the parameter `tail`, indexed by the position of the block:
`sizeof(DiskBlock) = 4 + (tail i).length`. The data written are the first `block_size`
bytes of the buffer of the block; every block made by the constructor or by
`load_filesystem` holds exactly `block_size` bytes. -/
def save_blocks (tail : Nat → List Nat) (block_size : Nat) : Nat → List DiskBlock → List Nat
  | _, [] => []
  | i, b :: bs =>
    (le_bytes b.block_number 4 ++ tail i) ++ b.data.take block_size
    ++ save_blocks tail block_size (i + 1) bs

/-- `FileSystem::save_filesystem`: the bytes of the image. -/
def save_filesystem (tail : Nat → List Nat) (fs : FileSystem) : List Nat :=
  save_superblock fs.superblock
  ++ save_fat fs.fat
  ++ write_directory fs.root_directory
  ++ save_blocks tail fs.superblock.block_size 0 fs.blocks

/-- One iteration of the block loop of `load_filesystem`: a `uint32_t` block number, then
`block_size` data bytes. -/
def load_block (block_size : Nat) (s : List Nat) : Option (DiskBlock × List Nat) :=
  match readBytes 4 s with
  | none => none
  | some (bn, s) =>
    match readBytes block_size s with
    | none => none
    | some (d, s) => some ({ block_number := le_value bn, data := d }, s)

/-- One FAT entry: two bytes. -/
def load_fat_entry (s : List Nat) : Option (Nat × List Nat) :=
  match readBytes 2 s with
  | none => none
  | some (e, s) => some (le_value e, s)

/-- `FileSystem::load_filesystem` on the bytes of an image; `none` is a short read. Every
nested call of `read_directory` consumes bytes, so the length of the stream bounds the
nesting depth. -/
def load_filesystem (s : List Nat) : Option FileSystem :=
  match readBytes 16 s with
  | none => none
  | some (sb, s) =>
    let superblock : Superblock :=
      { total_blocks := le_value (sb.take 4),
        fat_start := le_value ((sb.drop 4).take 4),
        root_dir_start := le_value ((sb.drop 8).take 4),
        block_size := le_value (sb.drop 12) }
    match readBytes 4 s with
    | none => none
    | some (fsz, s) =>
      match readN load_fat_entry (le_value fsz) s with
      | none => none
      | some (fat, s) =>
        match read_directory (s.length + 1) s with
        | none => none
        | some (root, s) =>
          match readN (load_block superblock.block_size) superblock.total_blocks s with
          | none => none
          | some (blocks, _) =>
            some { superblock := superblock, fat := fat, blocks := blocks,
                   root_directory := root }

/-! ## FAT allocation -/

/-- The loop of `FileSystem::findNextFreeBlock`; `i` is the `uint16_t` loop variable. -/
def findNextFreeBlockLoop (fat : List Nat) : Nat → Nat → Except Fault (List Nat × Nat)
  | 0, _ => .error .nonTermination
  | fuel + 1, i =>
    if i < fat.length then
      if fat[i]? = some FAT_FREE then .ok (fat.set i FAT_USED, i)
      else findNextFreeBlockLoop fat fuel ((i + 1) % 2 ^ 16)
    else .ok (fat, FAT_FREE)

/-- `FileSystem::findNextFreeBlock`: the new FAT and the value returned. The loop variable
takes at most `2^16` values, so a run of more than `2^16` iterations never ends. -/
def findNextFreeBlock (fat : List Nat) : Except Fault (List Nat × Nat) :=
  findNextFreeBlockLoop fat (2 ^ 16 + 1) 1

/-- What `allocateBlocksForFile` leaves behind: the FAT, the entry, and whether it printed
"Insufficient free blocks". -/
structure AllocResult where
  fat : List Nat
  entry : DirectoryEntry
  insufficient : Bool
deriving DecidableEq, Repr

/-- The `for` loop of `allocateBlocksForFile` with `k` iterations left, followed by the
final `fat[prev_block] = FAT_EOC`. -/
def allocateLoop (entry : DirectoryEntry) : Nat → List Nat → Nat → Except Fault AllocResult
  | 0, fat, prev_block =>
    match vecSet fat prev_block FAT_EOC with
    | .error e => .error e
    | .ok fat => .ok { fat := fat, entry := entry, insufficient := false }
  | k + 1, fat, prev_block =>
    match findNextFreeBlock fat with
    | .error e => .error e
    | .ok (fat, free_block) =>
      if free_block = FAT_FREE then
        .ok { fat := fat, entry := entry, insufficient := true }
      else
        match vecSet fat prev_block free_block with
        | .error e => .error e
        | .ok fat => allocateLoop entry k fat free_block

/-- `num_blocks_needed` of `allocateBlocksForFile`, in `uint32_t` arithmetic. -/
def num_blocks_needed (block_size file_size : Nat) : Nat :=
  ((file_size + block_size + (2 ^ 32 - 1)) % 2 ^ 32) / block_size

/-- `FileSystem::allocateBlocksForFile`. -/
def allocateBlocksForFile (block_size : Nat) (fat : List Nat) (entry : DirectoryEntry)
    (file_size : Nat) : Except Fault AllocResult :=
  if block_size = 0 then .error .divByZero else
  let needed := num_blocks_needed block_size file_size
  match findNextFreeBlock fat with
  | .error e => .error e
  | .ok (fat, start_block) =>
    if start_block = FAT_FREE then
      .ok { fat := fat, entry := entry, insufficient := true }
    else
      allocateLoop (entry.setStartBlock start_block) (needed - 1) fat start_block

/-- The `while` loop of `FileSystem::deallocateBlocksForFile`. -/
def deallocateLoop :
    Nat → List Nat → List DiskBlock → Nat → Except Fault (List Nat × List DiskBlock)
  | 0, _, _, _ => .error .nonTermination
  | fuel + 1, fat, blocks, block =>
    if block ≠ FAT_EOC ∧ block ≠ 0 then
      match vecGet fat block with
      | .error e => .error e
      | .ok next_block =>
        match vecGet blocks block with
        | .error e => .error e
        | .ok b =>
          deallocateLoop fuel (fat.set block FAT_FREE)
            (blocks.set block { b with data := List.replicate b.data.length 0 }) next_block
    else .ok (fat, blocks)

/-- `FileSystem::deallocateBlocksForFile`. A run that does not revisit a block makes at most
`fat.size()` iterations; one that does reads `FAT_FREE` as the next block and then either
leaves the table or stays at block `0xFFFF` for ever. -/
def deallocateBlocksForFile (fat : List Nat) (blocks : List DiskBlock)
    (entry : DirectoryEntry) : Except Fault (List Nat × List DiskBlock) :=
  deallocateLoop (fat.length + 2) fat blocks entry.getStartBlock

/-- The sum computed by `calculateDirectorySize`, in `uint32_t` arithmetic. -/
def sumFileSizes : List DirectoryEntry → Nat → Nat
  | [], totalSize => totalSize
  | entry :: rest, totalSize =>
    if !is_directory entry then sumFileSizes rest ((totalSize + entry.getSize) % 2 ^ 32)
    else sumFileSizes rest totalSize

/-- `FileSystem::calculateDirectorySize`. -/
def calculateDirectorySize (directory : DirectoryEntry) : DirectoryEntry :=
  directory.setSize (sumFileSizes directory.children 0)

/-! ## Paths (`utility.cpp`, `findDirectory`) -/

/-- `path.find_last_of(c)`. -/
def find_last_of : List Nat → Nat → Option Nat
  | [], _ => none
  | x :: xs, c =>
    match find_last_of xs c with
    | some i => some (i + 1)
    | none => if x = c then some 0 else none

/-- `extract_filename`. -/
def extract_filename (path : List Nat) : List Nat :=
  match find_last_of path 47 with
  | none => path
  | some last_slash_pos => path.drop (last_slash_pos + 1)

/-- `extract_directory_path`. -/
def extract_directory_path (path : List Nat) : List Nat :=
  if path = [47] then [47]
  else
    match find_last_of path 47 with
    | none => []
    | some last_slash_pos => path.take last_slash_pos

/-- The successive components that `std::getline(ss, component, '/')` yields on a stream
holding `s`, until it fails: a component ends at a `'/'` or at the end of the stream, and
nothing is yielded once the stream is exhausted. -/
def getlines : List Nat → List (List Nat)
  | [] => []
  | c :: cs =>
    if c = 47 then [] :: getlines cs
    else
      match getlines cs with
      | [] => [[c]]
      | w :: ws => (c :: w) :: ws

/-- The first element that satisfies `p`, with its position: a `for` loop that ends at the
first match. -/
def findFirst {α : Type} (p : α → Bool) : List α → Option (Nat × α)
  | [] => none
  | a :: as =>
    if p a then some (0, a)
    else
      match findFirst p as with
      | none => none
      | some (i, b) => some (i + 1, b)

/-- The `while` loop of `findDirectory` from the node `current_directory`: the positions of
the children walked through and the node reached. -/
def findDirectoryLoop :
    DirectoryEntry → List (List Nat) → Option (List Nat × DirectoryEntry)
  | current_directory, [] => some ([], current_directory)
  | current_directory, component :: rest =>
    if component = [] then findDirectoryLoop current_directory rest
    else
      match findFirst (fun entry => entry.getFilename == component
          && (entry.getAttribute &&& ATTR_DIRECTORY != 0)) current_directory.children with
      | none => none
      | some (i, entry) =>
        match findDirectoryLoop entry rest with
        | none => none
        | some (idx, d) => some (i :: idx, d)

/-- `FileSystem::findDirectory`. The pointer it returns is the list of child positions that
lead from the root to the node, together with the node; `none` is `nullptr`. -/
def findDirectory (root_directory : DirectoryEntry) (path : List Nat) :
    Option (List Nat × DirectoryEntry) :=
  findDirectoryLoop root_directory (getlines path)

/-- Replace the `i`-th element by its image under `f`. -/
def modifyNth {α : Type} (f : α → α) : Nat → List α → List α
  | _, [] => []
  | 0, a :: as => f a :: as
  | i + 1, a :: as => a :: modifyNth f i as

/-- An assignment through a pointer into the tree: apply `f` to the node at the end of the
list of child positions. -/
def modifyAt (f : DirectoryEntry → DirectoryEntry) : List Nat → DirectoryEntry → DirectoryEntry
  | [], e => f e
  | i :: idx, e => e.setChildren (modifyNth (modifyAt f idx) i e.children)

/-! ## Operations -/

/-- `FileSystem::mkdir`. -/
def mkdir (fs : FileSystem) (path : List Nat) (ctime mtime : Int) : FileSystem × Status :=
  let directory_path := extract_directory_path path
  let dir_name := extract_filename path
  match findDirectory fs.root_directory directory_path with
  | none => (fs, .notFound)
  | some (idx, parent_directory) =>
    if parent_directory.children.any (fun entry => entry.getFilename == dir_name) then
      (fs, .alreadyExists)
    else
      let new_directory := DirectoryEntry.init 0 ctime mtime
      let new_directory := new_directory.setFilename dir_name
      let new_directory := new_directory.setPermissions ⟨true, true⟩
      let new_directory := new_directory.setCreationTime ctime
      let new_directory := new_directory.setModificationTime mtime
      let new_directory := new_directory.setAttribute ATTR_DIRECTORY
      let new_directory := new_directory.setSize 0
      let new_directory := new_directory.setStartBlock FAT_EOC
      let root := modifyAt (fun p => p.setChildren (p.children ++ [new_directory])) idx
        fs.root_directory
      ({ fs with root_directory := root }, .ok)

/-- `FileSystem::rmdir`. -/
def rmdir (fs : FileSystem) (path : List Nat) : FileSystem × Status :=
  let parentPath := extract_directory_path path
  let dirName := extract_filename path
  match findDirectory fs.root_directory parentPath with
  | none => (fs, .notFound)
  | some (idx, parentDirectory) =>
    match findFirst (fun it => it.getFilename == dirName) parentDirectory.children with
    | none => (fs, .notFound)
    | some (i, it) =>
      if it.getAttribute &&& ATTR_DIRECTORY != 0 then
        let root := modifyAt (fun p => p.setChildren (p.children.eraseIdx i)) idx
          fs.root_directory
        ({ fs with root_directory := root }, .ok)
      else (fs, .wrongType)

/-- What `stat` reports about the host file: the owner permission bits and the times. -/
structure HostStat where
  irusr : Bool
  iwusr : Bool
  ctime : Int
  mtime : Int
deriving DecidableEq, Repr

/-- The host file read by `write`: its bytes, and the result of `stat` (`none` when `stat`
fails). -/
structure HostFile where
  data : List Nat
  stat : Option HostStat
deriving DecidableEq, Repr

/-- `FileSystem::setPermissionsFromLinuxFile`. -/
def setPermissionsFromLinuxFile (entry : DirectoryEntry) (linux_file : HostFile) :
    DirectoryEntry :=
  match linux_file.stat with
  | none => entry
  | some st => entry.setPermissions ⟨st.irusr, st.iwusr⟩

/-- `FileSystem::set_file_metadata`. -/
def set_file_metadata (linux_file : HostFile) (entry : DirectoryEntry) : DirectoryEntry :=
  match linux_file.stat with
  | none => entry
  | some st =>
    ((entry.setPermissions ⟨st.irusr, st.iwusr⟩).setCreationTime st.ctime).setModificationTime
      st.mtime

/-- The `while` loop of `FileSystem::write` that copies the host file into the blocks of the
chain; `stream` is what is left of the host file. -/
def writeLoop (block_size : Nat) (fat : List Nat) :
    Nat → List DiskBlock → Nat → Nat → List Nat → Except Fault (List DiskBlock)
  | 0, blocks, remaining_bytes, current_block, _ =>
    if remaining_bytes > 0 ∧ current_block ≠ FAT_EOC then .error .nonTermination
    else .ok blocks
  | fuel + 1, blocks, remaining_bytes, current_block, stream =>
    if remaining_bytes > 0 ∧ current_block ≠ FAT_EOC then
      match vecGet blocks current_block with
      | .error e => .error e
      | .ok block =>
        let bytes_to_write := min remaining_bytes block_size
        let chunk := stream.take bytes_to_write
        let blocks := blocks.set current_block
          { block with data := chunk ++ block.data.drop chunk.length }
        match vecGet fat current_block with
        | .error e => .error e
        | .ok next => writeLoop block_size fat fuel blocks (remaining_bytes - bytes_to_write)
            next (stream.drop bytes_to_write)
    else .ok blocks

/-- `FileSystem::write`; `linux_file` is `none` when the host file cannot be opened. Every
iteration of the copy loop consumes at least one byte (the block size is not zero once
`allocateBlocksForFile` has returned), so `size` iterations are enough. -/
def write (fs : FileSystem) (path : List Nat) (linux_file : Option HostFile)
    (ctime mtime : Int) : Except Fault (FileSystem × Status) :=
  let parent_directory_path := extract_directory_path path
  match findDirectory fs.root_directory parent_directory_path with
  | none => .ok (fs, .notFound)
  | some (idx, parent_directory) =>
    let new_file_name := extract_filename path
    if parent_directory.children.any (fun child => child.getFilename == new_file_name) then
      .ok (fs, .alreadyExists)
    else
      match linux_file with
      | none => .ok (fs, .hostError)
      | some host =>
        let new_file := DirectoryEntry.init 0 ctime mtime
        let new_file := new_file.setFilename (extract_filename path)
        let new_file := new_file.setSize host.data.length
        let new_file := setPermissionsFromLinuxFile new_file host
        let new_file := set_file_metadata host new_file
        match allocateBlocksForFile fs.superblock.block_size fs.fat new_file
            new_file.getSize with
        | .error e => .error e
        | .ok r =>
          let new_file := r.entry
          match writeLoop fs.superblock.block_size r.fat new_file.getSize fs.blocks
              new_file.getSize new_file.getStartBlock host.data with
          | .error e => .error e
          | .ok blocks =>
            let root := modifyAt (fun p => calculateDirectorySize
              (p.setChildren (p.children ++ [new_file]))) idx fs.root_directory
            .ok ({ fs with fat := r.fat, blocks := blocks, root_directory := root },
                 if r.insufficient then .insufficientSpace else .ok)

/-- `FileSystem::checkPassword`; `input` is the word read from `std::cin`. -/
def checkPassword (entry : DirectoryEntry) (input : List Nat) : Bool :=
  if entry.getPassword = [] then true else entry.getPassword == input

/-- `FileSystem::del`. -/
def del (fs : FileSystem) (path : List Nat) (input : List Nat) :
    Except Fault (FileSystem × Status) :=
  let parentDirectoryPath := extract_directory_path path
  let fileName := extract_filename path
  match findDirectory fs.root_directory parentDirectoryPath with
  | none => .ok (fs, .notFound)
  | some (idx, parentDirectory) =>
    match findFirst (fun it => it.getFilename == fileName) parentDirectory.children with
    | none => .ok (fs, .notFound)
    | some (i, it) =>
      if it.getAttribute &&& ATTR_DIRECTORY != 0 then .ok (fs, .wrongType)
      else if !checkPassword it input then .ok (fs, .authenticationFailed)
      else
        match deallocateBlocksForFile fs.fat fs.blocks it with
        | .error e => .error e
        | .ok (fat, blocks) =>
          let root := modifyAt (fun p => p.setChildren (p.children.eraseIdx i)) idx
            fs.root_directory
          .ok ({ fs with fat := fat, blocks := blocks, root_directory := root }, .ok)

/-! ## Auxiliary notions used in the statements -/

/-- The fields hold values of their C++ types (`uint32_t`, `uint16_t`, `uint8_t`,
`std::time_t`) and the strings have a `uint32_t` length. -/
def EntryFields.WF (f : EntryFields) : Prop :=
  f.filename.length < 2 ^ 32 ∧ f.size < 2 ^ 32
  ∧ (-(2 : Int) ^ 63 ≤ f.creation_time ∧ f.creation_time < 2 ^ 63)
  ∧ (-(2 : Int) ^ 63 ≤ f.modification_time ∧ f.modification_time < 2 ^ 63)
  ∧ f.password.length < 2 ^ 32 ∧ f.start_block < 2 ^ 16 ∧ f.attr < 2 ^ 8

mutual
/-- Every node of the tree holds values of its C++ types and has fewer than `2^32`
children. -/
def DirectoryEntry.WF : DirectoryEntry → Prop
  | .mk f cs => f.WF ∧ cs.length < 2 ^ 32 ∧ DirectoryEntry.WFList cs
def DirectoryEntry.WFList : List DirectoryEntry → Prop
  | [] => True
  | c :: cs => DirectoryEntry.WF c ∧ DirectoryEntry.WFList cs
end

mutual
/-- The number of nested calls of `read_directory` needed to rebuild a tree. -/
def DirectoryEntry.height : DirectoryEntry → Nat
  | .mk _ cs => DirectoryEntry.heightList cs + 1
def DirectoryEntry.heightList : List DirectoryEntry → Nat
  | [] => 0
  | c :: cs => max (DirectoryEntry.height c) (DirectoryEntry.heightList cs)
end

/-- The superblock and the FAT hold values of their C++ types. -/
def FileSystem.WF (fs : FileSystem) : Prop :=
  fs.superblock.total_blocks < 2 ^ 32 ∧ fs.superblock.fat_start < 2 ^ 32
  ∧ fs.superblock.root_dir_start < 2 ^ 32 ∧ fs.superblock.block_size < 2 ^ 32
  ∧ fs.fat.length < 2 ^ 32 ∧ (∀ e ∈ fs.fat, e < 2 ^ 16) ∧ fs.root_directory.WF

/-- The indices `j ≥ i` of the `FAT_FREE` entries of the table, in increasing order. -/
def freeFrom (fat : List Nat) (i : Nat) : List Nat :=
  (List.range' i (fat.length - i)).filter (fun j => decide (fat[j]? = some FAT_FREE))

/-- The indices `≥ 1` of the `FAT_FREE` entries of the table, in increasing order. -/
def freeIndices (fat : List Nat) : List Nat := freeFrom fat 1

/-- The block a chain starts with; the empty chain starts with the end-of-chain marker. -/
def chainHead : List Nat → Nat
  | [] => FAT_EOC
  | b :: _ => b

/-- Each block of the list is linked to the next one by its FAT entry, and the entry of the
last one is `FAT_EOC`. -/
def Linked (fat : List Nat) : List Nat → Prop
  | [] => True
  | b :: l => b ≠ FAT_EOC ∧ fat[b]? = some (chainHead l) ∧ Linked fat l

/-- The list `l` is the chain of blocks that starts at `start`: following the FAT entries
from `start` visits exactly the blocks of `l`, in this order, and then reaches `FAT_EOC`. -/
def IsChain (fat : List Nat) (start : Nat) (l : List Nat) : Prop :=
  start = chainHead l ∧ Linked fat l

instance Linked.decidable (fat : List Nat) : (l : List Nat) → Decidable (Linked fat l)
  | [] => isTrue trivial
  | b :: l =>
    match Linked.decidable fat l with
    | isTrue h =>
      if h1 : b ≠ FAT_EOC ∧ fat[b]? = some (chainHead l) then isTrue ⟨h1.1, h1.2, h⟩
      else isFalse (fun h2 => h1 ⟨h2.1, h2.2.1⟩)
    | isFalse h => isFalse (fun h2 => h h2.2.2)

instance IsChain.decidable (fat : List Nat) (start : Nat) (l : List Nat) :
    Decidable (IsChain fat start l) :=
  inferInstanceAs (Decidable (_ ∧ _))

/-- A block after `std::fill(data.begin(), data.end(), '\0')`. -/
def DiskBlock.zeroed (b : DiskBlock) : DiskBlock :=
  { b with data := List.replicate b.data.length 0 }

mutual
/-- The file nodes of the tree below a directory, in the order in which `countFiles` and
`listOccupiedBlocks` visit them: a child without the directory attribute is a file, a child
with it is descended into. -/
def allFiles : DirectoryEntry → List DirectoryEntry
  | .mk _ cs => allFilesList cs
def allFilesList : List DirectoryEntry → List DirectoryEntry
  | [] => []
  | c :: cs => (if is_directory c then allFiles c else [c]) ++ allFilesList cs
end

/-- Follow the FAT entries from block `b` for at most `fuel` steps, until `FAT_EOC` or an
index outside the table. -/
def chainWalk (fat : List Nat) : Nat → Nat → List Nat
  | 0, _ => []
  | fuel + 1, b =>
    if b = FAT_EOC then []
    else
      match fat[b]? with
      | none => [b]
      | some next => b :: chainWalk fat fuel next

/-- The blocks visited from `start` by following the FAT entries. -/
def chainOf (fat : List Nat) (start : Nat) : List Nat :=
  chainWalk fat (fat.length + 1) start

/-- The blocks on the chains of the files in the tree, file by file. -/
def reachableBlocks (fs : FileSystem) : List Nat :=
  (allFiles fs.root_directory).flatMap (fun f => chainOf fs.fat f.getStartBlock)

/-- The states reached from a freshly created file system by `mkdir`, `del` and those
`write` calls that do not report insufficient space. A call that faults (undefined
behaviour) has no successor state. -/
inductive ReachableNoShortage (total_blocks block_size : Nat) (ctime mtime : Int) :
    FileSystem → Prop where
  | create : ReachableNoShortage total_blocks block_size ctime mtime
      (FileSystem.create total_blocks block_size ctime mtime)
  | write (s s' : FileSystem) (path : List Nat) (linux_file : Option HostFile) (ct mt : Int)
      (st : Status) :
      ReachableNoShortage total_blocks block_size ctime mtime s →
      write s path linux_file ct mt = .ok (s', st) → st ≠ .insufficientSpace →
      ReachableNoShortage total_blocks block_size ctime mtime s'
  | del (s s' : FileSystem) (path input : List Nat) (st : Status) :
      ReachableNoShortage total_blocks block_size ctime mtime s →
      del s path input = .ok (s', st) →
      ReachableNoShortage total_blocks block_size ctime mtime s'
  | mkdir (s : FileSystem) (path : List Nat) (ct mt : Int) :
      ReachableNoShortage total_blocks block_size ctime mtime s →
      ReachableNoShortage total_blocks block_size ctime mtime (mkdir s path ct mt).1

/-- The allocation invariant: the FAT and the block array have `total_blocks` entries, the
start block of every file heads a chain, the chains are made of distinct blocks with
indices from 1 up, no block is on two chains, and the entries that are not on a chain and
not `FAT_FREE` number zero (free entries plus chain blocks make up the table); the entry of
block 0 is `FAT_FREE`. -/
def AllocInv (fs : FileSystem) : Prop :=
  fs.superblock.total_blocks = fs.fat.length
  ∧ fs.blocks.length = fs.fat.length
  ∧ fs.fat.length ≤ 0xFFFD
  ∧ (∀ f ∈ allFiles fs.root_directory,
      IsChain fs.fat f.getStartBlock (chainOf fs.fat f.getStartBlock))
  ∧ (reachableBlocks fs).Nodup
  ∧ (∀ b ∈ reachableBlocks fs, 1 ≤ b ∧ b < fs.fat.length)
  ∧ fs.fat.count FAT_FREE + (reachableBlocks fs).length = fs.fat.length
  ∧ (0 < fs.fat.length → fs.fat[0]? = some FAT_FREE)

/-- The entry `new_file` of `write` as it is handed to `allocateBlocksForFile`. -/
def new_file_entry (path : List Nat) (host : HostFile) (ctime mtime : Int) : DirectoryEntry :=
  set_file_metadata host (setPermissionsFromLinuxFile
    (((DirectoryEntry.init 0 ctime mtime).setFilename (extract_filename path)).setSize
      host.data.length) host)

/-- The `while` loop of `FileSystem::read` that copies the blocks of the chain to the host
file; `out` is what has been written so far. Each iteration writes the first
`bytes_to_read` bytes of the buffer of the block. -/
def readLoop (block_size : Nat) (fat : List Nat) (blocks : List DiskBlock) :
    Nat → Nat → Nat → List Nat → Except Fault (List Nat)
  | 0, remaining_bytes, current_block, out =>
    if remaining_bytes > 0 ∧ current_block ≠ FAT_EOC then .error .nonTermination
    else .ok out
  | fuel + 1, remaining_bytes, current_block, out =>
    if remaining_bytes > 0 ∧ current_block ≠ FAT_EOC then
      match vecGet blocks current_block with
      | .error e => .error e
      | .ok block =>
        let bytes_to_read := min remaining_bytes block_size
        match vecGet fat current_block with
        | .error e => .error e
        | .ok next => readLoop block_size fat blocks fuel (remaining_bytes - bytes_to_read) next
            (out ++ block.data.take bytes_to_read)
    else .ok out

/-- `FileSystem::read`: what is reported and the bytes written to the host file (`none`
when the host file is not opened); `input` is the word typed at the password prompt and
`can_open` tells whether the host file can be opened for writing. The state is not
changed. With a block size of zero the loop only ends by reaching `FAT_EOC` or leaving
the table, which a walk through an unchanged FAT does within `fat.size()` steps or never;
otherwise every iteration consumes a byte. Setting the permissions and times of the host
file afterwards (`apply_file_metadata`) is outside the model. -/
def read (fs : FileSystem) (path : List Nat) (input : List Nat) (can_open : Bool) :
    Except Fault (Status × Option (List Nat)) :=
  let parent_path := extract_directory_path path
  let file_name := extract_filename path
  match findDirectory fs.root_directory parent_path with
  | none => .ok (.notFound, none)
  | some (_, parent_directory) =>
    match findFirst (fun child => child.getFilename == file_name && !(is_directory child))
        parent_directory.children with
    | none => .ok (.notFound, none)
    | some (_, entry) =>
      if !checkPassword entry input then .ok (.authenticationFailed, none)
      else if !entry.getPermissions.read then .ok (.permissionDenied, none)
      else if !can_open then .ok (.hostError, none)
      else
        match readLoop fs.superblock.block_size fs.fat fs.blocks
            (entry.getSize + fs.fat.length + 1) entry.getSize entry.getStartBlock [] with
        | .error e => .error e
        | .ok out => .ok (.ok, some out)

/-- The new permissions computed by `fs_chmod`, `none` for an invalid string. The strings
are `+r`, `+w`, `-r`, `-w`, `+rw`, `+wr`, `-rw`, `-wr`. -/
def chmod_permissions (currentPermissions : Permissions) (permissions : List Nat) :
    Option Permissions :=
  if permissions = [43, 114] then some { currentPermissions with read := true }
  else if permissions = [43, 119] then some { currentPermissions with write := true }
  else if permissions = [45, 114] then some { currentPermissions with read := false }
  else if permissions = [45, 119] then some { currentPermissions with write := false }
  else if permissions = [43, 114, 119] ∨ permissions = [43, 119, 114] then
    some { read := true, write := true }
  else if permissions = [45, 114, 119] ∨ permissions = [45, 119, 114] then
    some { read := false, write := false }
  else none

/-- `FileSystem::fs_chmod`; `input` is the word typed at the password prompt, `now` the
clock. -/
def fs_chmod (fs : FileSystem) (path : List Nat) (permissions : List Nat) (input : List Nat)
    (now : Int) : FileSystem × Status :=
  let parentDirectoryPath := extract_directory_path path
  let fileName := extract_filename path
  match findDirectory fs.root_directory parentDirectoryPath with
  | none => (fs, .notFound)
  | some (idx, parentDirectory) =>
    match findFirst (fun child => child.getFilename == fileName) parentDirectory.children with
    | none => (fs, .notFound)
    | some (i, fileEntry) =>
      if !checkPassword fileEntry input then (fs, .authenticationFailed)
      else
        match chmod_permissions fileEntry.getPermissions permissions with
        | none => (fs, .invalidArgument)
        | some currentPermissions =>
          let root := modifyAt (fun p => p.setChildren (modifyNth (fun e =>
            (e.setPermissions currentPermissions).setModificationTime now) i p.children)) idx
            fs.root_directory
          ({ fs with root_directory := root }, .ok)

/-- `FileSystem::addpw`. The source calls `checkPassword(*fileEntry)` before it tests
`fileEntry` for `nullptr`: when no child has the name, a null pointer is dereferenced. -/
def addpw (fs : FileSystem) (path : List Nat) (password : List Nat) (input : List Nat)
    (now : Int) : Except Fault (FileSystem × Status) :=
  let parentDirectoryPath := extract_directory_path path
  let fileName := extract_filename path
  match findDirectory fs.root_directory parentDirectoryPath with
  | none => .ok (fs, .notFound)
  | some (idx, parentDirectory) =>
    match findFirst (fun child => child.getFilename == fileName) parentDirectory.children with
    | none => .error .nullDeref
    | some (i, fileEntry) =>
      if !checkPassword fileEntry input then .ok (fs, .authenticationFailed)
      else
        let root := modifyAt (fun p => p.setChildren (modifyNth (fun e =>
          (e.setPassword password).setModificationTime now) i p.children)) idx
          fs.root_directory
        .ok ({ fs with root_directory := root }, .ok)

/-- The node at the end of a list of child positions. -/
def nodeAt : DirectoryEntry → List Nat → Option DirectoryEntry
  | e, [] => some e
  | e, i :: idx =>
    match e.children[i]? with
    | none => none
    | some c => nodeAt c idx

/-- The non-empty `'/'`-separated segments of a path. -/
def segments (path : List Nat) : List (List Nat) :=
  (path.splitOn 47).filter (fun s => decide (s ≠ []))

/-- Path resolution in the words of the specification: walk the segments from a node, at
each segment moving to the first child, in child order, whose name is the segment and that
has the directory attribute; not found as soon as a segment has no such child. -/
def walkSegments : DirectoryEntry → List (List Nat) → Option DirectoryEntry
  | current, [] => some current
  | current, segment :: rest =>
    match current.children.find? (fun c => c.getFilename == segment && is_directory c) with
    | none => none
    | some c => walkSegments c rest

/-- The size of a directory in the words of the specification: the sum of the sizes of the
immediate children that are files, in 32-bit unsigned arithmetic. -/
def immediateFileSize (directory : DirectoryEntry) : Nat :=
  ((directory.children.filter (fun c => !is_directory c)).map DirectoryEntry.getSize).sum
    % 2 ^ 32

/-- The entry `new_directory` that `mkdir` appends. -/
def new_directory_entry (path : List Nat) (ctime mtime : Int) : DirectoryEntry :=
  (((((((DirectoryEntry.init 0 ctime mtime).setFilename (extract_filename path)).setPermissions
    ⟨true, true⟩).setCreationTime ctime).setModificationTime mtime).setAttribute
    ATTR_DIRECTORY).setSize 0).setStartBlock FAT_EOC

mutual
/-- No node of the tree has two children with equal names. -/
def UniqueNames : DirectoryEntry → Prop
  | .mk _ cs => (cs.map DirectoryEntry.getFilename).Nodup ∧ UniqueNamesList cs
def UniqueNamesList : List DirectoryEntry → Prop
  | [] => True
  | c :: cs => UniqueNames c ∧ UniqueNamesList cs
end

/-- The states reached from a freshly created file system by any sequence of `mkdir`,
`write`, `rmdir`, `del`, `fs_chmod` and `addpw` calls, whatever they report. A call that
faults (undefined behaviour) has no successor state. -/
inductive Reachable : FileSystem → Prop where
  | create (total_blocks block_size : Nat) (ctime mtime : Int) :
      Reachable (FileSystem.create total_blocks block_size ctime mtime)
  | mkdir (s : FileSystem) (path : List Nat) (ct mt : Int) :
      Reachable s → Reachable (mkdir s path ct mt).1
  | write (s s' : FileSystem) (path : List Nat) (linux_file : Option HostFile) (ct mt : Int)
      (st : Status) :
      Reachable s → write s path linux_file ct mt = .ok (s', st) → Reachable s'
  | rmdir (s : FileSystem) (path : List Nat) :
      Reachable s → Reachable (rmdir s path).1
  | del (s s' : FileSystem) (path input : List Nat) (st : Status) :
      Reachable s → del s path input = .ok (s', st) → Reachable s'
  | fs_chmod (s : FileSystem) (path permissions input : List Nat) (now : Int) :
      Reachable s → Reachable (fs_chmod s path permissions input now).1
  | addpw (s s' : FileSystem) (path password input : List Nat) (now : Int) (st : Status) :
      Reachable s → addpw s path password input now = .ok (s', st) → Reachable s'

mutual
/-- `FileSystem::countFiles`, with its `uint32_t` counter. -/
def countFiles : DirectoryEntry → Nat
  | .mk _ cs => countFilesLoop cs 0
/-- The `for` loop of `countFiles` over the children that are left, with the counter. -/
def countFilesLoop : List DirectoryEntry → Nat → Nat
  | [], count => count
  | entry :: rest, count =>
    if !is_directory entry then countFilesLoop rest ((count + 1) % 2 ^ 32)
    else countFilesLoop rest ((count + countFiles entry) % 2 ^ 32)
end

mutual
/-- `FileSystem::countDirectories`, with its `uint32_t` counter. -/
def countDirectories : DirectoryEntry → Nat
  | .mk _ cs => countDirectoriesLoop cs 1
/-- The `for` loop of `countDirectories` over the children that are left, with the
counter. -/
def countDirectoriesLoop : List DirectoryEntry → Nat → Nat
  | [], count => count
  | entry :: rest, count =>
    if is_directory entry then
      countDirectoriesLoop rest ((count + countDirectories entry) % 2 ^ 32)
    else countDirectoriesLoop rest count
end

mutual
/-- The nodes below a node, at any depth, parents before their children. -/
def descendants : DirectoryEntry → List DirectoryEntry
  | .mk _ cs => descendantsList cs
def descendantsList : List DirectoryEntry → List DirectoryEntry
  | [] => []
  | c :: cs => c :: (descendants c ++ descendantsList cs)
end

/-! # Theorems -/

/-! ## Persistence: lemmas -/

theorem le_bytes_length (n w : Nat) : (le_bytes n w).length = w := by
  induction w generalizing n with
  | zero => rfl
  | succ w ih => simp [le_bytes, ih]

theorem le_value_le_bytes (w n : Nat) (h : n < 256 ^ w) : le_value (le_bytes n w) = n := by
  induction w generalizing n with
  | zero => simp at h; simp [le_bytes, le_value, h]
  | succ w ih =>
    have h2 : n / 256 < 256 ^ w := by
      rw [Nat.div_lt_iff_lt_mul (by norm_num)]
      rw [pow_succ] at h
      exact h
    simp only [le_bytes, le_value, ih _ h2]
    omega

theorem readBytes_append (a r : List Nat) (n : Nat) (h : n = a.length) :
    readBytes n (a ++ r) = some (a, r) := by
  subst h
  simp [readBytes]

theorem readBytes_le_bytes (n w : Nat) (r : List Nat) :
    readBytes w (le_bytes n w ++ r) = some (le_bytes n w, r) :=
  readBytes_append _ _ _ (le_bytes_length n w).symm

theorem time_value_time_bytes (t : Int) (h1 : -(2 : Int) ^ 63 ≤ t) (h2 : t < 2 ^ 63) :
    time_value (time_bytes t) = t := by
  unfold time_value time_bytes
  have hm : (t % 2 ^ 64).toNat < 256 ^ 8 := by
    have : t % 2 ^ 64 < 2 ^ 64 := Int.emod_lt_of_pos _ (by norm_num)
    have h0 : 0 ≤ t % 2 ^ 64 := Int.emod_nonneg _ (by norm_num)
    omega
  rw [le_value_le_bytes 8 _ hm]
  have h0 : 0 ≤ t % 2 ^ 64 := Int.emod_nonneg _ (by norm_num)
  by_cases ht : 0 ≤ t
  · have e : t % 2 ^ 64 = t := Int.emod_eq_of_lt ht (by omega)
    rw [e]
    have : t.toNat < 2 ^ 63 := by omega
    simp [this]
    omega
  · have e : t % 2 ^ 64 = t + 2 ^ 64 := by
      have := Int.emod_emod_of_dvd t (dvd_refl ((2 : Int) ^ 64))
      rw [← Int.add_mul_emod_self (a := t) (b := 1) (c := 2 ^ 64)]
      rw [one_mul]
      exact Int.emod_eq_of_lt (by omega) (by omega)
    rw [e]
    have : ¬ (t + 2 ^ 64).toNat < 2 ^ 63 := by omega
    simp [this]
    omega

theorem bool_byte_ne_zero (b : Bool) : (bool_byte b != 0) = b := by
  cases b <;> rfl

mutual
theorem read_directory_write_directory :
    ∀ (e : DirectoryEntry) (fuel : Nat) (r : List Nat), e.WF → e.height ≤ fuel →
      read_directory fuel (write_directory e ++ r) = some (e, r)
  | .mk f cs, fuel, r, hwf, hf => by
    obtain ⟨⟨h1, h2, ⟨h3, h3'⟩, ⟨h4, h4'⟩, h5, h6, h7⟩, hc, hcs⟩ := hwf
    cases fuel with
    | zero => simp [DirectoryEntry.height] at hf
    | succ fuel =>
      have hf' : DirectoryEntry.heightList cs ≤ fuel := by
        simp [DirectoryEntry.height] at hf
        exact hf
      have ih := readN_write_children cs fuel r hcs hf'
      simp only [write_directory, read_directory, List.append_assoc, readBytes_le_bytes,
        time_bytes]
      rw [le_value_le_bytes 4 _ (by simpa using h1)]
      rw [readBytes_append f.filename _ _ rfl]
      simp only [readBytes_le_bytes]
      rw [show ∀ (a b : Nat) (l : List Nat), [a, b] ++ l = a :: b :: l from fun _ _ _ => rfl]
      rw [show ∀ (a b : Nat) (l : List Nat), readBytes 2 (a :: b :: l) = some ([a, b], l) from
        fun _ _ _ => by simp [readBytes]]
      simp only [readBytes_le_bytes]
      rw [le_value_le_bytes 4 _ (by simpa using h5)]
      rw [readBytes_append f.password _ _ rfl]
      simp only [readBytes_le_bytes]
      rw [le_value_le_bytes 4 _ (by simpa using hc)]
      rw [ih]
      simp only [Option.some.injEq, Prod.mk.injEq, and_true]
      rw [le_value_le_bytes 4 _ (by simpa using h2), le_value_le_bytes 2 _ (by simpa using h6),
        le_value_le_bytes 1 _ (by simpa using h7)]
      have e1 := time_value_time_bytes _ h3 h3'
      have e2 := time_value_time_bytes _ h4 h4'
      simp only [time_bytes] at e1 e2
      rw [e1, e2]
      simp [bool_byte_ne_zero]
theorem readN_write_children :
    ∀ (cs : List DirectoryEntry) (fuel : Nat) (r : List Nat), DirectoryEntry.WFList cs →
      DirectoryEntry.heightList cs ≤ fuel →
      readN (read_directory fuel) cs.length (write_children cs ++ r) = some (cs, r)
  | [], _, _, _, _ => rfl
  | c :: cs, fuel, r, hwf, hf => by
    obtain ⟨hc, hcs⟩ := hwf
    simp only [DirectoryEntry.heightList] at hf
    have i1 := read_directory_write_directory c fuel (write_children cs ++ r) hc (by omega)
    have i2 := readN_write_children cs fuel r hcs (by omega)
    simp only [write_children, List.length_cons, readN, List.append_assoc, i1, i2]
end

theorem readN_load_fat_entry (fat r : List Nat) (h : ∀ e ∈ fat, e < 2 ^ 16) :
    readN load_fat_entry fat.length (fat.flatMap (fun e => le_bytes e 2) ++ r)
      = some (fat, r) := by
  induction fat with
  | nil => rfl
  | cons e fat ih =>
    have he : e < 256 ^ 2 := by simpa using h e (by simp)
    have ih' := ih (fun x hx => h x (by simp [hx]))
    simp only [List.flatMap_cons, List.length_cons, readN, load_fat_entry, List.append_assoc,
      readBytes_le_bytes, le_value_le_bytes 2 e he, ih']

mutual
theorem height_le_length : ∀ (e : DirectoryEntry), e.height ≤ (write_directory e).length
  | .mk f cs => by
    have := heightList_le_length cs
    simp only [DirectoryEntry.height, write_directory, List.length_append, le_bytes_length]
    omega
theorem heightList_le_length :
    ∀ (cs : List DirectoryEntry), DirectoryEntry.heightList cs ≤ (write_children cs).length
  | [] => by simp [DirectoryEntry.heightList]
  | c :: cs => by
    have h1 := height_le_length c
    have h2 := heightList_le_length cs
    simp only [DirectoryEntry.heightList, write_children, List.length_append]
    omega
end

theorem save_superblock_decode (sb : Superblock) (h1 : sb.total_blocks < 2 ^ 32)
    (h2 : sb.fat_start < 2 ^ 32) (h3 : sb.root_dir_start < 2 ^ 32)
    (h4 : sb.block_size < 2 ^ 32) :
    ({ total_blocks := le_value ((save_superblock sb).take 4),
       fat_start := le_value (((save_superblock sb).drop 4).take 4),
       root_dir_start := le_value (((save_superblock sb).drop 8).take 4),
       block_size := le_value ((save_superblock sb).drop 12) } : Superblock) = sb := by
  have l (n : Nat) : (le_bytes n 4).length = 4 := le_bytes_length n 4
  have e1 : (save_superblock sb).take 4 = le_bytes sb.total_blocks 4 := by
    simp only [save_superblock, List.append_assoc]
    exact List.take_left' (l _)
  have d1 : (save_superblock sb).drop 4 = le_bytes sb.fat_start 4
      ++ (le_bytes sb.root_dir_start 4 ++ le_bytes sb.block_size 4) := by
    simp only [save_superblock, List.append_assoc]
    exact List.drop_left' (l _)
  have d2 : (save_superblock sb).drop 8
      = le_bytes sb.root_dir_start 4 ++ le_bytes sb.block_size 4 := by
    rw [show 8 = 4 + 4 from rfl, ← List.drop_drop, d1]
    exact List.drop_left' (l _)
  have d3 : (save_superblock sb).drop 12 = le_bytes sb.block_size 4 := by
    rw [show 12 = 8 + 4 from rfl, ← List.drop_drop, d2]
    exact List.drop_left' (l _)
  rw [e1, d1, d2, d3, List.take_left' (l _), List.take_left' (l _)]
  rw [le_value_le_bytes 4 _ (by simpa using h1), le_value_le_bytes 4 _ (by simpa using h2),
    le_value_le_bytes 4 _ (by simpa using h3), le_value_le_bytes 4 _ (by simpa using h4)]

theorem load_save_blocks (tail : Nat → List Nat) (fs : FileSystem) (h : fs.WF) :
    load_filesystem (save_filesystem tail fs)
      = match readN (load_block fs.superblock.block_size) fs.superblock.total_blocks
          (save_blocks tail fs.superblock.block_size 0 fs.blocks) with
        | none => none
        | some (blocks, _) => some { fs with blocks := blocks } := by
  obtain ⟨h1, h2, h3, h4, h5, h6, h7⟩ := h
  have hsb : (save_superblock fs.superblock).length = 16 := by
    simp [save_superblock, le_bytes_length]
  unfold load_filesystem save_filesystem
  simp only [List.append_assoc]
  rw [readBytes_append _ _ _ hsb.symm]
  simp only [save_superblock_decode fs.superblock h1 h2 h3 h4]
  simp only [save_fat, Nat.mod_eq_of_lt h5, List.take_length, List.append_assoc,
    readBytes_le_bytes]
  rw [le_value_le_bytes 4 _ (by simpa using h5), readN_load_fat_entry _ _ h6]
  simp only
  rw [read_directory_write_directory _ _ _ h7
    (le_trans (height_le_length _) (by simp; omega))]
  have hd := save_superblock_decode fs.superblock h1 h2 h3 h4
  have hb := congrArg Superblock.block_size hd
  have ht := congrArg Superblock.total_blocks hd
  simp only at hb ht
  simp only [hb, ht]

theorem save_blocks_length (tail : Nat → List Nat) (k bs : Nat)
    (hk : ∀ i, (tail i).length = k) (blocks : List DiskBlock) (i : Nat)
    (hd : ∀ b ∈ blocks, b.data.length = bs) :
    (save_blocks tail bs i blocks).length = blocks.length * (4 + k + bs) := by
  induction blocks generalizing i with
  | nil => simp [save_blocks]
  | cons b blocks ih =>
    have hb : b.data.length = bs := hd b (by simp)
    have ih' := ih (i + 1) (fun x hx => hd x (by simp [hx]))
    simp only [save_blocks, List.length_append, le_bytes_length, hk, List.length_take, hb, ih',
      List.length_cons, Nat.min_self]
    ring

theorem readN_succ_eq_some {α : Type} (f : List Nat → Option (α × List Nat)) (n : Nat)
    (s : List Nat) (l : List α) (r : List Nat) :
    readN f (n + 1) s = some (l, r)
      ↔ ∃ a s1 as, f s = some (a, s1) ∧ readN f n s1 = some (as, r) ∧ l = a :: as := by
  constructor
  · intro h
    simp only [readN] at h
    cases hf : f s with
    | none => simp [hf] at h
    | some p =>
      obtain ⟨a, s1⟩ := p
      cases hr : readN f n s1 with
      | none => simp [hf, hr] at h
      | some q =>
        obtain ⟨as, r'⟩ := q
        simp only [hf, hr, Option.some.injEq, Prod.mk.injEq] at h
        exact ⟨a, s1, as, rfl, by rw [hr, h.2], h.1.symm⟩
  · rintro ⟨a, s1, as, h1, h2, rfl⟩
    simp only [readN, h1, h2]

theorem load_block_eq (bs : Nat) (s : List Nat) :
    load_block bs s
      = if s.length < 4 + bs then none
        else some ({ block_number := le_value (s.take 4), data := (s.drop 4).take bs },
          s.drop (4 + bs)) := by
  unfold load_block readBytes
  by_cases h4 : s.length < 4
  · have : s.length < 4 + bs := by omega
    simp only [h4, this, if_true]
  · by_cases hb : (s.drop 4).length < bs
    · have : s.length < 4 + bs := by simp at hb; omega
      simp only [h4, hb, this, if_true, if_false]
    · have : ¬ s.length < 4 + bs := by simp at hb; omega
      simp only [h4, hb, this, if_false, List.drop_drop]

theorem readN_load_block_some (bs : Nat) (m : Nat) (s : List Nat)
    (h : m * (4 + bs) ≤ s.length) :
    ∃ bl r, readN (load_block bs) m s = some (bl, r) := by
  induction m generalizing s with
  | zero => exact ⟨[], s, rfl⟩
  | succ m ih =>
    have hlen : 4 + bs + m * (4 + bs) ≤ s.length := by
      have : (m + 1) * (4 + bs) = 4 + bs + m * (4 + bs) := by ring
      omega
    obtain ⟨bl, r, hr⟩ := ih (s.drop (4 + bs)) (by simp; omega)
    refine ⟨{ block_number := le_value (s.take 4), data := (s.drop 4).take bs } :: bl, r, ?_⟩
    rw [readN_succ_eq_some]
    refine ⟨_, _, bl, ?_, hr, rfl⟩
    rw [load_block_eq, if_neg (by omega)]

theorem readN_load_block_second (bs m : Nat) (s : List Nat) (bl : List DiskBlock)
    (r : List Nat) (h : readN (load_block bs) (m + 2) s = some (bl, r)) :
    ∃ b0 b1 rest, bl = b0 :: b1 :: rest
      ∧ b1.block_number = le_value ((s.drop (4 + bs)).take 4) := by
  rw [readN_succ_eq_some] at h
  obtain ⟨b0, s1, l1, h0, h1, rfl⟩ := h
  rw [readN_succ_eq_some] at h1
  obtain ⟨b1, s2, l2, h1, _, rfl⟩ := h1
  refine ⟨b0, b1, l2, rfl, ?_⟩
  rw [load_block_eq] at h0 h1
  split at h0
  · cases h0
  · split at h1
    · cases h1
    · simp only [Option.some.injEq, Prod.mk.injEq] at h0 h1
      rw [← h1.1, ← h0.2]

theorem create_WF (n bs : Nat) (ct mt : Int) (hn : n < 2 ^ 32) (hbs : bs < 2 ^ 32)
    (hct : -(2 : Int) ^ 63 ≤ ct ∧ ct < 2 ^ 63) (hmt : -(2 : Int) ^ 63 ≤ mt ∧ mt < 2 ^ 63) :
    (FileSystem.create n bs ct mt).WF := by
  refine ⟨hn, by simp [FileSystem.create], ?_, hbs, ?_, ?_, ?_⟩
  · simp only [FileSystem.create]
    exact Nat.mod_lt _ (by norm_num)
  · simpa [FileSystem.create] using hn
  · intro e he
    simp only [FileSystem.create, List.mem_replicate] at he
    rw [he.2]
    decide
  · simp only [FileSystem.create, DirectoryEntry.init, DirectoryEntry.setFilename,
      DirectoryEntry.setSize, DirectoryEntry.setPermissions, DirectoryEntry.setCreationTime,
      DirectoryEntry.setModificationTime, DirectoryEntry.setStartBlock,
      DirectoryEntry.setAttribute, DirectoryEntry.fields, DirectoryEntry.children,
      DirectoryEntry.WF, DirectoryEntry.WFList, EntryFields.WF, ATTR_DIRECTORY]
    refine ⟨⟨by simp, by simp, hct, hmt, by simp, ?_, by norm_num⟩, by simp, trivial⟩
    exact Nat.mod_lt _ (by norm_num)

theorem create_blocks_data (n bs : Nat) (ct mt : Int) :
    ∀ b ∈ (FileSystem.create n bs ct mt).blocks,
      b.data.length = (FileSystem.create n bs ct mt).superblock.block_size := by
  intro b hb
  simp only [FileSystem.create, List.mem_map] at hb ⊢
  obtain ⟨i, _, rfl⟩ := hb
  simp

theorem create_blocks_length (n bs : Nat) (ct mt : Int) :
    (FileSystem.create n bs ct mt).blocks.length
      = (FileSystem.create n bs ct mt).superblock.total_blocks := by
  simp [FileSystem.create]

theorem create_blocks_cons (n bs : Nat) (ct mt : Int) :
    ∃ rest, (FileSystem.create (n + 2) bs ct mt).blocks
      = { block_number := 0, data := List.replicate bs 0 }
        :: { block_number := 1, data := List.replicate bs 0 } :: rest := by
  refine ⟨((List.range n).map (fun i => i + 1 + 1)).map
    (fun i => { block_number := i, data := List.replicate bs 0 }), ?_⟩
  simp only [FileSystem.create]
  rw [List.range_succ_eq_map, List.range_succ_eq_map]
  simp [Function.comp_def]

/-- C2 (code defect). The image written by `save_filesystem` ends with the block section,
and for a file system whose `total_blocks` blocks hold `block_size` bytes each that section
is `total_blocks * (sizeof(DiskBlock) + block_size)` bytes long, where `sizeof(DiskBlock)` is
`4 + k` for the `k` bytes that follow `block_number` in the object: each record is the
whole `DiskBlock` object and then the data, not a 4-byte block number and then the data. -/
theorem save_blocks_section_length (tail : Nat → List Nat) (k : Nat) (fs : FileSystem)
    (hk : ∀ i, (tail i).length = k)
    (hd : ∀ b ∈ fs.blocks, b.data.length = fs.superblock.block_size)
    (hn : fs.blocks.length = fs.superblock.total_blocks) :
    save_filesystem tail fs
        = (save_superblock fs.superblock ++ save_fat fs.fat
            ++ write_directory fs.root_directory)
          ++ save_blocks tail fs.superblock.block_size 0 fs.blocks
      ∧ (save_blocks tail fs.superblock.block_size 0 fs.blocks).length
        = fs.superblock.total_blocks * (4 + k + fs.superblock.block_size)
      ∧ (0 < k → 0 < fs.superblock.total_blocks →
          (save_blocks tail fs.superblock.block_size 0 fs.blocks).length
            ≠ fs.superblock.total_blocks * (4 + fs.superblock.block_size)) := by
  have hl := save_blocks_length tail k fs.superblock.block_size hk fs.blocks 0 hd
  rw [hn] at hl
  refine ⟨rfl, hl, ?_⟩
  intro hk0 hn0
  rw [hl]
  intro h
  have := Nat.eq_of_mul_eq_mul_left hn0 h
  omega

/-- Witness of `save_blocks_section_length`: the file system made by
`FileSystem(4096, 512)` with 28 bytes after `block_number` in a `DiskBlock`. -/
theorem save_blocks_section_length_witness :
    (save_blocks (fun _ => List.replicate 28 0)
        (FileSystem.create 4096 512 0 0).superblock.block_size 0
        (FileSystem.create 4096 512 0 0).blocks).length
      = (FileSystem.create 4096 512 0 0).superblock.total_blocks
        * (4 + 28 + (FileSystem.create 4096 512 0 0).superblock.block_size) :=
  (save_blocks_section_length (fun _ => List.replicate 28 0) 28
    (FileSystem.create 4096 512 0 0) (fun _ => List.length_replicate _ _)
    (create_blocks_data 4096 512 0 0) (create_blocks_length 4096 512 0 0)).2.1

/-- C1 (code defect). Loading the image saved from a freshly created file system with at
least two blocks does return a state, with the saved superblock, FAT and tree, but not the
saved blocks: `save_filesystem` writes `sizeof(DiskBlock) = 4 + k` bytes of each block
object where `load_filesystem` reads 4, so (for `4 ≤ k ≤ block_size`) the number of the
second block is read from the data bytes of the first and comes back as `0` instead of
`1`. -/
theorem load_save_create_blocks_differ (tail : Nat → List Nat) (k n bs : Nat) (ct mt : Int)
    (hk : ∀ i, (tail i).length = k) (hk4 : 4 ≤ k) (hkb : k ≤ bs)
    (hn : n + 2 < 2 ^ 32) (hbs : bs < 2 ^ 32)
    (hct : -(2 : Int) ^ 63 ≤ ct ∧ ct < 2 ^ 63) (hmt : -(2 : Int) ^ 63 ≤ mt ∧ mt < 2 ^ 63) :
    ∃ s', load_filesystem (save_filesystem tail (FileSystem.create (n + 2) bs ct mt)) = some s'
      ∧ s'.superblock = (FileSystem.create (n + 2) bs ct mt).superblock
      ∧ s'.fat = (FileSystem.create (n + 2) bs ct mt).fat
      ∧ s'.root_directory = (FileSystem.create (n + 2) bs ct mt).root_directory
      ∧ (s'.blocks[1]?).map DiskBlock.block_number = some 0
      ∧ ((FileSystem.create (n + 2) bs ct mt).blocks[1]?).map DiskBlock.block_number = some 1
      ∧ s' ≠ FileSystem.create (n + 2) bs ct mt := by
  have hwf := create_WF (n + 2) bs ct mt hn hbs hct hmt
  have hload := load_save_blocks tail _ hwf
  have hlen := save_blocks_length tail k bs hk (FileSystem.create (n + 2) bs ct mt).blocks 0
    (create_blocks_data (n + 2) bs ct mt)
  have hbl : (FileSystem.create (n + 2) bs ct mt).blocks.length = n + 2 := by
    simp [FileSystem.create]
  have hsb : (FileSystem.create (n + 2) bs ct mt).superblock.block_size = bs := rfl
  have htb : (FileSystem.create (n + 2) bs ct mt).superblock.total_blocks = n + 2 := rfl
  rw [hsb, htb] at hload
  obtain ⟨bl, r, hr⟩ := readN_load_block_some bs (n + 2)
    (save_blocks tail bs 0 (FileSystem.create (n + 2) bs ct mt).blocks) (by
      rw [hlen, hbl]
      exact Nat.mul_le_mul_left _ (by omega))
  obtain ⟨b0, b1, rest, hbl', hb1⟩ := readN_load_block_second bs n _ bl r hr
  obtain ⟨rest0, hc⟩ := create_blocks_cons n bs ct mt
  have hzero : b1.block_number = 0 := by
    rw [hb1, hc]
    simp only [save_blocks, List.append_assoc, List.take_replicate, Nat.min_self]
    rw [← List.drop_drop, List.drop_left' (le_bytes_length _ _)]
    have e1 : List.drop bs (tail 0 ++ (List.replicate bs 0 ++
        (le_bytes 1 4 ++ (tail (0 + 1) ++ (List.replicate bs 0
          ++ save_blocks tail bs (0 + 1 + 1) rest0)))))
        = List.replicate k 0 ++ (le_bytes 1 4 ++ (tail (0 + 1) ++ (List.replicate bs 0
          ++ save_blocks tail bs (0 + 1 + 1) rest0))) := by
      rw [List.drop_append_eq_append_drop, hk]
      rw [List.drop_of_length_le (by rw [hk]; exact hkb), List.nil_append]
      rw [List.drop_append_eq_append_drop]
      simp only [List.drop_replicate, List.length_replicate]
      rw [show bs - (bs - k) = k by omega, show bs - k - bs = 0 by omega, List.drop_zero]
    rw [e1]
    obtain ⟨j, rfl⟩ : ∃ j, k = 4 + j := ⟨k - 4, by omega⟩
    rw [List.replicate_add, List.append_assoc, List.take_left' (by simp)]
    rfl
  refine ⟨{ FileSystem.create (n + 2) bs ct mt with blocks := bl }, ?_, rfl, rfl, rfl, ?_, ?_, ?_⟩
  · rw [hload, hr]
  · simp [hbl', hzero]
  · simp [hc]
  · intro h
    have h2 := congrArg (fun s => (s.blocks[1]?).map DiskBlock.block_number) h
    simp only [hbl', hc] at h2
    simp [hzero] at h2

/-- Witness of `load_save_create_blocks_differ`: `FileSystem(4096, 512)` as made by the
creation program, with 28 bytes after `block_number` in a `DiskBlock`. -/
theorem load_save_create_blocks_differ_witness :
    ∃ s', load_filesystem (save_filesystem (fun _ => List.replicate 28 0)
        (FileSystem.create (4094 + 2) 512 0 0)) = some s'
      ∧ s' ≠ FileSystem.create (4094 + 2) 512 0 0 := by
  obtain ⟨s', h1, _, _, _, _, _, h2⟩ := load_save_create_blocks_differ
    (fun _ => List.replicate 28 0) 28 4094 512 0 0 (fun _ => List.length_replicate _ _)
    (by decide) (by decide)
    (by decide) (by decide) (by decide) (by decide)
  exact ⟨s', h1, h2⟩

theorem readN_load_block_save_blocks (bs : Nat) (blocks : List DiskBlock) (i : Nat)
    (r : List Nat) (hn : ∀ b ∈ blocks, b.block_number < 2 ^ 32)
    (hd : ∀ b ∈ blocks, b.data.length = bs) :
    readN (load_block bs) blocks.length (save_blocks (fun _ => []) bs i blocks ++ r)
      = some (blocks, r) := by
  induction blocks generalizing i with
  | nil => rfl
  | cons b blocks ih =>
    have hb1 : b.block_number < 256 ^ 4 := by simpa using hn b (List.mem_cons_self _ _)
    have hb2 : b.data.length = bs := hd b (List.mem_cons_self _ _)
    have ih' := ih (i + 1) (fun x hx => hn x (List.mem_cons_of_mem _ hx))
      (fun x hx => hd x (List.mem_cons_of_mem _ hx))
    rw [List.length_cons, readN_succ_eq_some]
    refine ⟨b, save_blocks (fun _ => []) bs (i + 1) blocks ++ r, blocks, ?_, ih', rfl⟩
    have htake : b.data.take bs = b.data := by rw [← hb2]; exact List.take_length _
    simp only [save_blocks, load_block, List.append_nil, List.append_assoc, htake,
      readBytes_le_bytes, le_value_le_bytes 4 _ hb1]
    rw [readBytes_append b.data _ _ hb2.symm]

/-- Had `save_filesystem` written only the 4-byte `block_number` of each block (no bytes
after it), `load_filesystem` would return the saved state. -/
theorem load_save_of_four_byte_records (fs : FileSystem) (h : fs.WF)
    (hl : fs.blocks.length = fs.superblock.total_blocks)
    (hn : ∀ b ∈ fs.blocks, b.block_number < 2 ^ 32)
    (hd : ∀ b ∈ fs.blocks, b.data.length = fs.superblock.block_size) :
    load_filesystem (save_filesystem (fun _ => []) fs) = some fs := by
  rw [load_save_blocks _ fs h]
  have := readN_load_block_save_blocks fs.superblock.block_size fs.blocks 0 [] hn hd
  rw [List.append_nil, hl] at this
  rw [this]

/-! ## FAT allocation: lemmas -/

theorem mem_freeFrom (fat : List Nat) (i c : Nat) :
    c ∈ freeFrom fat i ↔ i ≤ c ∧ c < fat.length ∧ fat[c]? = some FAT_FREE := by
  simp only [freeFrom, List.mem_filter, List.mem_range'_1, decide_eq_true_eq]
  constructor
  · rintro ⟨⟨h1, h2⟩, h3⟩
    exact ⟨h1, by omega, h3⟩
  · rintro ⟨h1, h2, h3⟩
    exact ⟨⟨h1, by omega⟩, h3⟩

theorem freeFrom_pairwise (fat : List Nat) (i : Nat) :
    (freeFrom fat i).Pairwise (· < ·) :=
  List.Pairwise.filter _ (List.pairwise_lt_range' i (fat.length - i))

theorem freeFrom_nodup (fat : List Nat) (i : Nat) : (freeFrom fat i).Nodup :=
  (freeFrom_pairwise fat i).imp (fun h => Nat.ne_of_lt h)

theorem freeFrom_step (fat : List Nat) (i : Nat) (h : i < fat.length) :
    freeFrom fat i
      = if fat[i]? = some FAT_FREE then i :: freeFrom fat (i + 1) else freeFrom fat (i + 1) := by
  unfold freeFrom
  have e : fat.length - i = (fat.length - (i + 1)) + 1 := by omega
  rw [e, List.range'_succ, List.filter_cons]
  by_cases hf : fat[i]? = some FAT_FREE <;> simp [hf]

theorem freeFrom_of_le (fat : List Nat) (i : Nat) (h : fat.length ≤ i) : freeFrom fat i = [] := by
  unfold freeFrom
  rw [show fat.length - i = 0 by omega]
  rfl

theorem freeFrom_set (fat : List Nat) (i j v : Nat) (hv : v ≠ FAT_FREE) :
    freeFrom (fat.set j v) i = (freeFrom fat i).filter (fun c => decide (c ≠ j)) := by
  unfold freeFrom
  rw [List.filter_filter, List.length_set]
  apply List.filter_congr
  intro c _
  by_cases hc : c = j
  · subst hc
    by_cases hl : c < fat.length
    · simp [List.getElem?_set_self hl, hv]
    · simp [List.getElem?_eq_none (l := fat.set c v) (by simpa using hl)]
  · simp [hc, List.getElem?_set_ne (Ne.symm hc)]

theorem findNextFreeBlockLoop_eq (fat : List Nat) (hlen : fat.length ≤ 0xFFFF) :
    ∀ (fuel i : Nat), i ≤ fat.length → fat.length - i < fuel →
      findNextFreeBlockLoop fat fuel i
        = .ok (match freeFrom fat i with
               | [] => (fat, FAT_FREE)
               | c :: _ => (fat.set c FAT_USED, c)) := by
  intro fuel
  induction fuel with
  | zero => intro i _ h; omega
  | succ fuel ih =>
    intro i hi hf
    unfold findNextFreeBlockLoop
    by_cases hlt : i < fat.length
    · rw [if_pos hlt, freeFrom_step fat i hlt]
      by_cases hfree : fat[i]? = some FAT_FREE
      · simp only [hfree, if_true]
      · have hmod : (i + 1) % 2 ^ 16 = i + 1 := Nat.mod_eq_of_lt (by omega)
        simp only [hfree, if_false, hmod]
        exact ih (i + 1) hlt (by omega)
    · rw [if_neg hlt, freeFrom_of_le fat i (by omega)]

theorem findNextFreeBlock_eq (fat : List Nat) (hlen : fat.length ≤ 0xFFFF) :
    findNextFreeBlock fat
      = .ok (match freeIndices fat with
             | [] => (fat, FAT_FREE)
             | c :: _ => (fat.set c FAT_USED, c)) := by
  unfold findNextFreeBlock freeIndices
  by_cases h0 : fat.length = 0
  · have hnil : fat = [] := List.length_eq_zero.mp h0
    subst hnil
    rfl
  · exact findNextFreeBlockLoop_eq fat hlen (2 ^ 16 + 1) 1 (by omega) (by omega)

theorem Linked_congr (fat F : List Nat) (l : List Nat) (h : ∀ b ∈ l, F[b]? = fat[b]?)
    (hl : Linked fat l) : Linked F l := by
  induction l with
  | nil => trivial
  | cons b l ih =>
    obtain ⟨h1, h2, h3⟩ := hl
    refine ⟨h1, ?_, ih (fun x hx => h x (by simp [hx])) h3⟩
    rw [h b (by simp), h2]

theorem chainHead_mem_or (l : List Nat) : chainHead l = FAT_EOC ∨ chainHead l ∈ l := by
  cases l with
  | nil => exact Or.inl rfl
  | cons b l => exact Or.inr (by simp [chainHead])

theorem Linked_entry (fat : List Nat) (l : List Nat) (hl : Linked fat l) (i : Nat)
    (hi : i ∈ l) : ∃ v, fat[i]? = some v ∧ (v = FAT_EOC ∨ v ∈ l) := by
  induction l with
  | nil => simp at hi
  | cons b l ih =>
    obtain ⟨_, h2, h3⟩ := hl
    rcases List.mem_cons.mp hi with rfl | hi'
    · refine ⟨_, h2, ?_⟩
      rcases chainHead_mem_or l with h | h
      · exact Or.inl h
      · exact Or.inr (List.mem_cons_of_mem _ h)
    · obtain ⟨v, hv, hv'⟩ := ih h3 hi'
      exact ⟨v, hv, hv'.imp id (List.mem_cons_of_mem _)⟩

theorem freeIndices_after_claim (fat : List Nat) (c prev v : Nat) (fl : List Nat)
    (hfl : freeIndices fat = c :: fl) (hprev : prev ∉ fl) (hv : v ≠ FAT_FREE) :
    freeIndices ((fat.set c FAT_USED).set prev v) = fl := by
  have hnd : (c :: fl).Nodup := hfl ▸ freeFrom_nodup fat 1
  have hc : c ∉ fl := (List.nodup_cons.mp hnd).1
  unfold freeIndices at hfl ⊢
  rw [freeFrom_set _ _ _ _ hv, freeFrom_set _ _ _ _ (by decide), hfl, List.filter_cons]
  simp only [ne_eq, not_true_eq_false, decide_False, Bool.false_eq_true, if_false]
  have e1 : fl.filter (fun x => decide (x ≠ c)) = fl :=
    List.filter_eq_self.mpr (fun y hy => decide_eq_true (fun (h : y = c) => hc (h ▸ hy)))
  have e2 : fl.filter (fun x => decide (x ≠ prev)) = fl :=
    List.filter_eq_self.mpr (fun y hy => decide_eq_true (fun (h : y = prev) => hprev (h ▸ hy)))
  rw [e1, e2]

theorem freeIndices_after_first (fat : List Nat) (c : Nat) (fl : List Nat)
    (hfl : freeIndices fat = c :: fl) : freeIndices (fat.set c FAT_USED) = fl := by
  have hnd : (c :: fl).Nodup := hfl ▸ freeFrom_nodup fat 1
  have hc : c ∉ fl := (List.nodup_cons.mp hnd).1
  unfold freeIndices at hfl ⊢
  rw [freeFrom_set _ _ _ _ (by decide), hfl, List.filter_cons]
  simp only [ne_eq, not_true_eq_false, decide_False, Bool.false_eq_true, if_false]
  exact List.filter_eq_self.mpr (fun y hy => decide_eq_true (fun (h : y = c) => hc (h ▸ hy)))

theorem allocateLoop_ok (entry : DirectoryEntry) :
    ∀ (k : Nat) (fat : List Nat) (prev : Nat), fat.length ≤ 0xFFFF → prev < fat.length →
      fat[prev]? ≠ some FAT_FREE → k ≤ (freeIndices fat).length →
      ∃ F, allocateLoop entry k fat prev = .ok { fat := F, entry := entry, insufficient := false }
        ∧ F.length = fat.length
        ∧ (fat.length ≤ 0xFFFD → Linked F (prev :: (freeIndices fat).take k))
        ∧ (∀ i, i ≠ prev → i ∉ (freeIndices fat).take k → F[i]? = fat[i]?)
        ∧ freeIndices F = (freeIndices fat).drop k := by
  intro k
  induction k with
  | zero =>
    intro fat prev hlen hprev hnf _
    refine ⟨fat.set prev FAT_EOC, ?_, by simp, ?_, ?_, ?_⟩
    rotate_left 3
    · unfold freeIndices
      rw [freeFrom_set _ _ _ _ (by decide), List.drop_zero]
      exact List.filter_eq_self.mpr (fun y hy => decide_eq_true
        (fun (h : y = prev) => hnf (h ▸ ((mem_freeFrom fat 1 y).mp hy).2.2)))
    · simp [allocateLoop, vecSet, hprev]
    · intro hlen'
      refine ⟨?_, ?_, trivial⟩
      · simp only [FAT_EOC]; omega
      · simp [chainHead, List.getElem?_set_self hprev]
    · intro i hi _
      exact List.getElem?_set_ne (Ne.symm hi)
  | succ k ih =>
    intro fat prev hlen hprev hnf hk
    cases hfl : freeIndices fat with
    | nil => rw [hfl] at hk; simp at hk
    | cons c fl =>
      have hc : c ∈ freeIndices fat := by rw [hfl]; simp
      obtain ⟨hc1, hc2, hc3⟩ := (mem_freeFrom fat 1 c).mp hc
      have hcp : c ≠ prev := fun h => hnf (h ▸ hc3)
      have hpfl : prev ∉ fl := fun h =>
        hnf ((mem_freeFrom fat 1 prev).mp (by
          show prev ∈ freeIndices fat
          rw [hfl]; exact List.mem_cons_of_mem _ h)).2.2
      have hcv : c ≠ FAT_FREE := by simp only [FAT_FREE]; omega
      have hfl' := freeIndices_after_claim fat c prev c fl hfl hpfl hcv
      obtain ⟨F, hF, hFl, hFc, hFf, hFd⟩ := ih ((fat.set c FAT_USED).set prev c) c
        (by simpa using hlen) (by simpa using hc2)
        (by
          rw [List.getElem?_set_ne (Ne.symm hcp), List.getElem?_set_self hc2]
          decide)
        (by rw [hfl']; rw [hfl] at hk; simpa using hk)
      rw [hfl'] at hFc hFf hFd
      refine ⟨F, ?_, by simpa using hFl, ?_, ?_, by rw [hFd, List.drop_succ_cons]⟩
      · unfold allocateLoop
        rw [findNextFreeBlock_eq fat (by omega), hfl]
        simp only [if_neg hcv, vecSet, List.length_set, hprev, if_true]
        exact hF
      · intro hlen'
        rw [List.take_succ_cons]
        refine ⟨by simp only [FAT_EOC]; omega, ?_, hFc (by simpa using hlen')⟩
        rw [hFf prev (Ne.symm hcp) (fun h => hpfl (List.mem_of_mem_take h))]
        simp [chainHead, List.getElem?_set_self (show prev < (fat.set c FAT_USED).length by
          simpa using hprev)]
      · intro i hi hit
        rw [List.take_succ_cons, List.mem_cons, not_or] at hit
        rw [hFf i hit.1 hit.2, List.getElem?_set_ne (Ne.symm hi),
          List.getElem?_set_ne (Ne.symm hit.1)]

theorem allocateLoop_insufficient (entry : DirectoryEntry) :
    ∀ (k : Nat) (fat : List Nat) (prev : Nat), fat.length ≤ 0xFFFF → prev < fat.length →
      fat[prev]? ≠ some FAT_FREE → (freeIndices fat).length < k →
      ∃ F, allocateLoop entry k fat prev
        = .ok { fat := F, entry := entry, insufficient := true } ∧ F.length = fat.length := by
  intro k
  induction k with
  | zero => intro _ _ _ _ _ h; omega
  | succ k ih =>
    intro fat prev hlen hprev hnf hk
    cases hfl : freeIndices fat with
    | nil =>
      refine ⟨fat, ?_, rfl⟩
      unfold allocateLoop
      rw [findNextFreeBlock_eq fat hlen, hfl]
      simp
    | cons c fl =>
      have hc : c ∈ freeIndices fat := by rw [hfl]; simp
      obtain ⟨hc1, hc2, hc3⟩ := (mem_freeFrom fat 1 c).mp hc
      have hcp : c ≠ prev := fun h => hnf (h ▸ hc3)
      have hpfl : prev ∉ fl := fun h =>
        hnf ((mem_freeFrom fat 1 prev).mp (by
          show prev ∈ freeIndices fat
          rw [hfl]; exact List.mem_cons_of_mem _ h)).2.2
      have hcv : c ≠ FAT_FREE := by simp only [FAT_FREE]; omega
      have hfl' := freeIndices_after_claim fat c prev c fl hfl hpfl hcv
      obtain ⟨F, hF, hFl⟩ := ih ((fat.set c FAT_USED).set prev c) c (by simpa using hlen)
        (by simpa using hc2)
        (by
          rw [List.getElem?_set_ne (Ne.symm hcp), List.getElem?_set_self hc2]
          decide)
        (by rw [hfl']; rw [hfl] at hk; simpa using hk)
      refine ⟨F, ?_, by simpa using hFl⟩
      unfold allocateLoop
      rw [findNextFreeBlock_eq fat hlen, hfl]
      simp only [if_neg hcv, vecSet, List.length_set, hprev, if_true]
      exact hF

theorem num_blocks_needed_eq (bs n : Nat) (hbs : 0 < bs) (hov : n + bs ≤ 2 ^ 32) :
    num_blocks_needed bs n = n ⌈/⌉ bs := by
  rw [Nat.ceilDiv_eq_add_pred_div]
  unfold num_blocks_needed
  have e : (n + bs + (2 ^ 32 - 1)) % 2 ^ 32 = n + bs - 1 := by
    norm_num at hov ⊢
    omega
  rw [e]

theorem getStartBlock_setStartBlock (entry : DirectoryEntry) (c : Nat) (hc : c < 2 ^ 16) :
    (entry.setStartBlock c).getStartBlock = c := by
  show c % 2 ^ 16 = c
  exact Nat.mod_eq_of_lt hc

/-- What `allocateBlocksForFile` does on a table of at most `0xFFFF` entries, in terms of
the list of free indices: it claims `max 1 num_blocks_needed` blocks. -/
theorem allocateBlocksForFile_spec (bs n : Nat) (fat : List Nat) (entry : DirectoryEntry)
    (hbs : 0 < bs) (hlen : fat.length ≤ 0xFFFF) :
    ∃ r, allocateBlocksForFile bs fat entry n = .ok r
      ∧ r.fat.length = fat.length
      ∧ (r.insufficient = true
          ↔ (freeIndices fat).length < num_blocks_needed bs n - 1 + 1)
      ∧ (freeIndices fat = [] → r.fat = fat ∧ r.entry = entry)
      ∧ (r.insufficient = false →
          r.entry = entry.setStartBlock
              (chainHead ((freeIndices fat).take (num_blocks_needed bs n - 1 + 1)))
          ∧ r.entry.getStartBlock
              = chainHead ((freeIndices fat).take (num_blocks_needed bs n - 1 + 1))
          ∧ (fat.length ≤ 0xFFFD →
              Linked r.fat ((freeIndices fat).take (num_blocks_needed bs n - 1 + 1)))
          ∧ (∀ i, i ∉ (freeIndices fat).take (num_blocks_needed bs n - 1 + 1) →
              r.fat[i]? = fat[i]?)
          ∧ freeIndices r.fat = (freeIndices fat).drop (num_blocks_needed bs n - 1 + 1)) := by
  have hbs0 : bs ≠ 0 := by omega
  cases hfl : freeIndices fat with
  | nil =>
    refine ⟨{ fat := fat, entry := entry, insufficient := true }, ?_, rfl,
      ⟨fun _ => Nat.succ_pos _, fun _ => rfl⟩, fun _ => ⟨rfl, rfl⟩,
      fun h => Bool.noConfusion h⟩
    unfold allocateBlocksForFile
    rw [if_neg hbs0, findNextFreeBlock_eq fat hlen, hfl]
    simp
  | cons c fl =>
    have hc : c ∈ freeIndices fat := by rw [hfl]; simp
    obtain ⟨hc1, hc2, hc3⟩ := (mem_freeFrom fat 1 c).mp hc
    have hcv : c ≠ FAT_FREE := by simp only [FAT_FREE]; omega
    have hfl' := freeIndices_after_first fat c fl hfl
    have hstep : allocateBlocksForFile bs fat entry n
        = allocateLoop (entry.setStartBlock c) (num_blocks_needed bs n - 1)
            (fat.set c FAT_USED) c := by
      unfold allocateBlocksForFile
      rw [if_neg hbs0, findNextFreeBlock_eq fat hlen, hfl]
      simp only [if_neg hcv]
    have hused : (fat.set c FAT_USED)[c]? ≠ some FAT_FREE := by
      rw [List.getElem?_set_self hc2]
      decide
    by_cases hk : num_blocks_needed bs n - 1 ≤ fl.length
    · obtain ⟨F, hF, hFl, hFc, hFf, hFd⟩ := allocateLoop_ok (entry.setStartBlock c)
        (num_blocks_needed bs n - 1) (fat.set c FAT_USED) c (by simpa using hlen)
        (by simpa using hc2) hused (by rw [hfl']; exact hk)
      rw [hfl'] at hFc hFf hFd
      refine ⟨_, hstep.trans hF, by simpa using hFl, ?_,
        fun h => absurd h (List.cons_ne_nil _ _), ?_⟩
      · simp only [List.length_cons]
        constructor
        · intro h; cases h
        · intro h; omega
      · intro _
        rw [List.take_succ_cons]
        have hc16 : c < 2 ^ 16 := by
          have h1 : fat.length ≤ 65535 := hlen
          have e : (2 : Nat) ^ 16 = 65536 := by norm_num
          omega
        refine ⟨rfl, getStartBlock_setStartBlock _ _ hc16, ?_, ?_, by
          rw [List.drop_succ_cons]; exact hFd⟩
        · intro h
          exact hFc (by simpa using h)
        · intro i hi
          rw [List.mem_cons, not_or] at hi
          rw [hFf i hi.1 hi.2, List.getElem?_set_ne (Ne.symm hi.1)]
    · obtain ⟨F, hF, hFl⟩ := allocateLoop_insufficient (entry.setStartBlock c)
        (num_blocks_needed bs n - 1) (fat.set c FAT_USED) c (by simpa using hlen)
        (by simpa using hc2) hused (by rw [hfl']; omega)
      refine ⟨_, hstep.trans hF, ?_, ?_, fun h => absurd h (List.cons_ne_nil _ _),
        fun h => Bool.noConfusion h⟩
      · simpa using hFl
      · simp only [List.length_cons]
        constructor
        · intro _; omega
        · intro _; trivial

theorem Linked_unique (fat : List Nat) :
    ∀ (l l' : List Nat), Linked fat l → Linked fat l' → chainHead l = chainHead l' → l = l' := by
  intro l
  induction l with
  | nil =>
    intro l' _ h' he
    cases l' with
    | nil => rfl
    | cons b t => exact absurd he.symm h'.1
  | cons b t ih =>
    intro l' h h' he
    cases l' with
    | nil => exact absurd he h.1
    | cons b' t' =>
      have hb : b = b' := he
      subst hb
      have hn : chainHead t = chainHead t' := by
        have := h.2.1.symm.trans h'.2.1
        exact Option.some.inj this
      rw [ih t' h.2.2 h'.2.2 hn]

theorem IsChain_unique (fat : List Nat) (s : Nat) (l l' : List Nat) (h : IsChain fat s l)
    (h' : IsChain fat s l') : l = l' :=
  Linked_unique fat l l' h.2 h'.2 (h.1.symm.trans h'.1)

theorem max_one_eq (x : Nat) : max 1 x = x - 1 + 1 := by omega

theorem mem_take_freeIndices (fat : List Nat) (k i : Nat) (h : i ∈ (freeIndices fat).take k) :
    1 ≤ i ∧ i < fat.length ∧ fat[i]? = some FAT_FREE :=
  (mem_freeFrom fat 1 i).mp (List.mem_of_mem_take h)

/-- C3, counterexample. Allocating for a file of 0 bytes on a fresh table of four entries
with 512-byte blocks succeeds and leaves the chain `[1]` of one block, while
`ceil(0 / 512) = 0`; no chain from the start block has 0 blocks. -/
theorem allocate_zero_bytes_counterexample :
    ∃ r, allocateBlocksForFile 512 (List.replicate 4 FAT_FREE) (DirectoryEntry.init 0 0 0) 0
        = .ok r
      ∧ r.insufficient = false
      ∧ IsChain r.fat r.entry.getStartBlock [1]
      ∧ ∀ l, IsChain r.fat r.entry.getStartBlock l → l.length ≠ 0 ⌈/⌉ 512 := by
  refine ⟨{ fat := [FAT_FREE, FAT_EOC, FAT_FREE, FAT_FREE],
            entry := (DirectoryEntry.init 0 0 0).setStartBlock 1,
            insufficient := false }, by rfl, rfl, by decide, ?_⟩
  intro l hl
  have hc : IsChain [FAT_FREE, FAT_EOC, FAT_FREE, FAT_FREE]
      ((DirectoryEntry.init 0 0 0).setStartBlock 1).getStartBlock [1] := by decide
  rw [IsChain_unique _ _ _ _ hl hc]
  decide

/-- C3, amended. For a block size `> 0`, a byte length `n` with `n + block_size ≤ 2^32`
(no `uint32_t` overflow) and a FAT of at most `0xFFFD` entries that has at least
`max 1 (ceil (n / block_size))` free entries at indices `≥ 1`, `allocateBlocksForFile`
succeeds and leaves a chain that starts at `entry.start_block`, has exactly
`max 1 (ceil (n / block_size))` blocks, each linked to the next by its FAT entry and the
last one marked `FAT_EOC`; no entry is left `FAT_USED` that was not `FAT_USED` before. -/
theorem allocate_chain_length (bs n : Nat) (fat : List Nat) (entry : DirectoryEntry)
    (hbs : 0 < bs) (hov : n + bs ≤ 2 ^ 32) (hlen : fat.length ≤ 0xFFFD)
    (hfree : max 1 (n ⌈/⌉ bs) ≤ (freeIndices fat).length) :
    ∃ r chain, allocateBlocksForFile bs fat entry n = .ok r
      ∧ r.insufficient = false
      ∧ IsChain r.fat r.entry.getStartBlock chain
      ∧ chain.length = max 1 (n ⌈/⌉ bs)
      ∧ (∀ i : Nat, r.fat[i]? = some FAT_USED → fat[i]? = some FAT_USED) := by
  obtain ⟨r, hr, _, hins, _, hok⟩ := allocateBlocksForFile_spec bs n fat entry hbs
    (le_trans hlen (by decide))
  rw [num_blocks_needed_eq bs n hbs hov, ← max_one_eq] at hins hok
  have hi : r.insufficient = false := by
    cases hb : r.insufficient with
    | false => rfl
    | true => exact absurd (hins.mp hb) (by omega)
  obtain ⟨_, hstart, hlinked, hframe, _⟩ := hok hi
  have hl := hlinked hlen
  refine ⟨r, (freeIndices fat).take (max 1 (n ⌈/⌉ bs)), hr, hi, ⟨hstart, hl⟩, ?_, ?_⟩
  · rw [List.length_take]
    omega
  · intro i hu
    by_cases hm : i ∈ (freeIndices fat).take (max 1 (n ⌈/⌉ bs))
    · obtain ⟨v, hv, hv'⟩ := Linked_entry r.fat _ hl i hm
      rw [hv] at hu
      have hvu : v = FAT_USED := Option.some.inj hu
      rcases hv' with h | h
      · rw [h] at hvu
        exact absurd hvu (by decide)
      · have := (mem_take_freeIndices fat _ v h).2.1
        rw [hvu] at this
        simp only [FAT_USED] at this
        omega
    · rw [← hframe i hm]
      exact hu

/-- Witness of `allocate_chain_length`: 1000 bytes in 512-byte blocks on a fresh table of
eight entries. -/
theorem allocate_chain_length_witness :
    ∃ r chain, allocateBlocksForFile 512 (List.replicate 8 FAT_FREE)
        (DirectoryEntry.init 0 0 0) 1000 = .ok r
      ∧ r.insufficient = false
      ∧ IsChain r.fat r.entry.getStartBlock chain
      ∧ chain.length = max 1 (1000 ⌈/⌉ 512)
      ∧ (∀ i : Nat, r.fat[i]? = some FAT_USED → (List.replicate 8 FAT_FREE)[i]? = some FAT_USED) :=
  allocate_chain_length 512 1000 (List.replicate 8 FAT_FREE) (DirectoryEntry.init 0 0 0)
    (by decide) (by decide) (by decide) (by decide)

theorem findNextFreeBlock_ne_zero (fat : List Nat) (hlen : fat.length ≤ 0xFFFF)
    (fat' : List Nat) (v : Nat) (h : findNextFreeBlock fat = .ok (fat', v)) : v ≠ 0 := by
  rw [findNextFreeBlock_eq fat hlen] at h
  cases hfl : freeIndices fat with
  | nil =>
    rw [hfl] at h
    injection h with h
    injection h with _ h2
    rw [← h2]
    decide
  | cons c fl =>
    rw [hfl] at h
    injection h with h
    injection h with _ h2
    have hc : c ∈ freeIndices fat := by rw [hfl]; exact List.mem_cons_self _ _
    have := ((mem_freeFrom fat 1 c).mp hc).1
    omega

/-- C4. First fit from index 1: on a FAT of at most `0xFFFD` entries, a successful
`allocateBlocksForFile` leaves a chain from `entry.start_block` that consists of the first
`k = max 1 num_blocks_needed` elements of `freeIndices fat`, the increasing list of all
indices `≥ 1` whose entry was `FAT_FREE`; block 0 is not on the chain and is never returned
by `findNextFreeBlock`, and every FAT entry outside the chain is unchanged. -/
theorem allocate_first_fit (bs n : Nat) (fat : List Nat) (entry : DirectoryEntry)
    (r : AllocResult) (hlen : fat.length ≤ 0xFFFD)
    (h : allocateBlocksForFile bs fat entry n = .ok r) (hs : r.insufficient = false) :
    ∃ k, k = max 1 (num_blocks_needed bs n) ∧ k ≤ (freeIndices fat).length
      ∧ IsChain r.fat r.entry.getStartBlock ((freeIndices fat).take k)
      ∧ ((freeIndices fat).take k).length = k
      ∧ (freeIndices fat).Pairwise (· < ·)
      ∧ (∀ i, i ∈ freeIndices fat ↔ 1 ≤ i ∧ i < fat.length ∧ fat[i]? = some FAT_FREE)
      ∧ 0 ∉ (freeIndices fat).take k
      ∧ (∀ i : Nat, i ∉ (freeIndices fat).take k → r.fat[i]? = fat[i]?)
      ∧ (∀ fat' v, findNextFreeBlock fat = .ok (fat', v) → v ≠ 0) := by
  have hlen' : fat.length ≤ 0xFFFF := le_trans hlen (by decide)
  have hbs : 0 < bs := by
    rcases Nat.eq_zero_or_pos bs with h0 | h0
    · subst h0
      simp [allocateBlocksForFile] at h
    · exact h0
  obtain ⟨r', hr', _, hins, _, hok⟩ := allocateBlocksForFile_spec bs n fat entry hbs hlen'
  have hrr : r' = r := by
    rw [hr'] at h
    injection h
  subst hrr
  rw [← max_one_eq] at hins hok
  obtain ⟨_, hstart, hlinked, hframe, _⟩ := hok hs
  have hk : max 1 (num_blocks_needed bs n) ≤ (freeIndices fat).length := by
    by_contra hc
    have := hins.mpr (by omega)
    rw [hs] at this
    exact Bool.noConfusion this
  refine ⟨_, rfl, hk, ⟨hstart, hlinked hlen⟩, ?_, freeFrom_pairwise fat 1, mem_freeFrom fat 1,
    ?_, hframe, findNextFreeBlock_ne_zero fat hlen'⟩
  · rw [List.length_take]
    omega
  · intro h0
    have := (mem_take_freeIndices fat _ 0 h0).1
    omega

/-- Witness of `allocate_first_fit`: 1000 bytes in 512-byte blocks on a table whose entries
1 and 3 are taken; the chain is `[2, 4]`. -/
theorem allocate_first_fit_witness :
    ∃ k, k = max 1 (num_blocks_needed 512 1000)
      ∧ k ≤ (freeIndices [FAT_FREE, FAT_EOC, FAT_FREE, FAT_EOC, FAT_FREE, FAT_FREE]).length
      ∧ IsChain [FAT_FREE, FAT_EOC, 4, FAT_EOC, FAT_EOC, FAT_FREE]
          ((DirectoryEntry.init 0 0 0).setStartBlock 2).getStartBlock
          ((freeIndices [FAT_FREE, FAT_EOC, FAT_FREE, FAT_EOC, FAT_FREE, FAT_FREE]).take k) :=
  let ⟨k, h1, h2, h3, _⟩ := allocate_first_fit 512 1000
    [FAT_FREE, FAT_EOC, FAT_FREE, FAT_EOC, FAT_FREE, FAT_FREE] (DirectoryEntry.init 0 0 0)
    { fat := [FAT_FREE, FAT_EOC, 4, FAT_EOC, FAT_EOC, FAT_FREE],
      entry := (DirectoryEntry.init 0 0 0).setStartBlock 2, insufficient := false }
    (by decide) (by rfl) rfl
  ⟨k, h1, h2, h3⟩

/-- C5, counterexample. With no free entry at an index `≥ 1`, allocating for a file of 0
bytes reports insufficient space, although the table does not have fewer than
`ceil(0 / 512) = 0` free entries. -/
theorem allocate_insufficient_counterexample :
    ∃ r, allocateBlocksForFile 512 [FAT_FREE, FAT_EOC] (DirectoryEntry.init 0 0 0) 0 = .ok r
      ∧ r.insufficient = true
      ∧ ¬ ((freeIndices [FAT_FREE, FAT_EOC]).length < 0 ⌈/⌉ 512) :=
  ⟨{ fat := [FAT_FREE, FAT_EOC], entry := DirectoryEntry.init 0 0 0, insufficient := true },
    by rfl, rfl, by decide⟩

/-- C5, amended. For a block size `> 0`, a byte length `n` with `n + block_size ≤ 2^32` and
a FAT of at most `0xFFFF` entries, `allocateBlocksForFile` returns, and it reports
insufficient space if and only if the FAT has fewer than `max 1 (ceil (n / block_size))`
free entries at indices `≥ 1`; when there is no such entry at all (it fails at the very
first block) the FAT and the entry, hence `start_block`, are unchanged. -/
theorem allocate_insufficient_iff (bs n : Nat) (fat : List Nat) (entry : DirectoryEntry)
    (hbs : 0 < bs) (hov : n + bs ≤ 2 ^ 32) (hlen : fat.length ≤ 0xFFFF) :
    ∃ r, allocateBlocksForFile bs fat entry n = .ok r
      ∧ (r.insufficient = true ↔ (freeIndices fat).length < max 1 (n ⌈/⌉ bs))
      ∧ (freeIndices fat = [] → r.insufficient = true ∧ r.fat = fat ∧ r.entry = entry) := by
  obtain ⟨r, hr, _, hins, hnil, _⟩ := allocateBlocksForFile_spec bs n fat entry hbs hlen
  rw [num_blocks_needed_eq bs n hbs hov, ← max_one_eq] at hins
  refine ⟨r, hr, hins, fun h => ⟨hins.mpr ?_, hnil h⟩⟩
  rw [h]
  exact lt_of_lt_of_le Nat.zero_lt_one (le_max_left 1 _)

/-- Witness of `allocate_insufficient_iff`: 1000 bytes in 512-byte blocks on a table with a
single free entry. -/
theorem allocate_insufficient_iff_witness :
    ∃ r, allocateBlocksForFile 512 [FAT_FREE, FAT_EOC, FAT_FREE] (DirectoryEntry.init 0 0 0)
        1000 = .ok r
      ∧ (r.insufficient = true
          ↔ (freeIndices [FAT_FREE, FAT_EOC, FAT_FREE]).length < max 1 (1000 ⌈/⌉ 512))
      ∧ (freeIndices [FAT_FREE, FAT_EOC, FAT_FREE] = [] →
          r.insufficient = true ∧ r.fat = [FAT_FREE, FAT_EOC, FAT_FREE]
            ∧ r.entry = DirectoryEntry.init 0 0 0) :=
  allocate_insufficient_iff 512 1000 [FAT_FREE, FAT_EOC, FAT_FREE] (DirectoryEntry.init 0 0 0)
    (by decide) (by decide) (by decide)

/-! ## Deallocation -/

theorem count_set_free (fat : List Nat) (b v : Nat) (hb : fat[b]? = some v)
    (hv : v ≠ FAT_FREE) :
    (fat.set b FAT_FREE).count FAT_FREE = fat.count FAT_FREE + 1 := by
  induction fat generalizing b with
  | nil => simp at hb
  | cons a fat ih =>
    cases b with
    | zero =>
      have ha : a = v := by simpa using hb
      subst ha
      rw [List.set_cons_zero, List.count_cons_self, List.count_cons_of_ne (Ne.symm hv)]
    | succ b =>
      have hb' : fat[b]? = some v := by simpa using hb
      rw [List.set_cons_succ, List.count_cons, List.count_cons, ih b hb']
      omega

theorem length_le_of_nodup_lt (l : List Nat) (n : Nat) (hnd : l.Nodup)
    (h : ∀ b ∈ l, b < n) : l.length ≤ n := by
  have hsub : l ⊆ List.range n := fun b hb => List.mem_range.mpr (h b hb)
  have := (List.subperm_of_subset hnd hsub).length_le
  simpa using this

theorem deallocateLoop_chain :
    ∀ (chain : List Nat) (fuel : Nat) (fat : List Nat) (blocks : List DiskBlock) (start : Nat),
      Linked fat chain → start = chainHead chain → chain.Nodup →
      (∀ b ∈ chain, 1 ≤ b ∧ b < fat.length ∧ b < blocks.length) → chain.length < fuel →
      ∃ fat' blocks', deallocateLoop fuel fat blocks start = .ok (fat', blocks')
        ∧ fat'.length = fat.length ∧ blocks'.length = blocks.length
        ∧ (∀ i : Nat, fat'[i]? = if i ∈ chain then some FAT_FREE else fat[i]?)
        ∧ (∀ i : Nat, blocks'[i]?
            = if i ∈ chain then (blocks[i]?).map DiskBlock.zeroed else blocks[i]?)
        ∧ (fat.length ≤ 0xFFFF →
            fat'.count FAT_FREE = fat.count FAT_FREE + chain.length) := by
  intro chain
  induction chain with
  | nil =>
    intro fuel fat blocks start _ hs _ _ hf
    obtain ⟨fuel, rfl⟩ : ∃ k, fuel = k + 1 := ⟨fuel - 1, by simp at hf; omega⟩
    refine ⟨fat, blocks, ?_, rfl, rfl, fun i => by simp, fun i => by simp, fun _ => by simp⟩
    unfold deallocateLoop
    rw [if_neg]
    rw [hs]
    intro h
    exact h.1 rfl
  | cons b t ih =>
    intro fuel fat blocks start hl hs hnd hr hf
    obtain ⟨fuel, rfl⟩ : ∃ k, fuel = k + 1 := ⟨fuel - 1, by simp at hf; omega⟩
    obtain ⟨hb1, hb2, hb3⟩ := hl
    obtain ⟨hbt, hndt⟩ := List.nodup_cons.mp hnd
    obtain ⟨hr1, hr2, hr3⟩ := hr b (List.mem_cons_self _ _)
    have hsb : start = b := hs
    subst hsb
    obtain ⟨blk, hblk⟩ : ∃ blk, blocks[start]? = some blk :=
      ⟨blocks[start], List.getElem?_eq_getElem hr3⟩
    have hlt : Linked (fat.set start FAT_FREE) t :=
      Linked_congr fat _ t
        (fun x hx => List.getElem?_set_ne (fun (h : start = x) => hbt (h ▸ hx))) hb3
    obtain ⟨fat', blocks', hrun, hfl, hbl, hfc, hbc, hcnt⟩ := ih fuel (fat.set start FAT_FREE)
      (blocks.set start { blk with data := List.replicate blk.data.length 0 }) (chainHead t)
      hlt rfl hndt
      (fun x hx => by
        have := hr x (List.mem_cons_of_mem _ hx)
        simpa using this)
      (by simp at hf; omega)
    refine ⟨fat', blocks', ?_, by simpa using hfl, by simpa using hbl, ?_, ?_, ?_⟩
    · unfold deallocateLoop
      rw [if_pos ⟨hb1, by omega⟩]
      simp only [vecGet, hb2, hblk]
      exact hrun
    · intro i
      rw [hfc i]
      by_cases hit : i ∈ t
      · rw [if_pos hit, if_pos (List.mem_cons_of_mem _ hit)]
      · rw [if_neg hit]
        by_cases his : i = start
        · subst his
          rw [if_pos (List.mem_cons_self _ _), List.getElem?_set_self hr2]
        · rw [if_neg (by simp [his, hit]), List.getElem?_set_ne (Ne.symm his)]
    · intro i
      rw [hbc i]
      by_cases hit : i ∈ t
      · have his : i ≠ start := fun h => hbt (h ▸ hit)
        rw [if_pos hit, if_pos (List.mem_cons_of_mem _ hit),
          List.getElem?_set_ne (Ne.symm his)]
      · rw [if_neg hit]
        by_cases his : i = start
        · subst his
          rw [if_pos (List.mem_cons_self _ _), List.getElem?_set_self hr3, hblk]
          rfl
        · rw [if_neg (by simp [his, hit]), List.getElem?_set_ne (Ne.symm his)]
    · intro hlen
      rw [hcnt (by simpa using hlen), count_set_free fat start _ hb2 ?_, List.length_cons]
      · omega
      · rcases chainHead_mem_or t with h | h
        · rw [h]; decide
        · have := (hr _ (List.mem_cons_of_mem _ h)).2.1
          simp only [FAT_FREE]
          omega

/-- C7. If `entry.start_block` heads a well-formed chain (distinct blocks, each an index
`≥ 1` inside the FAT and the block array, ending in `FAT_EOC`), `deallocateBlocksForFile`
returns, sets the FAT entry of exactly the blocks of the chain to `FAT_FREE` and zero-fills
exactly their data; every other FAT entry and every other block is unchanged. With
`start_block` equal to `0` or to `FAT_EOC` it changes nothing. -/
theorem deallocate_frees_chain (fat : List Nat) (blocks : List DiskBlock)
    (entry : DirectoryEntry) (chain : List Nat)
    (hc : IsChain fat entry.getStartBlock chain) (hnd : chain.Nodup)
    (hr : ∀ b ∈ chain, 1 ≤ b ∧ b < fat.length ∧ b < blocks.length) :
    (∃ fat' blocks', deallocateBlocksForFile fat blocks entry = .ok (fat', blocks')
      ∧ fat'.length = fat.length ∧ blocks'.length = blocks.length
      ∧ (∀ i : Nat, fat'[i]? = if i ∈ chain then some FAT_FREE else fat[i]?)
      ∧ (∀ i : Nat, blocks'[i]?
          = if i ∈ chain then (blocks[i]?).map DiskBlock.zeroed else blocks[i]?))
    ∧ ∀ (e : DirectoryEntry), e.getStartBlock = 0 ∨ e.getStartBlock = FAT_EOC →
        deallocateBlocksForFile fat blocks e = .ok (fat, blocks) := by
  constructor
  · have hlen : chain.length ≤ fat.length :=
      length_le_of_nodup_lt chain fat.length hnd (fun b hb => (hr b hb).2.1)
    obtain ⟨fat', blocks', h1, h2, h3, h4, h5, _⟩ := deallocateLoop_chain chain
      (fat.length + 2) fat blocks entry.getStartBlock hc.2 hc.1 hnd hr (by omega)
    exact ⟨fat', blocks', h1, h2, h3, h4, h5⟩
  · intro e he
    unfold deallocateBlocksForFile deallocateLoop
    rw [if_neg]
    intro h
    rcases he with h0 | h0
    · exact h.2 h0
    · exact h.1 h0

/-- Witness of `deallocate_frees_chain`: the chain `[1, 3]` in a table of four entries. -/
theorem deallocate_frees_chain_witness :
    ∃ fat' blocks', deallocateBlocksForFile [FAT_FREE, 3, FAT_FREE, FAT_EOC]
        [⟨0, [0, 0]⟩, ⟨1, [7, 8]⟩, ⟨2, [5, 5]⟩, ⟨3, [9, 0]⟩]
        ((DirectoryEntry.init 0 0 0).setStartBlock 1) = .ok (fat', blocks')
      ∧ (∀ i : Nat, fat'[i]?
          = if i ∈ [1, 3] then some FAT_FREE else [FAT_FREE, 3, FAT_FREE, FAT_EOC][i]?) :=
  let ⟨⟨fat', blocks', h1, _, _, h4, _⟩, _⟩ := deallocate_frees_chain
    [FAT_FREE, 3, FAT_FREE, FAT_EOC]
    [⟨0, [0, 0]⟩, ⟨1, [7, 8]⟩, ⟨2, [5, 5]⟩, ⟨3, [9, 0]⟩]
    ((DirectoryEntry.init 0 0 0).setStartBlock 1) [1, 3] (by decide) (by decide) (by decide)
  ⟨fat', blocks', h1, h4⟩

/-! ## `write` when allocation fails -/

theorem writeLoop_zero (bs : Nat) (fat : List Nat) (fuel : Nat) (blocks : List DiskBlock)
    (cur : Nat) (stream : List Nat) : writeLoop bs fat fuel blocks 0 cur stream = .ok blocks := by
  cases fuel <;> simp [writeLoop]

theorem new_file_getSize (host : HostFile) (e : DirectoryEntry) :
    (set_file_metadata host (setPermissionsFromLinuxFile e host)).getSize = e.getSize := by
  unfold set_file_metadata setPermissionsFromLinuxFile
  cases host.stat <;> rfl

theorem new_file_getStartBlock (host : HostFile) (e : DirectoryEntry) :
    (set_file_metadata host (setPermissionsFromLinuxFile e host)).getStartBlock
      = e.getStartBlock := by
  unfold set_file_metadata setPermissionsFromLinuxFile
  cases host.stat <;> rfl

theorem writeLoop_single (bs : Nat) (fat : List Nat) (n : Nat) (b0 : DiskBlock)
    (rest : List DiskBlock) (data : List Nat) (hpos : 0 < n) (hsz : n ≤ bs)
    (hfat : 0 < fat.length) :
    writeLoop bs fat n (b0 :: rest) n 0 data
      = .ok ({ b0 with data := data.take n ++ b0.data.drop (data.take n).length } :: rest) := by
  obtain ⟨f0, frest, hf⟩ : ∃ f0 frest, fat = f0 :: frest := by
    cases fat with
    | nil => exact absurd hfat (by decide)
    | cons a l => exact ⟨a, l, rfl⟩
  subst hf
  obtain ⟨m, rfl⟩ : ∃ m, n = m + 1 := ⟨n - 1, by omega⟩
  unfold writeLoop
  rw [if_pos ⟨Nat.succ_pos _, by decide⟩]
  simp only [vecGet, List.getElem?_cons_zero, List.set_cons_zero]
  rw [Nat.min_eq_left hsz, Nat.sub_self, writeLoop_zero]

/-- C6 (code defect). On a state with no free block at an index `≥ 1`, `write` of a host
file of at least one and at most `block_size` bytes to a new name in a directory that
resolves reports insufficient space and nevertheless completes: the bytes of the host file
overwrite the data of block 0 (the start block left at its default `0`), the new entry is
appended to the children of the parent and the size of the parent is recomputed. -/
theorem write_ignores_allocation_failure (fs : FileSystem) (path : List Nat) (host : HostFile)
    (ct mt : Int) (idx : List Nat) (parent : DirectoryEntry) (b0 : DiskBlock)
    (rest : List DiskBlock)
    (hfind : findDirectory fs.root_directory (extract_directory_path path)
      = some (idx, parent))
    (hnew : parent.children.any (fun child => child.getFilename == extract_filename path)
      = false)
    (hbs : 0 < fs.superblock.block_size) (hlen : fs.fat.length ≤ 0xFFFF)
    (hfat : 0 < fs.fat.length) (hfull : freeIndices fs.fat = [])
    (hpos : 0 < host.data.length) (hsz : host.data.length ≤ fs.superblock.block_size)
    (h32 : host.data.length < 2 ^ 32) (hb : fs.blocks = b0 :: rest) :
    write fs path (some host) ct mt
      = .ok ({ fs with
                blocks := { b0 with data := host.data ++ b0.data.drop host.data.length }
                  :: rest,
                root_directory := modifyAt (fun p => calculateDirectorySize
                  (p.setChildren (p.children ++ [set_file_metadata host
                    (setPermissionsFromLinuxFile
                      (((DirectoryEntry.init 0 ct mt).setFilename
                        (extract_filename path)).setSize host.data.length) host)])))
                  idx fs.root_directory },
             .insufficientSpace) := by
  obtain ⟨r, hr, _, hins, hnil, _⟩ := allocateBlocksForFile_spec fs.superblock.block_size
    (set_file_metadata host (setPermissionsFromLinuxFile
      (((DirectoryEntry.init 0 ct mt).setFilename
        (extract_filename path)).setSize host.data.length) host)).getSize fs.fat
    (set_file_metadata host (setPermissionsFromLinuxFile
      (((DirectoryEntry.init 0 ct mt).setFilename
        (extract_filename path)).setSize host.data.length) host)) hbs hlen
  obtain ⟨hrf, hre⟩ := hnil hfull
  have hri : r.insufficient = true := hins.mpr (by rw [hfull]; exact Nat.succ_pos _)
  have hsize : (set_file_metadata host (setPermissionsFromLinuxFile
      (((DirectoryEntry.init 0 ct mt).setFilename
        (extract_filename path)).setSize host.data.length) host)).getSize
      = host.data.length := by
    rw [new_file_getSize]
    show host.data.length % 2 ^ 32 = host.data.length
    exact Nat.mod_eq_of_lt h32
  have hstart : (set_file_metadata host (setPermissionsFromLinuxFile
      (((DirectoryEntry.init 0 ct mt).setFilename
        (extract_filename path)).setSize host.data.length) host)).getStartBlock = 0 := by
    rw [new_file_getStartBlock]
    rfl
  rw [hsize] at hr
  unfold write
  simp only [hfind, hnew, Bool.false_eq_true, if_false, hsize, hr]
  simp only [hre, hrf, hri, if_true, hsize, hstart, hb]
  rw [writeLoop_single _ _ _ _ _ _ hpos hsz hfat, List.take_length]

/-- Witness of `write_ignores_allocation_failure`: `FileSystem(2, 4)` after
`write("/a", 4 bytes)` has its only usable block taken; `write("/b", 1 byte)` then reports
insufficient space, but `b` is added to the root with start block 0, the size of the root
goes from 4 to 5 and the first byte of block 0 is overwritten. -/
theorem write_ignores_allocation_failure_witness :
    write (FileSystem.create 2 4 0 0) [47, 97] (some ⟨[1, 2, 3, 4], none⟩) 0 0
        = .ok ({ superblock := ⟨2, 16, 20, 4⟩, fat := [FAT_FREE, FAT_EOC],
                 blocks := [⟨0, [0, 0, 0, 0]⟩, ⟨1, [1, 2, 3, 4]⟩],
                 root_directory := .mk ⟨[47], 4, ⟨true, true⟩, 0, 0, [], 20, 16⟩
                   [.mk ⟨[97], 4, ⟨true, true⟩, 0, 0, [], 1, 0⟩ []] }, .ok)
      ∧ write { superblock := ⟨2, 16, 20, 4⟩, fat := [FAT_FREE, FAT_EOC],
                blocks := [⟨0, [0, 0, 0, 0]⟩, ⟨1, [1, 2, 3, 4]⟩],
                root_directory := .mk ⟨[47], 4, ⟨true, true⟩, 0, 0, [], 20, 16⟩
                  [.mk ⟨[97], 4, ⟨true, true⟩, 0, 0, [], 1, 0⟩ []] }
          [47, 98] (some ⟨[9], none⟩) 0 0
        = .ok ({ superblock := ⟨2, 16, 20, 4⟩, fat := [FAT_FREE, FAT_EOC],
                 blocks := [⟨0, [9, 0, 0, 0]⟩, ⟨1, [1, 2, 3, 4]⟩],
                 root_directory := .mk ⟨[47], 5, ⟨true, true⟩, 0, 0, [], 20, 16⟩
                   [.mk ⟨[97], 4, ⟨true, true⟩, 0, 0, [], 1, 0⟩ [],
                    .mk ⟨[98], 1, ⟨true, true⟩, 0, 0, [], 0, 0⟩ []] },
               .insufficientSpace) :=
  ⟨by rfl,
   (write_ignores_allocation_failure
      { superblock := ⟨2, 16, 20, 4⟩, fat := [FAT_FREE, FAT_EOC],
        blocks := [⟨0, [0, 0, 0, 0]⟩, ⟨1, [1, 2, 3, 4]⟩],
        root_directory := .mk ⟨[47], 4, ⟨true, true⟩, 0, 0, [], 20, 16⟩
          [.mk ⟨[97], 4, ⟨true, true⟩, 0, 0, [], 1, 0⟩ []] }
      [47, 98] ⟨[9], none⟩ 0 0 []
      (.mk ⟨[47], 4, ⟨true, true⟩, 0, 0, [], 20, 16⟩
          [.mk ⟨[97], 4, ⟨true, true⟩, 0, 0, [], 1, 0⟩ []])
      ⟨0, [0, 0, 0, 0]⟩ [⟨1, [1, 2, 3, 4]⟩]
      (by rfl) (by rfl) (by decide) (by decide) (by decide) (by rfl) (by decide) (by decide)
      (by decide) rfl).trans (by rfl)⟩

/-! ## Invariants that the operations break -/

theorem no_chain_from_zero (fat : List Nat) (h0 : fat[0]? = some FAT_FREE)
    (hlen : fat.length ≤ 0xFFFF) (l : List Nat) : ¬ IsChain fat 0 l := by
  rintro ⟨hs, hl⟩
  cases l with
  | nil => exact absurd hs (by decide)
  | cons b t =>
    have hb : b = 0 := hs.symm
    subst hb
    obtain ⟨_, h2, h3⟩ := hl
    have hh : chainHead t = FAT_FREE := (Option.some.inj (h0.symm.trans h2)).symm
    cases t with
    | nil => exact absurd hh (by decide)
    | cons c t' =>
      have hc : c = FAT_FREE := hh
      subst hc
      obtain ⟨_, h4, _⟩ := h3
      have hnone : fat[FAT_FREE]? = none :=
        List.getElem?_eq_none (by simp only [FAT_FREE]; omega)
      rw [hnone] at h4
      exact Option.noConfusion h4

/-- C9 (code defect), evaluated: on `FileSystem(3, 4)`, `write("/a", 8 bytes)` takes blocks
1 and 2; `write("/b", 3 bytes)` then reports insufficient space but adds the file `b` with
start block 0. Following the FAT from block 0 gives `FAT_FREE`, which is neither
`FAT_EOC` nor an index of the table: no chain starts at the start block of `b`. -/
theorem failed_write_leaves_file_without_chain :
    write (FileSystem.create 3 4 0 0) [47, 97] (some ⟨[1, 2, 3, 4, 5, 6, 7, 8], none⟩) 0 0
        = .ok ({ superblock := ⟨3, 16, 22, 4⟩, fat := [FAT_FREE, 2, FAT_EOC],
                 blocks := [⟨0, [0, 0, 0, 0]⟩, ⟨1, [1, 2, 3, 4]⟩, ⟨2, [5, 6, 7, 8]⟩],
                 root_directory := .mk ⟨[47], 8, ⟨true, true⟩, 0, 0, [], 22, 16⟩
                   [.mk ⟨[97], 8, ⟨true, true⟩, 0, 0, [], 1, 0⟩ []] }, .ok)
      ∧ write { superblock := ⟨3, 16, 22, 4⟩, fat := [FAT_FREE, 2, FAT_EOC],
                blocks := [⟨0, [0, 0, 0, 0]⟩, ⟨1, [1, 2, 3, 4]⟩, ⟨2, [5, 6, 7, 8]⟩],
                root_directory := .mk ⟨[47], 8, ⟨true, true⟩, 0, 0, [], 22, 16⟩
                  [.mk ⟨[97], 8, ⟨true, true⟩, 0, 0, [], 1, 0⟩ []] }
          [47, 98] (some ⟨[9, 9, 9], none⟩) 0 0
        = .ok ({ superblock := ⟨3, 16, 22, 4⟩, fat := [FAT_FREE, 2, FAT_EOC],
                 blocks := [⟨0, [9, 9, 9, 0]⟩, ⟨1, [1, 2, 3, 4]⟩, ⟨2, [5, 6, 7, 8]⟩],
                 root_directory := .mk ⟨[47], 11, ⟨true, true⟩, 0, 0, [], 22, 16⟩
                   [.mk ⟨[97], 8, ⟨true, true⟩, 0, 0, [], 1, 0⟩ [],
                    .mk ⟨[98], 3, ⟨true, true⟩, 0, 0, [], 0, 0⟩ []] },
               .insufficientSpace)
      ∧ allFiles (.mk ⟨[47], 11, ⟨true, true⟩, 0, 0, [], 22, 16⟩
                   [.mk ⟨[97], 8, ⟨true, true⟩, 0, 0, [], 1, 0⟩ [],
                    .mk ⟨[98], 3, ⟨true, true⟩, 0, 0, [], 0, 0⟩ []])
          = [.mk ⟨[97], 8, ⟨true, true⟩, 0, 0, [], 1, 0⟩ [],
             .mk ⟨[98], 3, ⟨true, true⟩, 0, 0, [], 0, 0⟩ []]
      ∧ ∀ l, ¬ IsChain [FAT_FREE, 2, FAT_EOC]
          (DirectoryEntry.mk ⟨[98], 3, ⟨true, true⟩, 0, 0, [], 0, 0⟩ []).getStartBlock l :=
  ⟨by rfl, by rfl, by rfl, no_chain_from_zero _ rfl (by decide)⟩

/-- C10 (code defect), evaluated: on `FileSystem(4, 4)`, `mkdir("/d")`, then
`write("/d/f", 4 bytes)` (block 1 becomes the chain of `f`), then `rmdir("/d")`: the
directory is erased together with `f`, no file is left in the tree, and the FAT entry of
block 1 is still `FAT_EOC`, so block 1 is not `FAT_FREE` and lies on no chain. -/
theorem rmdir_orphans_blocks :
    mkdir (FileSystem.create 4 4 0 0) [47, 100] 0 0
        = ({ superblock := ⟨4, 16, 24, 4⟩, fat := [FAT_FREE, FAT_FREE, FAT_FREE, FAT_FREE],
             blocks := [⟨0, [0, 0, 0, 0]⟩, ⟨1, [0, 0, 0, 0]⟩, ⟨2, [0, 0, 0, 0]⟩,
               ⟨3, [0, 0, 0, 0]⟩],
             root_directory := .mk ⟨[47], 0, ⟨true, true⟩, 0, 0, [], 24, 16⟩
               [.mk ⟨[100], 0, ⟨true, true⟩, 0, 0, [], FAT_EOC, 16⟩ []] }, .ok)
      ∧ write { superblock := ⟨4, 16, 24, 4⟩,
                fat := [FAT_FREE, FAT_FREE, FAT_FREE, FAT_FREE],
                blocks := [⟨0, [0, 0, 0, 0]⟩, ⟨1, [0, 0, 0, 0]⟩, ⟨2, [0, 0, 0, 0]⟩,
                  ⟨3, [0, 0, 0, 0]⟩],
                root_directory := .mk ⟨[47], 0, ⟨true, true⟩, 0, 0, [], 24, 16⟩
                  [.mk ⟨[100], 0, ⟨true, true⟩, 0, 0, [], FAT_EOC, 16⟩ []] }
          [47, 100, 47, 102] (some ⟨[1, 2, 3, 4], none⟩) 0 0
        = .ok ({ superblock := ⟨4, 16, 24, 4⟩,
                 fat := [FAT_FREE, FAT_EOC, FAT_FREE, FAT_FREE],
                 blocks := [⟨0, [0, 0, 0, 0]⟩, ⟨1, [1, 2, 3, 4]⟩, ⟨2, [0, 0, 0, 0]⟩,
                   ⟨3, [0, 0, 0, 0]⟩],
                 root_directory := .mk ⟨[47], 0, ⟨true, true⟩, 0, 0, [], 24, 16⟩
                   [.mk ⟨[100], 4, ⟨true, true⟩, 0, 0, [], FAT_EOC, 16⟩
                     [.mk ⟨[102], 4, ⟨true, true⟩, 0, 0, [], 1, 0⟩ []]] }, .ok)
      ∧ rmdir { superblock := ⟨4, 16, 24, 4⟩,
                fat := [FAT_FREE, FAT_EOC, FAT_FREE, FAT_FREE],
                blocks := [⟨0, [0, 0, 0, 0]⟩, ⟨1, [1, 2, 3, 4]⟩, ⟨2, [0, 0, 0, 0]⟩,
                  ⟨3, [0, 0, 0, 0]⟩],
                root_directory := .mk ⟨[47], 0, ⟨true, true⟩, 0, 0, [], 24, 16⟩
                  [.mk ⟨[100], 4, ⟨true, true⟩, 0, 0, [], FAT_EOC, 16⟩
                    [.mk ⟨[102], 4, ⟨true, true⟩, 0, 0, [], 1, 0⟩ []]] } [47, 100]
        = ({ superblock := ⟨4, 16, 24, 4⟩,
             fat := [FAT_FREE, FAT_EOC, FAT_FREE, FAT_FREE],
             blocks := [⟨0, [0, 0, 0, 0]⟩, ⟨1, [1, 2, 3, 4]⟩, ⟨2, [0, 0, 0, 0]⟩,
               ⟨3, [0, 0, 0, 0]⟩],
             root_directory := .mk ⟨[47], 0, ⟨true, true⟩, 0, 0, [], 24, 16⟩ [] }, .ok)
      ∧ allFiles (.mk ⟨[47], 0, ⟨true, true⟩, 0, 0, [], 24, 16⟩ []) = []
      ∧ [FAT_FREE, FAT_EOC, FAT_FREE, FAT_FREE][1]? = some FAT_EOC
      ∧ FAT_EOC ≠ FAT_FREE :=
  ⟨by rfl, by rfl, by rfl, by rfl, by rfl, by decide⟩

/-! ## The directory tree under an update through a pointer -/

theorem findFirst_some {α : Type} (p : α → Bool) :
    ∀ (l : List α) (i : Nat) (a : α), findFirst p l = some (i, a) →
      ∃ L R, l = L ++ a :: R ∧ L.length = i ∧ p a = true := by
  intro l
  induction l with
  | nil => intro i a h; simp [findFirst] at h
  | cons x xs ih =>
    intro i a h
    unfold findFirst at h
    by_cases hp : p x = true
    · rw [if_pos hp] at h
      injection h with h
      injection h with h1 h2
      subst h1 h2
      exact ⟨[], xs, rfl, rfl, hp⟩
    · rw [if_neg hp] at h
      cases hr : findFirst p xs with
      | none => rw [hr] at h; exact Option.noConfusion h
      | some q =>
        obtain ⟨j, b⟩ := q
        rw [hr] at h
        injection h with h
        injection h with h1 h2
        subst h1 h2
        obtain ⟨L, R, hl, hL, hb⟩ := ih j b hr
        exact ⟨x :: L, R, by rw [hl]; rfl, by simp [hL], hb⟩

theorem modifyNth_append {α : Type} (f : α → α) (L : List α) (a : α) (R : List α) :
    modifyNth f L.length (L ++ a :: R) = L ++ f a :: R := by
  induction L with
  | nil => rfl
  | cons x L ih =>
    show x :: modifyNth f L.length (L ++ a :: R) = x :: (L ++ f a :: R)
    rw [ih]

theorem allFilesList_append (L M : List DirectoryEntry) :
    allFilesList (L ++ M) = allFilesList L ++ allFilesList M := by
  induction L with
  | nil => rfl
  | cons x L ih =>
    show (if is_directory x then allFiles x else [x]) ++ allFilesList (L ++ M) = _
    rw [ih]
    simp only [List.cons_append, allFilesList, List.append_assoc]

theorem allFiles_eq (e : DirectoryEntry) : allFiles e = allFilesList e.children := by
  cases e
  rfl

theorem allFiles_setChildren (e : DirectoryEntry) (cs : List DirectoryEntry) :
    allFiles (e.setChildren cs) = allFilesList cs := rfl

theorem is_directory_setChildren (e : DirectoryEntry) (cs : List DirectoryEntry) :
    is_directory (e.setChildren cs) = is_directory e := rfl

theorem is_directory_modifyAt (g : DirectoryEntry → DirectoryEntry)
    (hg : ∀ e, is_directory (g e) = is_directory e) (idx : List Nat) (e : DirectoryEntry) :
    is_directory (modifyAt g idx e) = is_directory e := by
  cases idx with
  | nil => exact hg e
  | cons i idx => rfl

/-- The files of the tree before and after an update of the directory that
`findDirectory` returns: only the segment that belongs to that directory changes. -/
theorem allFiles_modifyAt (g : DirectoryEntry → DirectoryEntry)
    (hg : ∀ e, is_directory (g e) = is_directory e) :
    ∀ (comps : List (List Nat)) (cur : DirectoryEntry) (idx : List Nat) (d : DirectoryEntry),
      findDirectoryLoop cur comps = some (idx, d) →
      ∃ pre post, allFiles cur = pre ++ allFiles d ++ post
        ∧ allFiles (modifyAt g idx cur) = pre ++ allFiles (g d) ++ post := by
  intro comps
  induction comps with
  | nil =>
    intro cur idx d h
    simp only [findDirectoryLoop, Option.some.injEq, Prod.mk.injEq] at h
    obtain ⟨h1, h2⟩ := h
    subst h1 h2
    exact ⟨[], [], by simp, by simp [modifyAt]⟩
  | cons comp rest ih =>
    intro cur idx d h
    unfold findDirectoryLoop at h
    by_cases hc : comp = []
    · rw [if_pos hc] at h
      exact ih cur idx d h
    · rw [if_neg hc] at h
      cases hf : findFirst (fun entry => entry.getFilename == comp
          && (entry.getAttribute &&& ATTR_DIRECTORY != 0)) cur.children with
      | none => rw [hf] at h; exact Option.noConfusion h
      | some q =>
        obtain ⟨i, entry⟩ := q
        rw [hf] at h
        cases hr : findDirectoryLoop entry rest with
        | none => simp only [hr] at h; exact Option.noConfusion h
        | some q2 =>
          obtain ⟨idx', d'⟩ := q2
          simp only [hr, Option.some.injEq, Prod.mk.injEq] at h
          obtain ⟨h1, h2⟩ := h
          subst h1 h2
          obtain ⟨L, R, hl, hL, hp⟩ := findFirst_some _ _ _ _ hf
          have hdir : is_directory entry = true := by
            simp only [Bool.and_eq_true] at hp
            exact hp.2
          obtain ⟨pre, post, e1, e2⟩ := ih entry idx' d' hr
          have hdir' : is_directory (modifyAt g idx' entry) = true := by
            rw [is_directory_modifyAt g hg, hdir]
          refine ⟨allFilesList L ++ pre, post ++ allFilesList R, ?_, ?_⟩
          · rw [allFiles_eq cur, hl, allFilesList_append]
            simp only [allFilesList, hdir, if_true, e1, List.append_assoc]
          · show allFiles (cur.setChildren (modifyNth (modifyAt g idx') i cur.children)) = _
            rw [allFiles_setChildren, hl, ← hL, modifyNth_append, allFilesList_append]
            simp only [allFilesList, hdir', if_true, e2, List.append_assoc]

/-! ## Counting free entries, walking chains -/

theorem count_drop_free (fat : List Nat) :
    ∀ (n i : Nat), fat.length - i = n →
      (fat.drop i).count FAT_FREE = (freeFrom fat i).length := by
  intro n
  induction n with
  | zero =>
    intro i h
    rw [List.drop_of_length_le (by omega), freeFrom_of_le fat i (by omega)]
    rfl
  | succ n ih =>
    intro i h
    have hi : i < fat.length := by omega
    rw [List.drop_eq_getElem_cons hi, freeFrom_step fat i hi, List.getElem?_eq_getElem hi,
      List.count_cons, ih (i + 1) (by omega)]
    by_cases hf : fat[i] = FAT_FREE
    · simp [hf]
    · simp [hf]

theorem count_free_eq (fat : List Nat) :
    fat.count FAT_FREE
      = (if fat[0]? = some FAT_FREE then 1 else 0) + (freeIndices fat).length := by
  have h := count_drop_free fat fat.length 0 rfl
  rw [List.drop_zero] at h
  rw [h]
  unfold freeIndices
  by_cases h0 : 0 < fat.length
  · rw [freeFrom_step fat 0 h0, Nat.zero_add]
    by_cases hf : fat[0]? = some FAT_FREE
    · rw [if_pos hf, if_pos hf, List.length_cons]
      omega
    · rw [if_neg hf, if_neg hf]
      omega
  · have hnil : fat = [] := List.length_eq_zero.mp (by omega)
    subst hnil
    rfl

theorem chainWalk_eq (fat : List Nat) :
    ∀ (l : List Nat) (fuel : Nat), Linked fat l → l.length < fuel →
      chainWalk fat fuel (chainHead l) = l := by
  intro l
  induction l with
  | nil =>
    intro fuel _ hf
    obtain ⟨fuel, rfl⟩ : ∃ k, fuel = k + 1 := ⟨fuel - 1, by simp at hf; omega⟩
    unfold chainWalk
    exact if_pos rfl
  | cons b t ih =>
    intro fuel hl hf
    obtain ⟨fuel, rfl⟩ : ∃ k, fuel = k + 1 := ⟨fuel - 1, by simp at hf; omega⟩
    obtain ⟨h1, h2, h3⟩ := hl
    unfold chainWalk
    rw [show chainHead (b :: t) = b from rfl, if_neg h1, h2]
    show b :: chainWalk fat fuel (chainHead t) = b :: t
    rw [ih fuel h3 (by simp at hf; omega)]

theorem chainOf_eq (fat : List Nat) (s : Nat) (l : List Nat) (h : IsChain fat s l)
    (hlen : l.length ≤ fat.length) : chainOf fat s = l := by
  unfold chainOf
  rw [h.1]
  exact chainWalk_eq fat l _ h.2 (by omega)

theorem flatMap_congr_mem {α β : Type} (l : List α) (f g : α → List β)
    (h : ∀ a ∈ l, f a = g a) : l.flatMap f = l.flatMap g := by
  induction l with
  | nil => rfl
  | cons a l ih =>
    rw [List.flatMap_cons, List.flatMap_cons, h a (List.mem_cons_self _ _),
      ih (fun x hx => h x (List.mem_cons_of_mem _ hx))]

theorem nodup_of_nodup_flatMap {α β : Type} (l : List α) (f : α → List β)
    (h : (l.flatMap f).Nodup) (a : α) (ha : a ∈ l) : (f a).Nodup := by
  induction l with
  | nil => cases ha
  | cons x l ih =>
    rw [List.flatMap_cons] at h
    rcases List.mem_cons.mp ha with rfl | ha'
    · exact (List.nodup_append.mp h).1
    · exact ih (List.nodup_append.mp h).2.1 ha'

/-- A change of the FAT away from the chains of a list of files leaves these chains as they
are. -/
theorem chains_preserved (files : List DirectoryEntry) (fat F : List Nat)
    (hF : F.length = fat.length)
    (hch : ∀ f ∈ files, IsChain fat f.getStartBlock (chainOf fat f.getStartBlock))
    (hnd : (files.flatMap (fun f => chainOf fat f.getStartBlock)).Nodup)
    (hr : ∀ b ∈ files.flatMap (fun f => chainOf fat f.getStartBlock), b < fat.length)
    (hsame : ∀ b ∈ files.flatMap (fun f => chainOf fat f.getStartBlock), F[b]? = fat[b]?) :
    (∀ f ∈ files, chainOf F f.getStartBlock = chainOf fat f.getStartBlock)
      ∧ (∀ f ∈ files, IsChain F f.getStartBlock (chainOf F f.getStartBlock))
      ∧ files.flatMap (fun f => chainOf F f.getStartBlock)
          = files.flatMap (fun f => chainOf fat f.getStartBlock) := by
  have key : ∀ f ∈ files, chainOf F f.getStartBlock = chainOf fat f.getStartBlock
      ∧ IsChain F f.getStartBlock (chainOf fat f.getStartBlock) := by
    intro f hf
    have hsub : ∀ b ∈ chainOf fat f.getStartBlock,
        b ∈ files.flatMap (fun f => chainOf fat f.getStartBlock) :=
      fun b hb => List.mem_flatMap.mpr ⟨f, hf, hb⟩
    have hc := hch f hf
    have hc' : IsChain F f.getStartBlock (chainOf fat f.getStartBlock) :=
      ⟨hc.1, Linked_congr fat F _ (fun b hb => hsame b (hsub b hb)) hc.2⟩
    have hl : (chainOf fat f.getStartBlock).length ≤ F.length := by
      rw [hF]
      exact length_le_of_nodup_lt _ _ (nodup_of_nodup_flatMap files _ hnd f hf)
        (fun b hb => hr b (hsub b hb))
    exact ⟨chainOf_eq F _ _ hc' hl, hc'⟩
  refine ⟨fun f hf => (key f hf).1, fun f hf => ?_, flatMap_congr_mem _ _ _
    (fun f hf => (key f hf).1)⟩
  rw [(key f hf).1]
  exact (key f hf).2

theorem chain_block_not_free (fat : List Nat) (l : List Nat) (hl : Linked fat l)
    (hr : ∀ b ∈ l, b < fat.length) (hlen : fat.length ≤ 0xFFFF) (b : Nat) (hb : b ∈ l) :
    fat[b]? ≠ some FAT_FREE := by
  obtain ⟨v, hv, hv'⟩ := Linked_entry fat l hl b hb
  rw [hv]
  intro h
  have hvf : v = FAT_FREE := Option.some.inj h
  rcases hv' with h1 | h1
  · rw [h1] at hvf
    exact absurd hvf (by decide)
  · have := hr v h1
    rw [hvf] at this
    simp only [FAT_FREE] at this
    omega

/-! ## What a completed `write`, `del` or `mkdir` has done -/

theorem writeLoop_length (bs : Nat) (fat : List Nat) :
    ∀ (fuel : Nat) (blocks : List DiskBlock) (rem cur : Nat) (stream : List Nat)
      (blocks' : List DiskBlock),
      writeLoop bs fat fuel blocks rem cur stream = .ok blocks' →
      blocks'.length = blocks.length := by
  intro fuel
  induction fuel with
  | zero =>
    intro blocks rem cur stream blocks' h
    unfold writeLoop at h
    split at h
    · cases h
    · injection h with h
      rw [h]
  | succ fuel ih =>
    intro blocks rem cur stream blocks' h
    unfold writeLoop at h
    split at h
    · cases hb : vecGet blocks cur with
      | error e => rw [hb] at h; cases h
      | ok block =>
        cases hn : vecGet fat cur with
        | error e => simp only [hb, hn] at h; cases h
        | ok next =>
          simp only [hb, hn] at h
          rw [ih _ _ _ _ _ h, List.length_set]
    · injection h with h
      rw [h]

theorem is_directory_new_file (path : List Nat) (host : HostFile) (ct mt : Int) (c : Nat) :
    is_directory ((new_file_entry path host ct mt).setStartBlock c) = false := by
  have h : ((new_file_entry path host ct mt).setStartBlock c).getAttribute = 0 := by
    unfold new_file_entry set_file_metadata setPermissionsFromLinuxFile
    cases host.stat <;> rfl
  unfold is_directory
  rw [h]
  decide

theorem write_ok_inv (s s' : FileSystem) (path : List Nat) (lf : Option HostFile)
    (ct mt : Int) (st : Status) (h : write s path lf ct mt = .ok (s', st))
    (hst : st ≠ .insufficientSpace) :
    s' = s ∨ ∃ idx parent host r blocks',
      findDirectory s.root_directory (extract_directory_path path) = some (idx, parent)
      ∧ lf = some host
      ∧ allocateBlocksForFile s.superblock.block_size s.fat (new_file_entry path host ct mt)
          (new_file_entry path host ct mt).getSize = .ok r
      ∧ r.insufficient = false
      ∧ blocks'.length = s.blocks.length
      ∧ s' = { s with
                fat := r.fat, blocks := blocks',
                root_directory := modifyAt (fun p => calculateDirectorySize
                  (p.setChildren (p.children ++ [r.entry]))) idx s.root_directory } := by
  unfold write at h
  cases hfd : findDirectory s.root_directory (extract_directory_path path) with
  | none =>
    simp only [hfd] at h
    injection h with h
    injection h with h1 _
    exact Or.inl h1.symm
  | some q =>
    obtain ⟨idx, parent⟩ := q
    simp only [hfd] at h
    split at h
    · injection h with h
      injection h with h1 _
      exact Or.inl h1.symm
    · cases lf with
      | none =>
        injection h with h
        injection h with h1 _
        exact Or.inl h1.symm
      | some host =>
        simp only at h
        cases hal : allocateBlocksForFile s.superblock.block_size s.fat
            (new_file_entry path host ct mt) (new_file_entry path host ct mt).getSize with
        | error e =>
          simp only [new_file_entry] at hal
          rw [hal] at h
          cases h
        | ok r =>
          have hal' := hal
          simp only [new_file_entry] at hal
          rw [hal] at h
          simp only at h
          cases hwl : writeLoop s.superblock.block_size r.fat r.entry.getSize s.blocks
              r.entry.getSize r.entry.getStartBlock host.data with
          | error e => rw [hwl] at h; cases h
          | ok blocks' =>
            rw [hwl] at h
            simp only at h
            injection h with h
            injection h with h1 h2
            have hri : r.insufficient = false := by
              cases hb : r.insufficient with
              | false => rfl
              | true =>
                rw [hb] at h2
                exact absurd h2.symm hst
            exact Or.inr ⟨idx, parent, host, r, blocks', rfl, rfl, hal', hri,
              writeLoop_length _ _ _ _ _ _ _ _ hwl, h1.symm⟩

theorem del_ok_inv (s s' : FileSystem) (path input : List Nat) (st : Status)
    (h : del s path input = .ok (s', st)) :
    s' = s ∨ ∃ idx parent i it fat' blocks',
      findDirectory s.root_directory (extract_directory_path path) = some (idx, parent)
      ∧ findFirst (fun it => it.getFilename == extract_filename path) parent.children
          = some (i, it)
      ∧ is_directory it = false
      ∧ deallocateBlocksForFile s.fat s.blocks it = .ok (fat', blocks')
      ∧ s' = { s with
                fat := fat', blocks := blocks',
                root_directory := modifyAt (fun p => p.setChildren (p.children.eraseIdx i))
                  idx s.root_directory } := by
  unfold del at h
  cases hfd : findDirectory s.root_directory (extract_directory_path path) with
  | none =>
    simp only [hfd] at h
    injection h with h
    injection h with h1 _
    exact Or.inl h1.symm
  | some q =>
    obtain ⟨idx, parent⟩ := q
    simp only [hfd] at h
    cases hff : findFirst (fun it => it.getFilename == extract_filename path)
        parent.children with
    | none =>
      simp only [hff] at h
      injection h with h
      injection h with h1 _
      exact Or.inl h1.symm
    | some q2 =>
      obtain ⟨i, it⟩ := q2
      simp only [hff] at h
      split at h
      · injection h with h
        injection h with h1 _
        exact Or.inl h1.symm
      · rename_i hnd
        split at h
        · injection h with h
          injection h with h1 _
          exact Or.inl h1.symm
        · cases hde : deallocateBlocksForFile s.fat s.blocks it with
          | error e => rw [hde] at h; cases h
          | ok p =>
            obtain ⟨fat', blocks'⟩ := p
            rw [hde] at h
            simp only at h
            injection h with h
            injection h with h1 _
            refine Or.inr ⟨idx, parent, i, it, fat', blocks', rfl, hff, ?_, hde, h1.symm⟩
            unfold is_directory
            simpa using hnd

/-! ## The allocation invariant -/

theorem allFiles_calculateDirectorySize (e : DirectoryEntry) :
    allFiles (calculateDirectorySize e) = allFiles e := by
  cases e
  rfl

theorem is_directory_calculateDirectorySize (e : DirectoryEntry) :
    is_directory (calculateDirectorySize e) = is_directory e := by
  cases e
  rfl

theorem AllocInv_write (s s' : FileSystem) (path : List Nat) (lf : Option HostFile)
    (ct mt : Int) (st : Status) (hinv : AllocInv s)
    (h : write s path lf ct mt = .ok (s', st)) (hst : st ≠ .insufficientSpace) :
    AllocInv s' := by
  rcases write_ok_inv s s' path lf ct mt st h hst with
    rfl | ⟨idx, parent, host, r, blocks', hfd, _, hal, hri, hbl, rfl⟩
  · exact hinv
  obtain ⟨h1, h2, h3, h4, h5, h6, h7, h8⟩ := hinv
  have hlen' : s.fat.length ≤ 0xFFFF := le_trans h3 (by decide)
  have hbs : 0 < s.superblock.block_size := by
    rcases Nat.eq_zero_or_pos s.superblock.block_size with h0 | h0
    · rw [h0] at hal
      simp [allocateBlocksForFile] at hal
    · exact h0
  obtain ⟨r', hr', hrl, hins, _, hok⟩ := allocateBlocksForFile_spec s.superblock.block_size
    (new_file_entry path host ct mt).getSize s.fat (new_file_entry path host ct mt) hbs hlen'
  have hrr : r' = r := by
    rw [hr'] at hal
    injection hal
  rw [hrr] at hrl hins hok
  obtain ⟨hent, hstart, hlinked, hframe, hdrop⟩ := hok hri
  generalize hk : num_blocks_needed s.superblock.block_size
    (new_file_entry path host ct mt).getSize - 1 + 1 = k at hins hent hstart hlinked hframe hdrop
  have hkl : k ≤ (freeIndices s.fat).length := by
    by_contra hc
    have := hins.mpr (by omega)
    rw [hri] at this
    exact Bool.noConfusion this
  have hCfree : ∀ b ∈ (freeIndices s.fat).take k,
      1 ≤ b ∧ b < s.fat.length ∧ s.fat[b]? = some FAT_FREE :=
    fun b hb => mem_take_freeIndices s.fat k b hb
  have hCnd : ((freeIndices s.fat).take k).Nodup :=
    (freeFrom_nodup s.fat 1).sublist (List.take_sublist _ _)
  have hClen : ((freeIndices s.fat).take k).length = k := by
    rw [List.length_take]; omega
  -- blocks on old chains are not free
  have hold : ∀ b ∈ reachableBlocks s, s.fat[b]? ≠ some FAT_FREE := by
    intro b hb
    obtain ⟨f, hf, hbf⟩ := List.mem_flatMap.mp hb
    exact chain_block_not_free s.fat _ (h4 f hf).2
      (fun x hx => (h6 x (List.mem_flatMap.mpr ⟨f, hf, hx⟩)).2) hlen' b hbf
  have hdisj : ∀ b ∈ reachableBlocks s, b ∉ (freeIndices s.fat).take k :=
    fun b hb hc => hold b hb (hCfree b hc).2.2
  obtain ⟨hp1, hp2, hp3⟩ := chains_preserved (allFiles s.root_directory) s.fat r.fat hrl h4 h5
    (fun b hb => (h6 b hb).2) (fun b hb => hframe b (hdisj b hb))
  -- the new chain
  have hnewchain : IsChain r.fat r.entry.getStartBlock ((freeIndices s.fat).take k) :=
    ⟨hstart, hlinked h3⟩
  have hnew : chainOf r.fat r.entry.getStartBlock = (freeIndices s.fat).take k :=
    chainOf_eq r.fat _ _ hnewchain (by
      rw [hrl]
      exact length_le_of_nodup_lt _ _ hCnd (fun b hb => (hCfree b hb).2.1))
  -- the tree
  have hg : ∀ e, is_directory ((fun p => calculateDirectorySize
      (p.setChildren (p.children ++ [r.entry]))) e) = is_directory e := by
    intro e
    show is_directory (calculateDirectorySize (e.setChildren (e.children ++ [r.entry]))) = _
    rw [is_directory_calculateDirectorySize, is_directory_setChildren]
  obtain ⟨pre, post, e1, e2⟩ := allFiles_modifyAt _ hg _ s.root_directory idx parent hfd
  have hfile : is_directory r.entry = false := by
    rw [hent]
    exact is_directory_new_file path host ct mt _
  have e3 : allFiles (calculateDirectorySize (parent.setChildren (parent.children ++ [r.entry])))
      = allFiles parent ++ [r.entry] := by
    rw [allFiles_calculateDirectorySize, allFiles_setChildren, allFilesList_append,
      allFiles_eq parent]
    simp only [allFilesList, hfile, Bool.false_eq_true, if_false, List.append_nil]
  simp only [e3] at e2
  have hperm : (allFiles (modifyAt (fun p => calculateDirectorySize
      (p.setChildren (p.children ++ [r.entry]))) idx s.root_directory)).Perm
      (r.entry :: allFiles s.root_directory) := by
    rw [e1, e2]
    have ea : pre ++ (allFiles parent ++ [r.entry]) ++ post
        = (pre ++ allFiles parent) ++ r.entry :: post := by
      simp only [List.append_assoc, List.singleton_append]
    rw [ea]
    exact List.perm_middle
  have hRB : (reachableBlocks
      { s with
        fat := r.fat, blocks := blocks',
        root_directory := modifyAt (fun p => calculateDirectorySize
          (p.setChildren (p.children ++ [r.entry]))) idx s.root_directory }).Perm
      ((freeIndices s.fat).take k ++ reachableBlocks s) := by
    unfold reachableBlocks
    refine (List.Perm.flatMap_right _ hperm).trans ?_
    rw [List.flatMap_cons, hnew, hp3]
  have h0 : r.fat[0]? = s.fat[0]? :=
    hframe 0 (fun hc => absurd (hCfree 0 hc).1 (by decide))
  refine ⟨h1.trans hrl.symm, by rw [hbl, h2, hrl], by rw [hrl]; exact h3, ?_,
    hRB.nodup_iff.mpr ?_, ?_, ?_, by
      show 0 < r.fat.length → r.fat[0]? = some FAT_FREE
      rw [hrl, h0]
      exact h8⟩
  · intro f hf
    rcases List.mem_cons.mp (hperm.mem_iff.mp hf) with rfl | hf'
    · show IsChain r.fat _ (chainOf r.fat _)
      rw [hnew]
      exact hnewchain
    · exact hp2 f hf'
  · rw [List.nodup_append]
    exact ⟨hCnd, h5, fun b hb hb' => hdisj b hb' hb⟩
  · intro b hb
    show 1 ≤ b ∧ b < r.fat.length
    rw [hrl]
    rcases List.mem_append.mp (hRB.mem_iff.mp hb) with hc | ho
    · exact ⟨(hCfree b hc).1, (hCfree b hc).2.1⟩
    · exact h6 b ho
  · show r.fat.count FAT_FREE + _ = r.fat.length
    rw [hRB.length_eq, List.length_append, hClen, hrl, count_free_eq r.fat, hdrop,
      List.length_drop]
    rw [h0]
    rw [count_free_eq s.fat] at h7
    omega

theorem eraseIdx_append_cons {α : Type} (L : List α) (a : α) (R : List α) :
    (L ++ a :: R).eraseIdx L.length = L ++ R := by
  induction L with
  | nil => rfl
  | cons x L ih =>
    show x :: (L ++ a :: R).eraseIdx L.length = x :: (L ++ R)
    rw [ih]

theorem AllocInv_del (s s' : FileSystem) (path input : List Nat) (st : Status)
    (hinv : AllocInv s) (h : del s path input = .ok (s', st)) : AllocInv s' := by
  rcases del_ok_inv s s' path input st h with
    rfl | ⟨idx, parent, i, it, fat', blocks', hfd, hff, hfile, hde, rfl⟩
  · exact hinv
  obtain ⟨h1, h2, h3, h4, h5, h6, h7, h8⟩ := hinv
  have hlen' : s.fat.length ≤ 0xFFFF := le_trans h3 (by decide)
  -- the tree
  obtain ⟨L, R, hl, hL, _⟩ := findFirst_some _ _ _ _ hff
  have hg : ∀ e, is_directory ((fun p => p.setChildren (p.children.eraseIdx i)) e)
      = is_directory e := fun e => rfl
  obtain ⟨pre, post, e1, e2⟩ := allFiles_modifyAt _ hg _ s.root_directory idx parent hfd
  have e3 : allFiles parent = allFilesList L ++ it :: allFilesList R := by
    rw [allFiles_eq parent, hl, allFilesList_append]
    simp only [allFilesList, hfile, Bool.false_eq_true, if_false, List.singleton_append]
  have e4 : allFiles (parent.setChildren (parent.children.eraseIdx i))
      = allFilesList L ++ allFilesList R := by
    rw [allFiles_setChildren, hl, ← hL, eraseIdx_append_cons, allFilesList_append]
  simp only [e4] at e2
  rw [e3] at e1
  have hperm : (allFiles s.root_directory).Perm
      (it :: allFiles (modifyAt (fun p => p.setChildren (p.children.eraseIdx i)) idx
        s.root_directory)) := by
    rw [e1, e2]
    have ea : pre ++ (allFilesList L ++ it :: allFilesList R) ++ post
        = (pre ++ allFilesList L) ++ it :: (allFilesList R ++ post) := by
      simp only [List.append_assoc, List.cons_append]
    have eb : pre ++ (allFilesList L ++ allFilesList R) ++ post
        = (pre ++ allFilesList L) ++ (allFilesList R ++ post) := by
      simp only [List.append_assoc]
    rw [ea, eb]
    exact List.perm_middle
  generalize hfiles' : allFiles (modifyAt (fun p => p.setChildren (p.children.eraseIdx i)) idx
    s.root_directory) = files' at hperm
  have hitmem : it ∈ allFiles s.root_directory := hperm.mem_iff.mpr (List.mem_cons_self _ _)
  have hsubfiles : ∀ f ∈ files', f ∈ allFiles s.root_directory :=
    fun f hf => hperm.mem_iff.mpr (List.mem_cons_of_mem _ hf)
  -- the blocks
  have hRB : (reachableBlocks s).Perm (chainOf s.fat it.getStartBlock
      ++ files'.flatMap (fun f => chainOf s.fat f.getStartBlock)) := by
    unfold reachableBlocks
    refine (List.Perm.flatMap_right _ hperm).trans ?_
    rw [List.flatMap_cons]
  have hnd := hRB.nodup_iff.mp h5
  rw [List.nodup_append] at hnd
  obtain ⟨hndl, hnd0, hdisj⟩ := hnd
  have hchain := h4 it hitmem
  have hrange : ∀ b ∈ chainOf s.fat it.getStartBlock,
      1 ≤ b ∧ b < s.fat.length ∧ b < s.blocks.length := by
    intro b hb
    have := h6 b (hRB.mem_iff.mpr (List.mem_append_left _ hb))
    exact ⟨this.1, this.2, by rw [h2]; exact this.2⟩
  obtain ⟨fat'', blocks'', hrun, hfl, hbl, hfc, _, hcnt⟩ := deallocateLoop_chain
    (chainOf s.fat it.getStartBlock) (s.fat.length + 2) s.fat s.blocks it.getStartBlock
    hchain.2 hchain.1 hndl hrange (by
      have := length_le_of_nodup_lt _ s.fat.length hndl (fun b hb => (hrange b hb).2.1)
      omega)
  have heq : (fat'', blocks'') = (fat', blocks') := by
    unfold deallocateBlocksForFile at hde
    rw [hrun] at hde
    injection hde
  injection heq with hf1 hf2
  subst hf1 hf2
  obtain ⟨_, hp2, hp3⟩ := chains_preserved files' s.fat fat'' hfl
    (fun f hf => h4 f (hsubfiles f hf)) hnd0
    (fun b hb => (h6 b (hRB.mem_iff.mpr (List.mem_append_right _ hb))).2)
    (fun b hb => by
      rw [hfc b, if_neg (fun hc => hdisj hc hb)])
  have hRB' : reachableBlocks
      { s with
        fat := fat'', blocks := blocks'',
        root_directory := modifyAt (fun p => p.setChildren (p.children.eraseIdx i)) idx
          s.root_directory }
      = files'.flatMap (fun f => chainOf s.fat f.getStartBlock) := by
    unfold reachableBlocks
    show (allFiles (modifyAt (fun p => p.setChildren (p.children.eraseIdx i)) idx
      s.root_directory)).flatMap (fun f => chainOf fat'' f.getStartBlock) = _
    rw [hfiles', hp3]
  refine ⟨h1.trans hfl.symm, by rw [hbl, h2, hfl], by rw [hfl]; exact h3, ?_, ?_, ?_, ?_, by
    show 0 < fat''.length → fat''[0]? = some FAT_FREE
    rw [hfl, hfc 0, if_neg (fun hc => absurd (hrange 0 hc).1 (by decide))]
    exact h8⟩
  · intro f hf
    have hf' : f ∈ files' := by rw [← hfiles']; exact hf
    exact hp2 f hf'
  · rw [hRB']
    exact hnd0
  · intro b hb
    rw [hRB'] at hb
    show 1 ≤ b ∧ b < fat''.length
    rw [hfl]
    exact h6 b (hRB.mem_iff.mpr (List.mem_append_right _ hb))
  · rw [hRB']
    show fat''.count FAT_FREE + _ = fat''.length
    rw [hcnt hlen', hfl]
    have := hRB.length_eq
    rw [List.length_append] at this
    omega

theorem mkdir_fst (s : FileSystem) (path : List Nat) (ct mt : Int) :
    (mkdir s path ct mt).1 = s ∨ ∃ idx parent nd,
      findDirectory s.root_directory (extract_directory_path path) = some (idx, parent)
      ∧ is_directory nd = true ∧ nd.children = []
      ∧ (mkdir s path ct mt).1
          = { s with root_directory :=
                (modifyAt (fun p => p.setChildren (p.children ++ [nd])) idx s.root_directory) } := by
  simp only [mkdir]
  cases hfd : findDirectory s.root_directory (extract_directory_path path) with
  | none => exact Or.inl rfl
  | some q =>
    obtain ⟨idx, parent⟩ := q
    simp only
    split
    · exact Or.inl rfl
    · refine Or.inr ⟨idx, parent, _, rfl, ?_, ?_, rfl⟩
      · have h : ((((((((DirectoryEntry.init 0 ct mt).setFilename
            (extract_filename path)).setPermissions ⟨true, true⟩).setCreationTime
            ct).setModificationTime mt).setAttribute ATTR_DIRECTORY).setSize 0).setStartBlock
            FAT_EOC).getAttribute = 16 := by
          show ATTR_DIRECTORY % 2 ^ 8 = 16
          decide
        unfold is_directory
        rw [h]
        decide
      · rfl

theorem AllocInv_mkdir (s : FileSystem) (path : List Nat) (ct mt : Int) (hinv : AllocInv s) :
    AllocInv (mkdir s path ct mt).1 := by
  rcases mkdir_fst s path ct mt with h | ⟨idx, parent, nd, hfd, hdir, hch, h⟩
  · rw [h]
    exact hinv
  rw [h]
  have hg : ∀ e, is_directory ((fun p => p.setChildren (p.children ++ [nd])) e)
      = is_directory e := fun e => rfl
  obtain ⟨pre, post, e1, e2⟩ := allFiles_modifyAt _ hg _ s.root_directory idx parent hfd
  have e3 : allFiles (parent.setChildren (parent.children ++ [nd])) = allFiles parent := by
    rw [allFiles_setChildren, allFilesList_append, allFiles_eq parent]
    simp only [allFilesList, hdir, if_true, allFiles_eq nd, hch, List.append_nil]
  simp only [e3] at e2
  rw [← e1] at e2
  obtain ⟨h1, h2, h3, h4, h5, h6, h7, h8⟩ := hinv
  have hRB : reachableBlocks
      { s with root_directory :=
          (modifyAt (fun p => p.setChildren (p.children ++ [nd])) idx s.root_directory) }
      = reachableBlocks s := by
    unfold reachableBlocks
    show (allFiles (modifyAt (fun p => p.setChildren (p.children ++ [nd])) idx
      s.root_directory)).flatMap _ = _
    rw [e2]
  refine ⟨h1, h2, h3, ?_, by rw [hRB]; exact h5, by rw [hRB]; exact h6,
    by rw [hRB]; exact h7, h8⟩
  intro f hf
  have hf' : f ∈ allFiles s.root_directory := by rw [← e2]; exact hf
  exact h4 f hf'

theorem AllocInv_create (n bs : Nat) (ct mt : Int) (hn : n ≤ 0xFFFD) :
    AllocInv (FileSystem.create n bs ct mt) := by
  have hfat : (FileSystem.create n bs ct mt).fat = List.replicate n FAT_FREE := rfl
  have hfiles : allFiles (FileSystem.create n bs ct mt).root_directory = [] := rfl
  have hRB : reachableBlocks (FileSystem.create n bs ct mt) = [] := by
    unfold reachableBlocks
    rw [hfiles]
    rfl
  refine ⟨?_, ?_, ?_, ?_, ?_, ?_, ?_, ?_⟩
  rotate_left 7
  · rw [hfat, List.length_replicate]
    intro h0
    rw [List.getElem?_replicate, if_pos h0]
  · rw [hfat, List.length_replicate]
    rfl
  · rw [hfat, List.length_replicate, create_blocks_length]
    rfl
  · rw [hfat, List.length_replicate]
    exact hn
  · intro f hf
    rw [hfiles] at hf
    cases hf
  · rw [hRB]
    exact List.nodup_nil
  · intro b hb
    rw [hRB] at hb
    cases hb
  · rw [hRB, hfat, List.count_replicate_self, List.length_replicate]
    rfl

theorem AllocInv_reachable (n bs : Nat) (ct mt : Int) (hn : n ≤ 0xFFFD) (s : FileSystem)
    (h : ReachableNoShortage n bs ct mt s) : AllocInv s ∧ s.superblock.total_blocks = n := by
  induction h with
  | create => exact ⟨AllocInv_create n bs ct mt hn, rfl⟩
  | write s s' path lf t1 t2 st _ hw hst ih =>
    refine ⟨AllocInv_write s s' path lf t1 t2 st ih.1 hw hst, ?_⟩
    rcases write_ok_inv s s' path lf t1 t2 st hw hst with
      rfl | ⟨_, _, _, _, _, _, _, _, _, _, rfl⟩
    · exact ih.2
    · exact ih.2
  | del s s' path input st _ hd ih =>
    refine ⟨AllocInv_del s s' path input st ih.1 hd, ?_⟩
    rcases del_ok_inv s s' path input st hd with rfl | ⟨_, _, _, _, _, _, _, _, _, _, rfl⟩
    · exact ih.2
    · exact ih.2
  | mkdir s path t1 t2 _ ih =>
    refine ⟨AllocInv_mkdir s path t1 t2 ih.1, ?_⟩
    rcases mkdir_fst s path t1 t2 with h | ⟨_, _, _, _, _, _, h⟩
    · rw [h]
      exact ih.2
    · rw [h]
      exact ih.2

/-- C8, counterexample. In the freshly created file system `FileSystem(4096, 512)` no file
exists and all 4096 FAT entries are `FAT_FREE` (entry 0 included), which is not
`total_blocks - 1 - 0 = 4095`. -/
theorem fresh_free_count_counterexample :
    ReachableNoShortage 4096 512 0 0 (FileSystem.create 4096 512 0 0)
      ∧ reachableBlocks (FileSystem.create 4096 512 0 0) = []
      ∧ (FileSystem.create 4096 512 0 0).fat.count FAT_FREE = 4096
      ∧ (FileSystem.create 4096 512 0 0).superblock.total_blocks - 1
          - (reachableBlocks (FileSystem.create 4096 512 0 0)).length = 4095 := by
  have hRB : reachableBlocks (FileSystem.create 4096 512 0 0) = [] := rfl
  refine ⟨ReachableNoShortage.create, hRB, ?_, ?_⟩
  · show (List.replicate 4096 FAT_FREE).count FAT_FREE = 4096
    exact List.count_replicate_self _ _
  · rw [hRB]
    rfl

/-- C8, amended. In every state reached from a freshly created file system of at most
`0xFFFD` blocks by `mkdir`, `del` and `write` calls, none of the writes reporting
insufficient space, the number of `FAT_FREE` entries is `total_blocks` minus the number of
blocks on the chains of the files of the tree (entry 0 is free and counted; the free
entries at indices `≥ 1` number `total_blocks - 1` minus the blocks on chains); these
blocks are pairwise distinct (no block is counted twice) and the start block of every file
heads a chain. -/
theorem free_count_reachable (n bs : Nat) (ct mt : Int) (hn : n ≤ 0xFFFD) (s : FileSystem)
    (h : ReachableNoShortage n bs ct mt s) :
    s.fat.count FAT_FREE = s.superblock.total_blocks - (reachableBlocks s).length
      ∧ (reachableBlocks s).length ≤ s.superblock.total_blocks
      ∧ s.superblock.total_blocks = n
      ∧ (freeIndices s.fat).length
          = s.superblock.total_blocks - 1 - (reachableBlocks s).length
      ∧ (reachableBlocks s).Nodup
      ∧ ∀ f ∈ allFiles s.root_directory,
          IsChain s.fat f.getStartBlock (chainOf s.fat f.getStartBlock) := by
  obtain ⟨⟨h1, _, _, h4, h5, _, h7, h8⟩, hn'⟩ := AllocInv_reachable n bs ct mt hn s h
  refine ⟨?_, ?_, hn', ?_, h5, h4⟩
  · rw [h1]; omega
  · rw [h1]; omega
  · rw [h1]
    rw [count_free_eq s.fat] at h7
    by_cases h0 : 0 < s.fat.length
    · rw [if_pos (h8 h0)] at h7
      omega
    · omega

/-- Witness of `free_count_reachable`: `FileSystem(4, 4)` after `write("/a", 5 bytes)`;
two entries are free (0 and 3) and the chain of `a` has the two blocks 1 and 2. -/
theorem free_count_reachable_witness :
    [FAT_FREE, 2, FAT_EOC, FAT_FREE].count FAT_FREE
      = 4 - (reachableBlocks
          { superblock := ⟨4, 16, 24, 4⟩, fat := [FAT_FREE, 2, FAT_EOC, FAT_FREE],
            blocks := [⟨0, [0, 0, 0, 0]⟩, ⟨1, [1, 2, 3, 4]⟩, ⟨2, [5, 0, 0, 0]⟩,
              ⟨3, [0, 0, 0, 0]⟩],
            root_directory := .mk ⟨[47], 5, ⟨true, true⟩, 0, 0, [], 24, 16⟩
              [.mk ⟨[97], 5, ⟨true, true⟩, 0, 0, [], 1, 0⟩ []] }).length :=
  (free_count_reachable 4 4 0 0 (by decide)
    { superblock := ⟨4, 16, 24, 4⟩, fat := [FAT_FREE, 2, FAT_EOC, FAT_FREE],
      blocks := [⟨0, [0, 0, 0, 0]⟩, ⟨1, [1, 2, 3, 4]⟩, ⟨2, [5, 0, 0, 0]⟩,
        ⟨3, [0, 0, 0, 0]⟩],
      root_directory := .mk ⟨[47], 5, ⟨true, true⟩, 0, 0, [], 24, 16⟩
        [.mk ⟨[97], 5, ⟨true, true⟩, 0, 0, [], 1, 0⟩ []] }
    (ReachableNoShortage.write (FileSystem.create 4 4 0 0) _ [47, 97]
      (some ⟨[1, 2, 3, 4, 5], none⟩) 0 0 .ok ReachableNoShortage.create (by rfl)
      (by decide))).1

/-! ## `calculateDirectorySize` -/

theorem sumFileSizes_eq (cs : List DirectoryEntry) (acc : Nat) :
    sumFileSizes cs acc % 2 ^ 32
      = (acc + ((cs.filter (fun c => !is_directory c)).map DirectoryEntry.getSize).sum)
        % 2 ^ 32 := by
  induction cs generalizing acc with
  | nil => rfl
  | cons c cs ih =>
    unfold sumFileSizes
    by_cases hd : is_directory c = true
    · rw [if_neg (by simp [hd]), ih, List.filter_cons_of_neg (by simp [hd])]
    · have hd' : is_directory c = false := by simpa using hd
      rw [if_pos (by simp [hd']), ih, List.filter_cons_of_pos (by simp [hd']), List.map_cons,
        List.sum_cons, Nat.add_mod, Nat.mod_mod, ← Nat.add_mod, Nat.add_assoc]

/-- C20. `calculateDirectorySize` sets the size of the node to the sum, modulo `2^32`, of
the sizes of its immediate children without the directory attribute (subdirectories and
what is below them are not looked at); every other field and the children are unchanged. -/
theorem calculateDirectorySize_spec (directory : DirectoryEntry) :
    calculateDirectorySize directory
        = .mk { directory.fields with size := immediateFileSize directory } directory.children
      ∧ (calculateDirectorySize directory).getSize
          = ((directory.children.filter (fun c => !is_directory c)).map
              DirectoryEntry.getSize).sum % 2 ^ 32
      ∧ (calculateDirectorySize directory).children = directory.children
      ∧ (calculateDirectorySize directory).getFilename = directory.getFilename
      ∧ (calculateDirectorySize directory).getPermissions = directory.getPermissions
      ∧ (calculateDirectorySize directory).getCreationTime = directory.getCreationTime
      ∧ (calculateDirectorySize directory).getModificationTime
          = directory.getModificationTime
      ∧ (calculateDirectorySize directory).getPassword = directory.getPassword
      ∧ (calculateDirectorySize directory).getStartBlock = directory.getStartBlock
      ∧ (calculateDirectorySize directory).getAttribute = directory.getAttribute := by
  have hs : sumFileSizes directory.children 0 % 2 ^ 32 = immediateFileSize directory := by
    rw [sumFileSizes_eq, Nat.zero_add]
    rfl
  have h1 : calculateDirectorySize directory
      = .mk { directory.fields with size := immediateFileSize directory }
          directory.children := by
    unfold calculateDirectorySize DirectoryEntry.setSize
    rw [hs]
  refine ⟨h1, ?_, ?_, ?_, ?_, ?_, ?_, ?_, ?_, ?_⟩
  all_goals rw [h1]
  all_goals rfl

/-! ## `rmdir` and `del`: what is rejected, what is erased -/

theorem findFirst_none {α : Type} (p : α → Bool) (l : List α) (h : ∀ a ∈ l, p a = false) :
    findFirst p l = none := by
  induction l with
  | nil => rfl
  | cons a l ih =>
    unfold findFirst
    rw [if_neg (by rw [h a (List.mem_cons_self _ _)]; decide),
      ih (fun x hx => h x (List.mem_cons_of_mem _ hx))]

/-- C16. When the parent directory of the path does not resolve, or resolves and has no
child whose name is the last component of the path, `rmdir` reports not found and
returns the state (tree, FAT, blocks) as it was. -/
theorem rmdir_not_found (fs : FileSystem) (path : List Nat)
    (h : findDirectory fs.root_directory (extract_directory_path path) = none
      ∨ ∃ idx parent,
          findDirectory fs.root_directory (extract_directory_path path) = some (idx, parent)
          ∧ ∀ c ∈ parent.children, c.getFilename ≠ extract_filename path) :
    rmdir fs path = (fs, .notFound) := by
  unfold rmdir
  rcases h with h | ⟨idx, parent, h, hc⟩
  · simp only [h]
  · have hn : findFirst (fun it => it.getFilename == extract_filename path) parent.children
        = none :=
      findFirst_none _ _ (fun c hcm => by simpa using hc c hcm)
    simp only [h, hn]

/-- Witness of `rmdir_not_found`: `rmdir("/nope")` on a fresh file system. -/
theorem rmdir_not_found_witness :
    rmdir (FileSystem.create 4 4 0 0) [47, 110, 111, 112, 101]
      = (FileSystem.create 4 4 0 0, .notFound) :=
  rmdir_not_found (FileSystem.create 4 4 0 0) [47, 110, 111, 112, 101]
    (Or.inr ⟨[], (FileSystem.create 4 4 0 0).root_directory, by rfl,
      fun c hc => by cases hc⟩)

/-- C17. When the parent directory resolves and the child that the last component of the
path names (the first child with that name) is a file, `rmdir` reports a wrong type; when
it is a directory, `del` reports a wrong type, whatever is typed at the password prompt;
both return the state (tree, FAT, blocks) as it was. -/
theorem type_mismatch_rejected (fs : FileSystem) (path : List Nat) (idx : List Nat)
    (parent : DirectoryEntry) (i : Nat) (it : DirectoryEntry)
    (hp : findDirectory fs.root_directory (extract_directory_path path) = some (idx, parent))
    (hc : findFirst (fun c => c.getFilename == extract_filename path) parent.children
      = some (i, it)) :
    (is_directory it = false → rmdir fs path = (fs, .wrongType))
      ∧ (is_directory it = true → ∀ input, del fs path input = .ok (fs, .wrongType)) := by
  constructor
  · intro hf
    have hf' : (it.getAttribute &&& ATTR_DIRECTORY != 0) = false := hf
    unfold rmdir
    simp only [hp, hc, hf', Bool.false_eq_true, if_false]
  · intro hd input
    have hd' : (it.getAttribute &&& ATTR_DIRECTORY != 0) = true := hd
    unfold del
    simp only [hp, hc, hd', if_true]

/-- Witness of `type_mismatch_rejected`: a root with the file `a` and the directory `d`;
`rmdir("/a")` and `del("/d")` are rejected. -/
theorem type_mismatch_rejected_witness :
    rmdir { superblock := ⟨4, 16, 24, 4⟩, fat := [FAT_FREE, FAT_EOC, FAT_FREE, FAT_FREE],
            blocks := [⟨0, [0, 0, 0, 0]⟩, ⟨1, [1, 2, 3, 4]⟩, ⟨2, [0, 0, 0, 0]⟩,
              ⟨3, [0, 0, 0, 0]⟩],
            root_directory := .mk ⟨[47], 4, ⟨true, true⟩, 0, 0, [], 24, 16⟩
              [.mk ⟨[97], 4, ⟨true, true⟩, 0, 0, [], 1, 0⟩ [],
               .mk ⟨[100], 0, ⟨true, true⟩, 0, 0, [], FAT_EOC, 16⟩ []] } [47, 97]
        = ({ superblock := ⟨4, 16, 24, 4⟩, fat := [FAT_FREE, FAT_EOC, FAT_FREE, FAT_FREE],
             blocks := [⟨0, [0, 0, 0, 0]⟩, ⟨1, [1, 2, 3, 4]⟩, ⟨2, [0, 0, 0, 0]⟩,
               ⟨3, [0, 0, 0, 0]⟩],
             root_directory := .mk ⟨[47], 4, ⟨true, true⟩, 0, 0, [], 24, 16⟩
               [.mk ⟨[97], 4, ⟨true, true⟩, 0, 0, [], 1, 0⟩ [],
                .mk ⟨[100], 0, ⟨true, true⟩, 0, 0, [], FAT_EOC, 16⟩ []] }, .wrongType)
      ∧ del { superblock := ⟨4, 16, 24, 4⟩, fat := [FAT_FREE, FAT_EOC, FAT_FREE, FAT_FREE],
              blocks := [⟨0, [0, 0, 0, 0]⟩, ⟨1, [1, 2, 3, 4]⟩, ⟨2, [0, 0, 0, 0]⟩,
                ⟨3, [0, 0, 0, 0]⟩],
              root_directory := .mk ⟨[47], 4, ⟨true, true⟩, 0, 0, [], 24, 16⟩
                [.mk ⟨[97], 4, ⟨true, true⟩, 0, 0, [], 1, 0⟩ [],
                 .mk ⟨[100], 0, ⟨true, true⟩, 0, 0, [], FAT_EOC, 16⟩ []] } [47, 100] []
        = .ok ({ superblock := ⟨4, 16, 24, 4⟩,
                 fat := [FAT_FREE, FAT_EOC, FAT_FREE, FAT_FREE],
                 blocks := [⟨0, [0, 0, 0, 0]⟩, ⟨1, [1, 2, 3, 4]⟩, ⟨2, [0, 0, 0, 0]⟩,
                   ⟨3, [0, 0, 0, 0]⟩],
                 root_directory := .mk ⟨[47], 4, ⟨true, true⟩, 0, 0, [], 24, 16⟩
                   [.mk ⟨[97], 4, ⟨true, true⟩, 0, 0, [], 1, 0⟩ [],
                    .mk ⟨[100], 0, ⟨true, true⟩, 0, 0, [], FAT_EOC, 16⟩ []] },
               .wrongType) :=
  ⟨(type_mismatch_rejected _ [47, 97] []
      (.mk ⟨[47], 4, ⟨true, true⟩, 0, 0, [], 24, 16⟩
        [.mk ⟨[97], 4, ⟨true, true⟩, 0, 0, [], 1, 0⟩ [],
         .mk ⟨[100], 0, ⟨true, true⟩, 0, 0, [], FAT_EOC, 16⟩ []])
      0 (.mk ⟨[97], 4, ⟨true, true⟩, 0, 0, [], 1, 0⟩ []) (by rfl) (by rfl)).1 (by decide),
   (type_mismatch_rejected _ [47, 100] []
      (.mk ⟨[47], 4, ⟨true, true⟩, 0, 0, [], 24, 16⟩
        [.mk ⟨[97], 4, ⟨true, true⟩, 0, 0, [], 1, 0⟩ [],
         .mk ⟨[100], 0, ⟨true, true⟩, 0, 0, [], FAT_EOC, 16⟩ []])
      1 (.mk ⟨[100], 0, ⟨true, true⟩, 0, 0, [], FAT_EOC, 16⟩ []) (by rfl) (by rfl)).2
      (by decide) []⟩

/-- C11 (code defect). When the parent directory resolves and the child that the last
component names is a directory, `rmdir` erases that child, with whatever is below it, from
the children of the parent and returns the FAT and the blocks untouched: it neither
rejects a directory that has children nor frees the chains of the files inside it. -/
theorem rmdir_erases_without_freeing (fs : FileSystem) (path : List Nat) (idx : List Nat)
    (parent : DirectoryEntry) (i : Nat) (it : DirectoryEntry)
    (hp : findDirectory fs.root_directory (extract_directory_path path) = some (idx, parent))
    (hc : findFirst (fun c => c.getFilename == extract_filename path) parent.children
      = some (i, it))
    (hd : is_directory it = true) :
    rmdir fs path
        = ({ fs with root_directory :=
              (modifyAt (fun p => p.setChildren (p.children.eraseIdx i)) idx fs.root_directory) },
           .ok)
      ∧ (rmdir fs path).1.fat = fs.fat ∧ (rmdir fs path).1.blocks = fs.blocks := by
  have hd' : (it.getAttribute &&& ATTR_DIRECTORY != 0) = true := hd
  have h : rmdir fs path
      = ({ fs with root_directory :=
            (modifyAt (fun p => p.setChildren (p.children.eraseIdx i)) idx fs.root_directory) },
         .ok) := by
    unfold rmdir
    simp only [hp, hc, hd', if_true]
  refine ⟨h, ?_, ?_⟩
  · rw [h]
  · rw [h]

/-- Witness of `rmdir_erases_without_freeing`: the directory `d` holds the file `f` whose
chain is block 1; after `rmdir("/d")` the root has no child and no file is left, yet the
FAT entry of block 1 is still `FAT_EOC` and its data are still there. -/
theorem rmdir_erases_without_freeing_witness :
    rmdir { superblock := ⟨4, 16, 24, 4⟩, fat := [FAT_FREE, FAT_EOC, FAT_FREE, FAT_FREE],
            blocks := [⟨0, [0, 0, 0, 0]⟩, ⟨1, [1, 2, 3, 4]⟩, ⟨2, [0, 0, 0, 0]⟩,
              ⟨3, [0, 0, 0, 0]⟩],
            root_directory := .mk ⟨[47], 0, ⟨true, true⟩, 0, 0, [], 24, 16⟩
              [.mk ⟨[100], 4, ⟨true, true⟩, 0, 0, [], FAT_EOC, 16⟩
                [.mk ⟨[102], 4, ⟨true, true⟩, 0, 0, [], 1, 0⟩ []]] } [47, 100]
      = ({ superblock := ⟨4, 16, 24, 4⟩, fat := [FAT_FREE, FAT_EOC, FAT_FREE, FAT_FREE],
           blocks := [⟨0, [0, 0, 0, 0]⟩, ⟨1, [1, 2, 3, 4]⟩, ⟨2, [0, 0, 0, 0]⟩,
             ⟨3, [0, 0, 0, 0]⟩],
           root_directory := .mk ⟨[47], 0, ⟨true, true⟩, 0, 0, [], 24, 16⟩ [] }, .ok) :=
  (rmdir_erases_without_freeing _ [47, 100] []
    (.mk ⟨[47], 0, ⟨true, true⟩, 0, 0, [], 24, 16⟩
      [.mk ⟨[100], 4, ⟨true, true⟩, 0, 0, [], FAT_EOC, 16⟩
        [.mk ⟨[102], 4, ⟨true, true⟩, 0, 0, [], 1, 0⟩ []]])
    0 (.mk ⟨[100], 4, ⟨true, true⟩, 0, 0, [], FAT_EOC, 16⟩
        [.mk ⟨[102], 4, ⟨true, true⟩, 0, 0, [], 1, 0⟩ []])
    (by rfl) (by rfl) (by decide)).1.trans (by rfl)

/-! ## Path resolution -/

theorem getlines_splitOn (s : List Nat) :
    ∃ t, (t = [] ∨ t = [[]]) ∧ s.splitOn 47 = getlines s ++ t := by
  induction s with
  | nil => exact ⟨[[]], Or.inr rfl, rfl⟩
  | cons c cs ih =>
    obtain ⟨t, ht, he⟩ := ih
    have hstep : (c :: cs).splitOn 47
        = if (c == 47) = true then [] :: cs.splitOn 47
          else List.modifyHead (List.cons c) (cs.splitOn 47) :=
      List.splitOnP_cons _ c cs
    unfold getlines
    by_cases hc : c = 47
    · subst hc
      rw [hstep, if_pos (by decide), if_pos rfl, he]
      exact ⟨t, ht, rfl⟩
    · rw [hstep, if_neg (by simpa using hc), if_neg hc, he]
      cases hg : getlines cs with
      | nil =>
        rcases ht with rfl | rfl
        · rw [hg] at he
          have hne : cs.splitOn 47 ≠ [] := List.splitOnP_ne_nil _ cs
          exact absurd he hne
        · exact ⟨[], Or.inl rfl, rfl⟩
      | cons w ws => exact ⟨t, ht, rfl⟩

theorem getlines_filter (s : List Nat) :
    (getlines s).filter (fun x => decide (x ≠ [])) = segments s := by
  obtain ⟨t, ht, he⟩ := getlines_splitOn s
  unfold segments
  rw [he, List.filter_append]
  rcases ht with rfl | rfl
  · rw [List.filter_nil, List.append_nil]
  · have : List.filter (fun x => decide (x ≠ [])) ([[]] : List (List Nat)) = [] := by decide
    rw [this, List.append_nil]

theorem findDirectoryLoop_filter :
    ∀ (comps : List (List Nat)) (cur : DirectoryEntry),
      findDirectoryLoop cur comps
        = findDirectoryLoop cur (comps.filter (fun x => decide (x ≠ []))) := by
  intro comps
  induction comps with
  | nil => intro cur; rfl
  | cons comp rest ih =>
    intro cur
    by_cases hc : comp = []
    · subst hc
      rw [List.filter_cons_of_neg (by decide), findDirectoryLoop, if_pos rfl]
      exact ih cur
    · rw [List.filter_cons_of_pos (by simpa using hc), findDirectoryLoop, findDirectoryLoop,
        if_neg hc, if_neg hc]
      cases findFirst (fun entry => entry.getFilename == comp
          && (entry.getAttribute &&& ATTR_DIRECTORY != 0)) cur.children with
      | none => rfl
      | some q =>
        obtain ⟨i, entry⟩ := q
        simp only [ih entry]

theorem findDirectory_segments (root : DirectoryEntry) (path : List Nat) :
    findDirectory root path = findDirectoryLoop root (segments path) := by
  unfold findDirectory
  rw [findDirectoryLoop_filter, getlines_filter]

/-- C12. Two paths with the same sequence of non-empty `'/'`-separated segments resolve
alike: `findDirectory` returns the same pointer and node, or `nullptr` for both. The path
`"/"` and the empty path resolve to the root. -/
theorem findDirectory_ignores_empty_segments (root : DirectoryEntry) (p q : List Nat)
    (h : segments p = segments q) :
    findDirectory root p = findDirectory root q
      ∧ findDirectory root [47] = some ([], root)
      ∧ findDirectory root [] = some ([], root) := by
  refine ⟨?_, rfl, rfl⟩
  rw [findDirectory_segments, findDirectory_segments, h]

/-- Witness of `findDirectory_ignores_empty_segments`: the paths `"/a//b"` and `"a/b/"`. -/
theorem findDirectory_ignores_empty_segments_witness :
    segments [47, 97, 47, 47, 98] = segments [97, 47, 98, 47]
      ∧ findDirectory (FileSystem.create 4 4 0 0).root_directory [47, 97, 47, 47, 98]
          = findDirectory (FileSystem.create 4 4 0 0).root_directory [97, 47, 98, 47] :=
  ⟨by decide, (findDirectory_ignores_empty_segments
    (FileSystem.create 4 4 0 0).root_directory [47, 97, 47, 47, 98] [97, 47, 98, 47]
    (by decide)).1⟩

theorem findFirst_find {α : Type} (p : α → Bool) (l : List α) :
    (findFirst p l).map Prod.snd = l.find? p := by
  induction l with
  | nil => rfl
  | cons a l ih =>
    unfold findFirst
    by_cases hp : p a = true
    · rw [if_pos hp, List.find?_cons_of_pos _ hp]
      rfl
    · rw [if_neg hp, List.find?_cons_of_neg _ hp, ← ih]
      cases findFirst p l with
      | none => rfl
      | some q => rfl

theorem findFirst_getElem {α : Type} (p : α → Bool) (l : List α) (i : Nat) (a : α)
    (h : findFirst p l = some (i, a)) : l[i]? = some a := by
  obtain ⟨L, R, hl, hL, _⟩ := findFirst_some p l i a h
  rw [hl, ← hL, List.getElem?_append_right (Nat.le_refl _), Nat.sub_self,
    List.getElem?_cons_zero]

theorem findDirectoryLoop_walk :
    ∀ (comps : List (List Nat)) (cur : DirectoryEntry), (∀ c ∈ comps, c ≠ []) →
      (findDirectoryLoop cur comps).map Prod.snd = walkSegments cur comps := by
  intro comps
  induction comps with
  | nil => intro cur _; rfl
  | cons comp rest ih =>
    intro cur hne
    have hc : comp ≠ [] := hne comp (List.mem_cons_self _ _)
    have hff := findFirst_find (fun entry => entry.getFilename == comp
      && (entry.getAttribute &&& ATTR_DIRECTORY != 0)) cur.children
    unfold findDirectoryLoop walkSegments
    rw [if_neg hc]
    have hfind : List.find? (fun c => c.getFilename == comp && is_directory c) cur.children
        = List.find? (fun entry => entry.getFilename == comp
          && (entry.getAttribute &&& ATTR_DIRECTORY != 0)) cur.children := rfl
    rw [hfind, ← hff]
    cases findFirst (fun entry => entry.getFilename == comp
        && (entry.getAttribute &&& ATTR_DIRECTORY != 0)) cur.children with
    | none => rfl
    | some q =>
      obtain ⟨i, entry⟩ := q
      have := ih entry (fun c hcm => hne c (List.mem_cons_of_mem _ hcm))
      simp only [Option.map_some']
      rw [← this]
      cases findDirectoryLoop entry rest with
      | none => rfl
      | some q2 => rfl

theorem findDirectoryLoop_nodeAt :
    ∀ (comps : List (List Nat)) (cur : DirectoryEntry) (idx : List Nat) (d : DirectoryEntry),
      findDirectoryLoop cur comps = some (idx, d) → nodeAt cur idx = some d := by
  intro comps
  induction comps with
  | nil =>
    intro cur idx d h
    simp only [findDirectoryLoop, Option.some.injEq, Prod.mk.injEq] at h
    obtain ⟨h1, h2⟩ := h
    subst h1 h2
    rfl
  | cons comp rest ih =>
    intro cur idx d h
    unfold findDirectoryLoop at h
    by_cases hc : comp = []
    · rw [if_pos hc] at h
      exact ih cur idx d h
    · rw [if_neg hc] at h
      cases hf : findFirst (fun entry => entry.getFilename == comp
          && (entry.getAttribute &&& ATTR_DIRECTORY != 0)) cur.children with
      | none => rw [hf] at h; exact Option.noConfusion h
      | some q =>
        obtain ⟨i, entry⟩ := q
        rw [hf] at h
        cases hr : findDirectoryLoop entry rest with
        | none => simp only [hr] at h; exact Option.noConfusion h
        | some q2 =>
          obtain ⟨idx', d'⟩ := q2
          simp only [hr, Option.some.injEq, Prod.mk.injEq] at h
          obtain ⟨h1, h2⟩ := h
          subst h1 h2
          unfold nodeAt
          rw [findFirst_getElem _ _ _ _ hf]
          exact ih entry idx' d' hr

/-- C13. `findDirectory` agrees with the walk of the specification over the non-empty
segments of the path: it returns a node exactly when every segment, in turn, names a child
of the current node that has the directory attribute, the node returned is the one that
walk reaches through the first such child at each step, and it returns `nullptr` when some
segment has no such child. The pointer returned leads to the node returned. -/
theorem findDirectory_walk (root : DirectoryEntry) (path : List Nat) :
    (findDirectory root path).map Prod.snd = walkSegments root (segments path)
      ∧ ((findDirectory root path).isSome ↔ (walkSegments root (segments path)).isSome)
      ∧ (findDirectory root path = none ↔ walkSegments root (segments path) = none)
      ∧ ∀ idx d, findDirectory root path = some (idx, d) → nodeAt root idx = some d := by
  have h : (findDirectory root path).map Prod.snd = walkSegments root (segments path) := by
    rw [findDirectory_segments]
    apply findDirectoryLoop_walk
    intro c hc
    unfold segments at hc
    have := (List.mem_filter.mp hc).2
    simpa using this
  refine ⟨h, ?_, ?_, fun idx d hd => findDirectoryLoop_nodeAt _ root idx d hd⟩
  · rw [← h]
    cases findDirectory root path <;> simp
  · rw [← h]
    cases findDirectory root path <;> simp

/-! ## `mkdir` -/

theorem findFirst_prefix {α : Type} (p : α → Bool) :
    ∀ (l : List α) (i : Nat) (a : α), findFirst p l = some (i, a) →
      ∃ L R, l = L ++ a :: R ∧ L.length = i ∧ p a = true ∧ ∀ x ∈ L, p x = false := by
  intro l
  induction l with
  | nil => intro i a h; simp [findFirst] at h
  | cons x xs ih =>
    intro i a h
    unfold findFirst at h
    by_cases hp : p x = true
    · rw [if_pos hp] at h
      injection h with h
      injection h with h1 h2
      subst h1 h2
      exact ⟨[], xs, rfl, rfl, hp, fun y hy => by cases hy⟩
    · rw [if_neg hp] at h
      cases hr : findFirst p xs with
      | none => rw [hr] at h; exact Option.noConfusion h
      | some q =>
        obtain ⟨j, b⟩ := q
        rw [hr] at h
        injection h with h
        injection h with h1 h2
        subst h1 h2
        obtain ⟨L, R, hl, hL, hb, hpre⟩ := ih j b hr
        refine ⟨x :: L, R, by rw [hl]; rfl, by simp [hL], hb, ?_⟩
        intro y hy
        rcases List.mem_cons.mp hy with rfl | hy'
        · simpa using hp
        · exact hpre y hy'

theorem findFirst_append {α : Type} (p : α → Bool) (L : List α) (a : α) (R : List α)
    (hL : ∀ x ∈ L, p x = false) (ha : p a = true) :
    findFirst p (L ++ a :: R) = some (L.length, a) := by
  induction L with
  | nil =>
    show findFirst p (a :: R) = _
    unfold findFirst
    rw [if_pos ha]
    rfl
  | cons x L ih =>
    show findFirst p (x :: (L ++ a :: R)) = _
    unfold findFirst
    rw [if_neg (by rw [hL x (List.mem_cons_self _ _)]; decide),
      ih (fun y hy => hL y (List.mem_cons_of_mem _ hy))]
    rfl

theorem getFilename_modifyAt (g : DirectoryEntry → DirectoryEntry)
    (hn : ∀ e, (g e).getFilename = e.getFilename) (idx : List Nat) (e : DirectoryEntry) :
    (modifyAt g idx e).getFilename = e.getFilename := by
  cases idx with
  | nil => exact hn e
  | cons i idx => rfl

theorem getAttribute_modifyAt (g : DirectoryEntry → DirectoryEntry)
    (ha : ∀ e, (g e).getAttribute = e.getAttribute) (idx : List Nat) (e : DirectoryEntry) :
    (modifyAt g idx e).getAttribute = e.getAttribute := by
  cases idx with
  | nil => exact ha e
  | cons i idx => rfl

/-- Resolving a path again after an update, through the pointer it returned, that keeps
names and attributes: the same pointer, and the updated node. -/
theorem findDirectoryLoop_modifyAt (g : DirectoryEntry → DirectoryEntry)
    (hn : ∀ e, (g e).getFilename = e.getFilename)
    (ha : ∀ e, (g e).getAttribute = e.getAttribute) :
    ∀ (comps : List (List Nat)) (cur : DirectoryEntry) (idx : List Nat) (d : DirectoryEntry),
      findDirectoryLoop cur comps = some (idx, d) →
      findDirectoryLoop (modifyAt g idx cur) comps = some (idx, g d) := by
  intro comps
  induction comps with
  | nil =>
    intro cur idx d h
    simp only [findDirectoryLoop, Option.some.injEq, Prod.mk.injEq] at h
    obtain ⟨h1, h2⟩ := h
    subst h1 h2
    rfl
  | cons comp rest ih =>
    intro cur idx d h
    rw [findDirectoryLoop] at h
    by_cases hc : comp = []
    · rw [if_pos hc] at h
      rw [findDirectoryLoop, if_pos hc]
      exact ih cur idx d h
    · rw [if_neg hc] at h
      cases hf : findFirst (fun entry => entry.getFilename == comp
          && (entry.getAttribute &&& ATTR_DIRECTORY != 0)) cur.children with
      | none => rw [hf] at h; exact Option.noConfusion h
      | some q =>
        obtain ⟨i, entry⟩ := q
        rw [hf] at h
        cases hr : findDirectoryLoop entry rest with
        | none => simp only [hr] at h; exact Option.noConfusion h
        | some q2 =>
          obtain ⟨idx', d'⟩ := q2
          simp only [hr, Option.some.injEq, Prod.mk.injEq] at h
          obtain ⟨h1, h2⟩ := h
          subst h1 h2
          obtain ⟨L, R, hl, hL, hp, hpre⟩ := findFirst_prefix _ _ _ _ hf
          have hp' : (fun entry : DirectoryEntry => entry.getFilename == comp
              && (entry.getAttribute &&& ATTR_DIRECTORY != 0)) (modifyAt g idx' entry)
              = true := by
            show ((modifyAt g idx' entry).getFilename == comp
              && ((modifyAt g idx' entry).getAttribute &&& ATTR_DIRECTORY != 0)) = true
            rw [getFilename_modifyAt g hn, getAttribute_modifyAt g ha]
            exact hp
          have hch : (modifyAt g (i :: idx') cur).children
              = L ++ modifyAt g idx' entry :: R := by
            show modifyNth (modifyAt g idx') i cur.children = _
            rw [hl, ← hL, modifyNth_append]
          rw [findDirectoryLoop, if_neg hc, hch, findFirst_append _ L _ R hpre hp', hL]
          simp only [ih entry idx' d' hr]

theorem getElem?_modifyNth {α : Type} (f : α → α) :
    ∀ (l : List α) (i : Nat), (modifyNth f i l)[i]? = (l[i]?).map f := by
  intro l
  induction l with
  | nil => intro i; cases i <;> rfl
  | cons a l ih =>
    intro i
    cases i with
    | zero =>
      show (f a :: l)[0]? = ((a :: l)[0]?).map f
      rw [List.getElem?_cons_zero, List.getElem?_cons_zero]
      rfl
    | succ i =>
      show (a :: modifyNth f i l)[i + 1]? = ((a :: l)[i + 1]?).map f
      rw [List.getElem?_cons_succ, List.getElem?_cons_succ, ih]

theorem nodeAt_modifyAt (g : DirectoryEntry → DirectoryEntry) :
    ∀ (idx : List Nat) (cur d : DirectoryEntry), nodeAt cur idx = some d →
      nodeAt (modifyAt g idx cur) idx = some (g d) := by
  intro idx
  induction idx with
  | nil =>
    intro cur d h
    injection h with h
    subst h
    rfl
  | cons i idx ih =>
    intro cur d h
    rw [nodeAt] at h
    cases hc : cur.children[i]? with
    | none => rw [hc] at h; exact Option.noConfusion h
    | some c =>
      rw [hc] at h
      rw [nodeAt]
      have : (modifyAt g (i :: idx) cur).children[i]? = some (modifyAt g idx c) := by
        show (modifyNth (modifyAt g idx) i cur.children)[i]? = _
        rw [getElem?_modifyNth, hc]
        rfl
      rw [this]
      exact ih c d h

theorem mkdir_eq (fs : FileSystem) (path : List Nat) (ct mt : Int) (idx : List Nat)
    (parent : DirectoryEntry)
    (hp : findDirectory fs.root_directory (extract_directory_path path) = some (idx, parent)) :
    mkdir fs path ct mt
      = if parent.children.any (fun entry => entry.getFilename == extract_filename path) then
          (fs, .alreadyExists)
        else
          ({ fs with root_directory := (modifyAt (fun p => p.setChildren
              (p.children ++ [new_directory_entry path ct mt])) idx fs.root_directory) },
            .ok) := by
  simp only [mkdir, hp]
  rfl

theorem new_directory_entry_props (path : List Nat) (ct mt : Int) :
    (new_directory_entry path ct mt).getFilename = extract_filename path
      ∧ is_directory (new_directory_entry path ct mt) = true
      ∧ (new_directory_entry path ct mt).children = [] := by
  refine ⟨rfl, ?_, rfl⟩
  have h : (new_directory_entry path ct mt).getAttribute = 16 := by
    show ATTR_DIRECTORY % 2 ^ 8 = 16
    decide
  unfold is_directory
  rw [h]
  decide

/-- C14. When the parent directory of the path resolves, `mkdir` reports that the entry
already exists if and only if the parent has a child, file or directory, whose name is the
last component of the path, and it then returns the state as it was. Otherwise it
succeeds, and the only change is that one childless directory node with that name is
appended after the existing children of the parent. A second `mkdir` of the same path
leaves the state of the first. -/
theorem mkdir_spec (fs : FileSystem) (path : List Nat) (ct mt : Int) (idx : List Nat)
    (parent : DirectoryEntry)
    (hp : findDirectory fs.root_directory (extract_directory_path path) = some (idx, parent)) :
    ((mkdir fs path ct mt).2 = .alreadyExists
        ↔ ∃ c ∈ parent.children, c.getFilename = extract_filename path)
      ∧ ((mkdir fs path ct mt).2 = .alreadyExists → (mkdir fs path ct mt).1 = fs)
      ∧ ((mkdir fs path ct mt).2 ≠ .alreadyExists →
          ∃ nd, nd.getFilename = extract_filename path ∧ is_directory nd = true
            ∧ nd.children = []
            ∧ mkdir fs path ct mt
                = ({ fs with root_directory := (modifyAt (fun p => p.setChildren
                    (p.children ++ [nd])) idx fs.root_directory) }, .ok)
            ∧ nodeAt fs.root_directory idx = some parent
            ∧ nodeAt (mkdir fs path ct mt).1.root_directory idx
                = some (parent.setChildren (parent.children ++ [nd])))
      ∧ ∀ ct' mt', (mkdir (mkdir fs path ct mt).1 path ct' mt').1 = (mkdir fs path ct mt).1 := by
  have heq := mkdir_eq fs path ct mt idx parent hp
  have hany : parent.children.any (fun entry => entry.getFilename == extract_filename path)
      = true ↔ ∃ c ∈ parent.children, c.getFilename = extract_filename path := by
    rw [List.any_eq_true]
    constructor
    · rintro ⟨c, hc, h⟩
      exact ⟨c, hc, by simpa using h⟩
    · rintro ⟨c, hc, h⟩
      exact ⟨c, hc, by simpa using h⟩
  obtain ⟨hname, hdir, hchild⟩ := new_directory_entry_props path ct mt
  have hnode : nodeAt fs.root_directory idx = some parent :=
    findDirectoryLoop_nodeAt _ _ _ _ hp
  by_cases hex : parent.children.any (fun entry => entry.getFilename == extract_filename path)
      = true
  · rw [if_pos hex] at heq
    refine ⟨⟨fun _ => hany.mp hex, fun _ => by rw [heq]⟩, fun _ => by rw [heq],
      fun h => absurd (by rw [heq]) h, ?_⟩
    intro ct' mt'
    rw [heq]
    show (mkdir fs path ct' mt').1 = fs
    rw [mkdir_eq fs path ct' mt' idx parent hp, if_pos hex]
  · rw [if_neg hex] at heq
    refine ⟨⟨fun h => ?_, fun h => absurd (hany.mpr h) hex⟩, fun h => ?_, fun _ => ?_, ?_⟩
    · rw [heq] at h
      exact Status.noConfusion h
    · rw [heq] at h
      exact Status.noConfusion h
    · refine ⟨new_directory_entry path ct mt, hname, hdir, hchild, heq, hnode, ?_⟩
      rw [heq]
      exact nodeAt_modifyAt _ idx fs.root_directory parent hnode
    · intro ct' mt'
      have hp' : findDirectory (mkdir fs path ct mt).1.root_directory
          (extract_directory_path path)
          = some (idx, parent.setChildren
              (parent.children ++ [new_directory_entry path ct mt])) := by
        rw [heq]
        exact findDirectoryLoop_modifyAt (fun p => p.setChildren
          (p.children ++ [new_directory_entry path ct mt])) (fun e => rfl) (fun e => rfl)
          _ _ _ _ hp
      rw [mkdir_eq _ path ct' mt' idx _ hp', if_pos]
      show (parent.children ++ [new_directory_entry path ct mt]).any
        (fun entry => entry.getFilename == extract_filename path) = true
      rw [List.any_append, List.any_cons, hname]
      simp

/-- Witness of `mkdir_spec`: `mkdir("/a")` on a fresh file system, twice. -/
theorem mkdir_spec_witness :
    (mkdir (FileSystem.create 4 4 0 0) [47, 97] 1 2).2 ≠ .alreadyExists
      ∧ (mkdir (mkdir (FileSystem.create 4 4 0 0) [47, 97] 1 2).1 [47, 97] 3 4).1
          = (mkdir (FileSystem.create 4 4 0 0) [47, 97] 1 2).1 :=
  ⟨by decide, (mkdir_spec (FileSystem.create 4 4 0 0) [47, 97] 1 2 []
    (FileSystem.create 4 4 0 0).root_directory (by rfl)).2.2.2 3 4⟩

/-! ## Sibling names -/

theorem UniqueNames_iff (e : DirectoryEntry) :
    UniqueNames e ↔ (e.children.map DirectoryEntry.getFilename).Nodup
      ∧ UniqueNamesList e.children := by
  cases e with
  | mk f cs => rw [UniqueNames]; rfl

theorem UniqueNamesList_iff (cs : List DirectoryEntry) :
    UniqueNamesList cs ↔ ∀ c ∈ cs, UniqueNames c := by
  induction cs with
  | nil =>
    rw [UniqueNamesList]
    exact ⟨fun _ c hc => absurd hc (List.not_mem_nil c), fun _ => trivial⟩
  | cons c cs ih =>
    rw [UniqueNamesList, ih]
    constructor
    · rintro ⟨h1, h2⟩ x hx
      rcases List.mem_cons.mp hx with rfl | hx
      · exact h1
      · exact h2 x hx
    · intro h
      exact ⟨h c (List.mem_cons_self _ _), fun x hx => h x (List.mem_cons_of_mem _ hx)⟩

theorem children_setChildren (e : DirectoryEntry) (cs : List DirectoryEntry) :
    (e.setChildren cs).children = cs := by
  cases e; rfl

theorem UniqueNames_setChildren (e : DirectoryEntry) (cs : List DirectoryEntry) :
    UniqueNames (e.setChildren cs)
      ↔ (cs.map DirectoryEntry.getFilename).Nodup ∧ ∀ c ∈ cs, UniqueNames c := by
  rw [UniqueNames_iff, UniqueNamesList_iff, children_setChildren]

theorem UniqueNames_of_children_eq (e e' : DirectoryEntry) (h : e'.children = e.children) :
    UniqueNames e' ↔ UniqueNames e := by
  rw [UniqueNames_iff, UniqueNames_iff, h]

theorem UniqueNames_of_children_nil (e : DirectoryEntry) (h : e.children = []) :
    UniqueNames e := by
  rw [UniqueNames_iff, UniqueNamesList_iff, h]
  exact ⟨List.nodup_nil, fun c hc => absurd hc (List.not_mem_nil c)⟩

theorem map_modifyNth_of_eq {α β : Type} (k : α → β) (f : α → α) :
    ∀ (l : List α) (i : Nat), (∀ a, l[i]? = some a → k (f a) = k a) →
      (modifyNth f i l).map k = l.map k := by
  intro l
  induction l with
  | nil => intro i _; cases i <;> rfl
  | cons a l ih =>
    intro i h
    cases i with
    | zero =>
      show k (f a) :: l.map k = k a :: l.map k
      rw [h a (List.getElem?_cons_zero)]
    | succ i =>
      show k a :: (modifyNth f i l).map k = k a :: l.map k
      rw [ih i (fun b hb => h b (by rw [List.getElem?_cons_succ]; exact hb))]

theorem mem_modifyNth {α : Type} (f : α → α) :
    ∀ (l : List α) (i : Nat) (x : α), x ∈ modifyNth f i l →
      x ∈ l ∨ ∃ a, l[i]? = some a ∧ x = f a := by
  intro l
  induction l with
  | nil => intro i x h; cases i <;> exact absurd h (List.not_mem_nil x)
  | cons a l ih =>
    intro i x h
    cases i with
    | zero =>
      have h' : x ∈ f a :: l := h
      rcases List.mem_cons.mp h' with rfl | hx
      · exact Or.inr ⟨a, List.getElem?_cons_zero, rfl⟩
      · exact Or.inl (List.mem_cons_of_mem _ hx)
    | succ i =>
      have h' : x ∈ a :: modifyNth f i l := h
      rcases List.mem_cons.mp h' with rfl | hx
      · exact Or.inl (List.mem_cons_self _ _)
      · rcases ih i x hx with hm | ⟨b, hb, hxb⟩
        · exact Or.inl (List.mem_cons_of_mem _ hm)
        · exact Or.inr ⟨b, by rw [List.getElem?_cons_succ]; exact hb, hxb⟩

/-- An update through the pointer to a node keeps the names unique when it keeps the name
of the node and the names below the node unique. -/
theorem UniqueNames_modifyAt (g : DirectoryEntry → DirectoryEntry)
    (hn : ∀ e, (g e).getFilename = e.getFilename) :
    ∀ (idx : List Nat) (cur d : DirectoryEntry), nodeAt cur idx = some d →
      UniqueNames cur → (UniqueNames d → UniqueNames (g d)) →
      UniqueNames (modifyAt g idx cur) := by
  intro idx
  induction idx with
  | nil =>
    intro cur d h hu hg
    injection h with h
    subst h
    exact hg hu
  | cons i idx ih =>
    intro cur d h hu hg
    rw [nodeAt] at h
    cases hc : cur.children[i]? with
    | none => rw [hc] at h; exact Option.noConfusion h
    | some c =>
      rw [hc] at h
      rw [UniqueNames_iff, UniqueNamesList_iff] at hu
      show UniqueNames (cur.setChildren (modifyNth (modifyAt g idx) i cur.children))
      rw [UniqueNames_setChildren, map_modifyNth_of_eq _ _ _ _
        (fun a _ => getFilename_modifyAt g hn idx a)]
      refine ⟨hu.1, ?_⟩
      intro x hx
      rcases mem_modifyNth _ _ _ _ hx with hm | ⟨a, ha, hxa⟩
      · exact hu.2 x hm
      · rw [hc] at ha
        injection ha with ha
        subst ha
        rw [hxa]
        exact ih c d h (hu.2 c (List.getElem?_mem hc)) hg

theorem UniqueNames_nodeAt :
    ∀ (idx : List Nat) (cur d : DirectoryEntry), nodeAt cur idx = some d →
      UniqueNames cur → UniqueNames d := by
  intro idx
  induction idx with
  | nil =>
    intro cur d h hu
    injection h with h
    subst h
    exact hu
  | cons i idx ih =>
    intro cur d h hu
    rw [nodeAt] at h
    cases hc : cur.children[i]? with
    | none => rw [hc] at h; exact Option.noConfusion h
    | some c =>
      rw [hc] at h
      rw [UniqueNames_iff, UniqueNamesList_iff] at hu
      exact ih c d h (hu.2 c (List.getElem?_mem hc))

theorem UniqueNames_append_child (d nd : DirectoryEntry) (hd : UniqueNames d)
    (hnd : nd.children = [])
    (hnew : d.children.any (fun e => e.getFilename == nd.getFilename) = false) :
    UniqueNames (d.setChildren (d.children ++ [nd])) := by
  rw [UniqueNames_iff, UniqueNamesList_iff] at hd
  rw [UniqueNames_setChildren, List.map_append, List.nodup_append]
  refine ⟨⟨hd.1, List.nodup_singleton _, ?_⟩, ?_⟩
  · intro n hn hn'
    rw [List.map_singleton, List.mem_singleton] at hn'
    subst hn'
    obtain ⟨c, hc, hcn⟩ := List.mem_map.mp hn
    have : d.children.any (fun e => e.getFilename == nd.getFilename) = true :=
      List.any_eq_true.mpr ⟨c, hc, by simpa using hcn⟩
    rw [hnew] at this
    exact Bool.noConfusion this
  · intro c hc
    rcases List.mem_append.mp hc with hc | hc
    · exact hd.2 c hc
    · rw [List.mem_singleton] at hc
      subst hc
      exact UniqueNames_of_children_nil _ hnd

theorem UniqueNames_eraseIdx (d : DirectoryEntry) (i : Nat) (hd : UniqueNames d) :
    UniqueNames (d.setChildren (d.children.eraseIdx i)) := by
  rw [UniqueNames_iff, UniqueNamesList_iff] at hd
  rw [UniqueNames_setChildren]
  exact ⟨hd.1.sublist ((List.eraseIdx_sublist _ _).map _),
    fun c hc => hd.2 c ((List.eraseIdx_sublist _ _).subset hc)⟩

theorem UniqueNames_modifyNth (d : DirectoryEntry) (i : Nat)
    (h : DirectoryEntry → DirectoryEntry) (hn : ∀ e, (h e).getFilename = e.getFilename)
    (hc : ∀ e, (h e).children = e.children) (hd : UniqueNames d) :
    UniqueNames (d.setChildren (modifyNth h i d.children)) := by
  rw [UniqueNames_iff, UniqueNamesList_iff] at hd
  rw [UniqueNames_setChildren, map_modifyNth_of_eq _ _ _ _ (fun a _ => hn a)]
  refine ⟨hd.1, ?_⟩
  intro x hx
  rcases mem_modifyNth _ _ _ _ hx with hm | ⟨a, ha, hxa⟩
  · exact hd.2 x hm
  · rw [hxa]
    exact (UniqueNames_of_children_eq a (h a) (hc a)).mpr (hd.2 a (List.getElem?_mem ha))
theorem allocateLoop_entry (entry : DirectoryEntry) :
    ∀ (k : Nat) (fat : List Nat) (prev : Nat) (r : AllocResult),
      allocateLoop entry k fat prev = .ok r → r.entry = entry := by
  intro k
  induction k with
  | zero =>
    intro fat prev r h
    unfold allocateLoop at h
    split at h
    · cases h
    · injection h with h
      rw [← h]
  | succ k ih =>
    intro fat prev r h
    unfold allocateLoop at h
    split at h
    · cases h
    · split at h
      · injection h with h
        rw [← h]
      · split at h
        · cases h
        · exact ih _ _ _ h

theorem allocateBlocksForFile_entry (bs : Nat) (fat : List Nat) (entry : DirectoryEntry)
    (n : Nat) (r : AllocResult) (h : allocateBlocksForFile bs fat entry n = .ok r) :
    r.entry.getFilename = entry.getFilename ∧ r.entry.children = entry.children := by
  unfold allocateBlocksForFile at h
  split at h
  · cases h
  · simp only at h
    split at h
    · cases h
    · split at h
      · injection h with h
        rw [← h]
        exact ⟨rfl, rfl⟩
      · rw [allocateLoop_entry _ _ _ _ _ h]
        exact ⟨rfl, rfl⟩

theorem new_file_getFilename (path : List Nat) (host : HostFile) (ct mt : Int) :
    (new_file_entry path host ct mt).getFilename = extract_filename path
      ∧ (new_file_entry path host ct mt).children = [] := by
  unfold new_file_entry set_file_metadata setPermissionsFromLinuxFile
  cases host.stat <;> exact ⟨rfl, rfl⟩

theorem UniqueNames_mkdir (s : FileSystem) (path : List Nat) (ct mt : Int)
    (h : UniqueNames s.root_directory) : UniqueNames (mkdir s path ct mt).1.root_directory := by
  cases hfd : findDirectory s.root_directory (extract_directory_path path) with
  | none =>
    have e : mkdir s path ct mt = (s, .notFound) := by simp only [mkdir, hfd]
    rw [e]
    exact h
  | some q =>
    obtain ⟨idx, parent⟩ := q
    rw [mkdir_eq s path ct mt idx parent hfd]
    by_cases hex : parent.children.any (fun entry => entry.getFilename == extract_filename path)
        = true
    · rw [if_pos hex]
      exact h
    · rw [if_neg hex]
      exact UniqueNames_modifyAt (fun p => p.setChildren
          (p.children ++ [new_directory_entry path ct mt])) (fun e => rfl) idx _ parent
        (findDirectoryLoop_nodeAt _ _ _ _ hfd) h
        (fun hd => UniqueNames_append_child parent _ hd rfl ((Bool.not_eq_true _).mp hex))

theorem UniqueNames_write (s s' : FileSystem) (path : List Nat) (lf : Option HostFile)
    (ct mt : Int) (st : Status) (h : write s path lf ct mt = .ok (s', st))
    (hu : UniqueNames s.root_directory) : UniqueNames s'.root_directory := by
  unfold write at h
  cases hfd : findDirectory s.root_directory (extract_directory_path path) with
  | none =>
    simp only [hfd] at h
    injection h with h
    injection h with h1 _
    rw [← h1]
    exact hu
  | some q =>
    obtain ⟨idx, parent⟩ := q
    simp only [hfd] at h
    split at h
    · injection h with h
      injection h with h1 _
      rw [← h1]
      exact hu
    · rename_i hex
      cases lf with
      | none =>
        injection h with h
        injection h with h1 _
        rw [← h1]
        exact hu
      | some host =>
        simp only at h
        cases hal : allocateBlocksForFile s.superblock.block_size s.fat
            (new_file_entry path host ct mt) (new_file_entry path host ct mt).getSize with
        | error e =>
          simp only [new_file_entry] at hal
          rw [hal] at h
          cases h
        | ok r =>
          have hal' := hal
          simp only [new_file_entry] at hal
          rw [hal] at h
          simp only at h
          cases hwl : writeLoop s.superblock.block_size r.fat r.entry.getSize s.blocks
              r.entry.getSize r.entry.getStartBlock host.data with
          | error e => rw [hwl] at h; cases h
          | ok blocks' =>
            rw [hwl] at h
            simp only at h
            injection h with h
            injection h with h1 _
            rw [← h1]
            obtain ⟨hrn, hrc⟩ := allocateBlocksForFile_entry _ _ _ _ _ hal'
            obtain ⟨hnn, hnc⟩ := new_file_getFilename path host ct mt
            show UniqueNames (modifyAt (fun p => calculateDirectorySize
              (p.setChildren (p.children ++ [r.entry]))) idx s.root_directory)
            refine UniqueNames_modifyAt (fun p => calculateDirectorySize
              (p.setChildren (p.children ++ [r.entry]))) (fun e => rfl) idx _ parent
              (findDirectoryLoop_nodeAt _ _ _ _ hfd) hu (fun hd => ?_)
            refine (UniqueNames_of_children_eq (parent.setChildren
              (parent.children ++ [r.entry])) _ rfl).mpr
              (UniqueNames_append_child parent r.entry hd (hrc.trans hnc) ?_)
            rw [hrn, hnn]
            exact (Bool.not_eq_true _).mp hex

theorem UniqueNames_rmdir (s : FileSystem) (path : List Nat)
    (h : UniqueNames s.root_directory) : UniqueNames (rmdir s path).1.root_directory := by
  cases hfd : findDirectory s.root_directory (extract_directory_path path) with
  | none =>
    have e : rmdir s path = (s, .notFound) := by simp only [rmdir, hfd]
    rw [e]
    exact h
  | some q =>
    obtain ⟨idx, parent⟩ := q
    cases hff : findFirst (fun it => it.getFilename == extract_filename path)
        parent.children with
    | none =>
      have e : rmdir s path = (s, .notFound) := by simp only [rmdir, hfd, hff]
      rw [e]
      exact h
    | some q2 =>
      obtain ⟨i, it⟩ := q2
      have e : rmdir s path
          = if (it.getAttribute &&& ATTR_DIRECTORY != 0) = true then
              ({ s with root_directory := (modifyAt (fun p => p.setChildren
                (p.children.eraseIdx i)) idx s.root_directory) }, .ok)
            else (s, .wrongType) := by
        simp only [rmdir, hfd, hff]
      rw [e]
      split
      · exact UniqueNames_modifyAt (fun p => p.setChildren (p.children.eraseIdx i))
          (fun e => rfl) idx _ parent (findDirectoryLoop_nodeAt _ _ _ _ hfd) h
          (fun hd => UniqueNames_eraseIdx parent i hd)
      · exact h

theorem UniqueNames_del (s s' : FileSystem) (path input : List Nat) (st : Status)
    (h : del s path input = .ok (s', st)) (hu : UniqueNames s.root_directory) :
    UniqueNames s'.root_directory := by
  rcases del_ok_inv s s' path input st h with e | ⟨idx, parent, i, it, fat', blocks', hfd, _,
    _, _, e⟩
  · rw [e]
    exact hu
  · rw [e]
    exact UniqueNames_modifyAt (fun p => p.setChildren (p.children.eraseIdx i))
      (fun e => rfl) idx _ parent (findDirectoryLoop_nodeAt _ _ _ _ hfd) hu
      (fun hd => UniqueNames_eraseIdx parent i hd)

theorem UniqueNames_fs_chmod (s : FileSystem) (path permissions input : List Nat) (now : Int)
    (h : UniqueNames s.root_directory) :
    UniqueNames (fs_chmod s path permissions input now).1.root_directory := by
  cases hfd : findDirectory s.root_directory (extract_directory_path path) with
  | none =>
    have e : fs_chmod s path permissions input now = (s, .notFound) := by
      simp only [fs_chmod, hfd]
    rw [e]
    exact h
  | some q =>
    obtain ⟨idx, parent⟩ := q
    cases hff : findFirst (fun child => child.getFilename == extract_filename path)
        parent.children with
    | none =>
      have e : fs_chmod s path permissions input now = (s, .notFound) := by
        simp only [fs_chmod, hfd, hff]
      rw [e]
      exact h
    | some q2 =>
      obtain ⟨i, fileEntry⟩ := q2
      by_cases hpw : (!checkPassword fileEntry input) = true
      · have e : fs_chmod s path permissions input now = (s, .authenticationFailed) := by
          simp only [fs_chmod, hfd, hff, if_pos hpw]
        rw [e]
        exact h
      · cases hcp : chmod_permissions fileEntry.getPermissions permissions with
        | none =>
          have e : fs_chmod s path permissions input now = (s, .invalidArgument) := by
            simp only [fs_chmod, hfd, hff, if_neg hpw, hcp]
          rw [e]
          exact h
        | some cp =>
          have e : fs_chmod s path permissions input now
              = ({ s with root_directory := (modifyAt (fun p => p.setChildren (modifyNth
                  (fun e => (e.setPermissions cp).setModificationTime now) i p.children))
                  idx s.root_directory) }, .ok) := by
            simp only [fs_chmod, hfd, hff, if_neg hpw, hcp]
          rw [e]
          exact UniqueNames_modifyAt (fun p => p.setChildren (modifyNth (fun e =>
              (e.setPermissions cp).setModificationTime now) i p.children))
            (fun e => rfl) idx _ parent (findDirectoryLoop_nodeAt _ _ _ _ hfd) h
            (fun hd => UniqueNames_modifyNth parent i _ (fun e => rfl) (fun e => rfl) hd)

theorem UniqueNames_addpw (s s' : FileSystem) (path password input : List Nat) (now : Int)
    (st : Status) (h : addpw s path password input now = .ok (s', st))
    (hu : UniqueNames s.root_directory) : UniqueNames s'.root_directory := by
  unfold addpw at h
  cases hfd : findDirectory s.root_directory (extract_directory_path path) with
  | none =>
    simp only [hfd] at h
    injection h with h
    injection h with h1 _
    rw [← h1]
    exact hu
  | some q =>
    obtain ⟨idx, parent⟩ := q
    simp only [hfd] at h
    cases hff : findFirst (fun child => child.getFilename == extract_filename path)
        parent.children with
    | none => simp only [hff] at h; cases h
    | some q2 =>
      obtain ⟨i, fileEntry⟩ := q2
      simp only [hff] at h
      split at h
      · injection h with h
        injection h with h1 _
        rw [← h1]
        exact hu
      · injection h with h
        injection h with h1 _
        rw [← h1]
        exact UniqueNames_modifyAt (fun p => p.setChildren (modifyNth (fun e =>
            (e.setPassword password).setModificationTime now) i p.children))
          (fun e => rfl) idx _ parent (findDirectoryLoop_nodeAt _ _ _ _ hfd) hu
          (fun hd => UniqueNames_modifyNth parent i _ (fun e => rfl) (fun e => rfl) hd)

theorem UniqueNames_create (tb bs : Nat) (ct mt : Int) :
    UniqueNames (FileSystem.create tb bs ct mt).root_directory :=
  UniqueNames_of_children_nil _ rfl

theorem UniqueNames_reachable (s : FileSystem) (h : Reachable s) :
    UniqueNames s.root_directory := by
  induction h with
  | create tb bs ct mt => exact UniqueNames_create tb bs ct mt
  | mkdir s path ct mt _ ih => exact UniqueNames_mkdir s path ct mt ih
  | write s s' path lf ct mt st _ hw ih => exact UniqueNames_write s s' path lf ct mt st hw ih
  | rmdir s path _ ih => exact UniqueNames_rmdir s path ih
  | del s s' path input st _ hd ih => exact UniqueNames_del s s' path input st hd ih
  | fs_chmod s path permissions input now _ ih =>
    exact UniqueNames_fs_chmod s path permissions input now ih
  | addpw s s' path password input now st _ ha ih =>
    exact UniqueNames_addpw s s' path password input now st ha ih

/-- C15. Sibling-name uniqueness is an invariant: in every state reached from a freshly
created file system by any sequence of `mkdir`, `write`, `rmdir`, `del`, `fs_chmod` and
`addpw` calls, no node of the tree has two children with equal names. -/
theorem sibling_names_unique (s : FileSystem) (h : Reachable s) :
    UniqueNames s.root_directory
      ∧ ∀ idx d, nodeAt s.root_directory idx = some d →
          (d.children.map DirectoryEntry.getFilename).Nodup := by
  have hu := UniqueNames_reachable s h
  exact ⟨hu, fun idx d hd => ((UniqueNames_iff d).mp (UniqueNames_nodeAt idx _ d hd hu)).1⟩

/-- Witness of `sibling_names_unique`: the state after `mkdir("/a")`, `mkdir("/a")` again,
and a write of three bytes to `"/a/f"`. -/
theorem sibling_names_unique_witness :
    ∃ s st, write (mkdir (mkdir (FileSystem.create 4 4 0 0) [47, 97] 1 2).1 [47, 97] 3 4).1
        [47, 97, 47, 102] (some ⟨[1, 2, 3], none⟩) 5 6 = .ok (s, st)
      ∧ UniqueNames s.root_directory :=
  ⟨_, _, rfl, (sibling_names_unique _ (Reachable.write _ _ [47, 97, 47, 102]
    (some ⟨[1, 2, 3], none⟩) 5 6 _ (Reachable.mkdir _ [47, 97] 3 4
      (Reachable.mkdir _ [47, 97] 1 2 (Reachable.create 4 4 0 0))) rfl)).1⟩

/-! ## `write` followed by `read` -/

theorem vecGet_of_getElem? {α : Type} (v : List α) (i : Nat) (a : α) (h : v[i]? = some a) :
    vecGet v i = .ok a := by
  unfold vecGet
  rw [h]

theorem writeLoop_stop (bs : Nat) (fat : List Nat) (fuel : Nat) (blocks : List DiskBlock)
    (rem cur : Nat) (stream : List Nat) (h : ¬ (rem > 0 ∧ cur ≠ FAT_EOC)) :
    writeLoop bs fat fuel blocks rem cur stream = .ok blocks := by
  cases fuel with
  | zero => rw [writeLoop, if_neg h]
  | succ fuel => rw [writeLoop, if_neg h]

theorem readLoop_stop (bs : Nat) (fat : List Nat) (blocks : List DiskBlock) (fuel : Nat)
    (rem cur : Nat) (out : List Nat) (h : ¬ (rem > 0 ∧ cur ≠ FAT_EOC)) :
    readLoop bs fat blocks fuel rem cur out = .ok out := by
  cases fuel with
  | zero => rw [readLoop, if_neg h]
  | succ fuel => rw [readLoop, if_neg h]

/-- The copy loop of `write` along a chain of distinct blocks that is long enough for the
stream, and the copy loop of `read` along the same chain afterwards: the blocks outside the
chain are untouched, and what is read is the stream. -/
theorem writeLoop_readLoop (bs : Nat) (fat : List Nat) (hbs : 0 < bs) :
    ∀ (chain : List Nat) (fuel : Nat) (blocks : List DiskBlock) (rem : Nat)
      (stream : List Nat),
      Linked fat chain → chain.Nodup → (∀ c ∈ chain, c < blocks.length) →
      stream.length = rem → rem ≤ chain.length * bs → rem ≤ fuel →
      ∃ blocks', writeLoop bs fat fuel blocks rem (chainHead chain) stream = .ok blocks'
        ∧ blocks'.length = blocks.length
        ∧ (∀ i : Nat, i ∉ chain → blocks'[i]? = blocks[i]?)
        ∧ ∀ (fuel' : Nat) (out : List Nat), rem ≤ fuel' →
            readLoop bs fat blocks' fuel' rem (chainHead chain) out = .ok (out ++ stream) := by
  intro chain
  induction chain with
  | nil =>
    intro fuel blocks rem stream _ _ _ hs hcap _
    have hrem : rem = 0 := by
      rw [List.length_nil, Nat.zero_mul] at hcap
      omega
    subst hrem
    have hst : stream = [] := List.length_eq_zero.mp hs
    subst hst
    refine ⟨blocks, writeLoop_stop _ _ _ _ _ _ _ (fun h => absurd h.1 (Nat.lt_irrefl 0)),
      rfl, fun _ _ => rfl, ?_⟩
    intro fuel' out _
    rw [readLoop_stop _ _ _ _ _ _ _ (fun h => absurd h.1 (Nat.lt_irrefl 0)),
      List.append_nil]
  | cons c rest ih =>
    intro fuel blocks rem stream hl hnd hlt hs hcap hfuel
    obtain ⟨hc, hnext, hlrest⟩ := hl
    show ∃ blocks', writeLoop bs fat fuel blocks rem c stream = .ok blocks'
        ∧ blocks'.length = blocks.length
        ∧ (∀ i : Nat, i ∉ c :: rest → blocks'[i]? = blocks[i]?)
        ∧ ∀ (fuel' : Nat) (out : List Nat), rem ≤ fuel' →
            readLoop bs fat blocks' fuel' rem c out = .ok (out ++ stream)
    by_cases hrem : rem = 0
    · subst hrem
      have hst : stream = [] := List.length_eq_zero.mp hs
      subst hst
      refine ⟨blocks, writeLoop_stop _ _ _ _ _ _ _ (fun h => absurd h.1 (Nat.lt_irrefl 0)),
        rfl, fun _ _ => rfl, ?_⟩
      intro fuel' out _
      rw [readLoop_stop _ _ _ _ _ _ _ (fun h => absurd h.1 (Nat.lt_irrefl 0)),
        List.append_nil]
    · have hpos : rem > 0 := Nat.pos_of_ne_zero hrem
      cases fuel with
      | zero => omega
      | succ f =>
        have hcl : c < blocks.length := hlt c (List.mem_cons_self _ _)
        have hb : blocks[c]? = some blocks[c] := List.getElem?_eq_getElem hcl
        have hcr : c ∉ rest := (List.nodup_cons.mp hnd).1
        have hbytes : (stream.take (min rem bs)).length = min rem bs := by
          rw [List.length_take, hs]
          omega
        have hcap' : rem - min rem bs ≤ rest.length * bs := by
          rw [List.length_cons, Nat.add_mul, Nat.one_mul] at hcap
          rcases Nat.le_total rem bs with h | h
          · rw [Nat.min_eq_left h]
            omega
          · rw [Nat.min_eq_right h]
            omega
        have hmin : 0 < min rem bs := by
          rcases Nat.le_total rem bs with h | h
          · rw [Nat.min_eq_left h]; exact hpos
          · rw [Nat.min_eq_right h]; exact hbs
        obtain ⟨blocks', hw, hlen, hframe, hrd⟩ := ih f
          (blocks.set c ⟨blocks[c].block_number, stream.take (min rem bs)
            ++ blocks[c].data.drop (stream.take (min rem bs)).length⟩)
          (rem - min rem bs) (stream.drop (min rem bs)) hlrest (List.nodup_cons.mp hnd).2
          (fun x hx => by
            rw [List.length_set]
            exact hlt x (List.mem_cons_of_mem _ hx))
          (by rw [List.length_drop, hs]) hcap' (by omega)
        refine ⟨blocks', ?_, by rw [hlen, List.length_set], ?_, ?_⟩
        · rw [writeLoop, if_pos ⟨hpos, hc⟩, vecGet_of_getElem? _ _ _ hb]
          simp only
          rw [vecGet_of_getElem? _ _ _ hnext]
          exact hw
        · intro i hi
          rw [List.mem_cons, not_or] at hi
          rw [hframe i hi.2, List.getElem?_set_ne (Ne.symm hi.1)]
        · intro fuel' out hf
          cases fuel' with
          | zero => omega
          | succ f' =>
            have hb' : blocks'[c]? = some ⟨blocks[c].block_number, stream.take (min rem bs)
                ++ blocks[c].data.drop (stream.take (min rem bs)).length⟩ := by
              rw [hframe c hcr, List.getElem?_set_self hcl]
            rw [readLoop, if_pos ⟨hpos, hc⟩, vecGet_of_getElem? _ _ _ hb']
            simp only
            rw [vecGet_of_getElem? _ _ _ hnext]
            dsimp only
            rw [hrd f' _ (by omega), List.take_left' hbytes, List.append_assoc,
              List.take_append_drop]
theorem allocateBlocksForFile_entry_cases (bs : Nat) (fat : List Nat) (entry : DirectoryEntry)
    (n : Nat) (r : AllocResult) (h : allocateBlocksForFile bs fat entry n = .ok r) :
    r.entry = entry ∨ ∃ c, r.entry = entry.setStartBlock c := by
  unfold allocateBlocksForFile at h
  split at h
  · cases h
  · simp only at h
    split at h
    · cases h
    · split at h
      · injection h with h
        rw [← h]
        exact Or.inl rfl
      · exact Or.inr ⟨_, allocateLoop_entry _ _ _ _ _ h⟩

theorem new_file_fields (path : List Nat) (host : HostFile) (ct mt : Int) :
    (new_file_entry path host ct mt).getSize = host.data.length % 2 ^ 32
      ∧ (new_file_entry path host ct mt).getPassword = []
      ∧ (new_file_entry path host ct mt).getAttribute = 0
      ∧ (new_file_entry path host ct mt).getFilename = extract_filename path
      ∧ ((∀ st, host.stat = some st → st.irusr = true) →
          (new_file_entry path host ct mt).getPermissions.read = true) := by
  unfold new_file_entry set_file_metadata setPermissionsFromLinuxFile
  cases hst : host.stat with
  | none => exact ⟨rfl, rfl, rfl, rfl, fun _ => rfl⟩
  | some st => exact ⟨rfl, rfl, rfl, rfl, fun hr => hr st rfl⟩

/-- The fields of the entry that `write` appends, whatever `allocateBlocksForFile` did. -/
theorem written_entry_fields (bs : Nat) (fat : List Nat) (path : List Nat) (host : HostFile)
    (ct mt : Int) (n : Nat) (r : AllocResult)
    (h : allocateBlocksForFile bs fat (new_file_entry path host ct mt) n = .ok r) :
    r.entry.getSize = host.data.length % 2 ^ 32
      ∧ r.entry.getPassword = []
      ∧ is_directory r.entry = false
      ∧ r.entry.getFilename = extract_filename path
      ∧ ((∀ st, host.stat = some st → st.irusr = true) →
          r.entry.getPermissions.read = true) := by
  obtain ⟨h1, h2, h3, h4, h5⟩ := new_file_fields path host ct mt
  have key : r.entry.getSize = (new_file_entry path host ct mt).getSize
      ∧ r.entry.getPassword = (new_file_entry path host ct mt).getPassword
      ∧ r.entry.getAttribute = (new_file_entry path host ct mt).getAttribute
      ∧ r.entry.getFilename = (new_file_entry path host ct mt).getFilename
      ∧ r.entry.getPermissions = (new_file_entry path host ct mt).getPermissions := by
    rcases allocateBlocksForFile_entry_cases _ _ _ _ _ h with e | ⟨c, e⟩
    · rw [e]
      exact ⟨rfl, rfl, rfl, rfl, rfl⟩
    · rw [e]
      exact ⟨rfl, rfl, rfl, rfl, rfl⟩
  obtain ⟨k1, k2, k3, k4, k5⟩ := key
  refine ⟨k1.trans h1, k2.trans h2, ?_, k4.trans h4, fun hr => ?_⟩
  · unfold is_directory
    rw [k3, h3]
    decide
  · rw [k5]
    exact h5 hr

theorem write_eq (fs : FileSystem) (path : List Nat) (host : HostFile) (ct mt : Int)
    (idx : List Nat) (parent : DirectoryEntry) (r : AllocResult) (blocks' : List DiskBlock)
    (hp : findDirectory fs.root_directory (extract_directory_path path) = some (idx, parent))
    (hnew : parent.children.any (fun child => child.getFilename == extract_filename path)
      = false)
    (hal : allocateBlocksForFile fs.superblock.block_size fs.fat
      (new_file_entry path host ct mt) (new_file_entry path host ct mt).getSize = .ok r)
    (hwl : writeLoop fs.superblock.block_size r.fat r.entry.getSize fs.blocks
      r.entry.getSize r.entry.getStartBlock host.data = .ok blocks') :
    write fs path (some host) ct mt
      = .ok ({ fs with
                fat := r.fat, blocks := blocks',
                root_directory := modifyAt (fun p => calculateDirectorySize
                  (p.setChildren (p.children ++ [r.entry]))) idx fs.root_directory },
             if r.insufficient then .insufficientSpace else .ok) := by
  unfold write
  simp only [hp, hnew]
  simp only [new_file_entry] at hal
  simp only [Bool.false_eq_true, if_false]
  rw [hal]
  simp only
  rw [hwl]

theorem read_eq (fs : FileSystem) (path input : List Nat) (idx : List Nat)
    (parent : DirectoryEntry) (i : Nat) (entry : DirectoryEntry) (out : List Nat)
    (hp : findDirectory fs.root_directory (extract_directory_path path) = some (idx, parent))
    (hff : findFirst (fun child => child.getFilename == extract_filename path
      && !(is_directory child)) parent.children = some (i, entry))
    (hpw : checkPassword entry input = true) (hperm : entry.getPermissions.read = true)
    (hrl : readLoop fs.superblock.block_size fs.fat fs.blocks
      (entry.getSize + fs.fat.length + 1) entry.getSize entry.getStartBlock [] = .ok out) :
    read fs path input true = .ok (.ok, some out) := by
  unfold read
  simp only [hp, hff, hpw, hperm, hrl]
  rfl

theorem le_ceilDiv_mul (n bs : Nat) (hbs : 0 < bs) : n ≤ (n ⌈/⌉ bs) * bs := by
  rw [Nat.ceilDiv_eq_add_pred_div]
  have h1 := Nat.div_add_mod (n + bs - 1) bs
  have h2 := Nat.mod_lt (n + bs - 1) hbs
  rw [Nat.mul_comm]
  generalize bs * ((n + bs - 1) / bs) = t at h1
  omega
/-- C18. On a state whose parent directory of the path resolves and has no child with the
target name, with a block size `> 0`, a FAT of at most `0xFFFD` entries with a block for
each entry, a byte string `b` with `b.length + block_size ≤ 2^32` (no `uint32_t` overflow)
and at least `ceil (b.length / block_size)` free FAT entries from index 1 on: `write` of
`b` returns, and `read` of the same path on the state it leaves (owner read bit of the host
file set, the entry has no password, the host file can be opened) returns exactly `b`. -/
theorem write_then_read (fs : FileSystem) (path input : List Nat) (host : HostFile)
    (ct mt : Int) (idx : List Nat) (parent : DirectoryEntry)
    (hp : findDirectory fs.root_directory (extract_directory_path path) = some (idx, parent))
    (hnew : ∀ c ∈ parent.children, c.getFilename ≠ extract_filename path)
    (hbs : 0 < fs.superblock.block_size)
    (hfat : fs.fat.length ≤ 0xFFFD)
    (hblocks : fs.blocks.length = fs.fat.length)
    (hsize : host.data.length + fs.superblock.block_size ≤ 2 ^ 32)
    (henough : host.data.length ⌈/⌉ fs.superblock.block_size ≤ (freeIndices fs.fat).length)
    (hread : ∀ st, host.stat = some st → st.irusr = true) :
    ∃ s' st, write fs path (some host) ct mt = .ok (s', st)
      ∧ read s' path input true = .ok (.ok, some host.data) := by
  have hn32 : host.data.length < 2 ^ 32 := by omega
  obtain ⟨r, hal, hrlen, hins, _, hsucc⟩ := allocateBlocksForFile_spec
    fs.superblock.block_size (new_file_entry path host ct mt).getSize fs.fat
    (new_file_entry path host ct mt) hbs (le_trans hfat (by decide))
  obtain ⟨f1, f2, f3, f4, f5⟩ := written_entry_fields _ _ _ _ _ _ _ _ hal
  have hsz : r.entry.getSize = host.data.length := f1.trans (Nat.mod_eq_of_lt hn32)
  have hnsz : (new_file_entry path host ct mt).getSize = host.data.length :=
    (new_file_fields path host ct mt).1.trans (Nat.mod_eq_of_lt hn32)
  have hany : parent.children.any (fun child => child.getFilename == extract_filename path)
      = false := by
    rw [List.any_eq_false]
    intro c hc
    simpa using hnew c hc
  have key : ∃ blocks', writeLoop fs.superblock.block_size r.fat host.data.length fs.blocks
        host.data.length r.entry.getStartBlock host.data = .ok blocks'
      ∧ readLoop fs.superblock.block_size r.fat blocks' (host.data.length + r.fat.length + 1)
          host.data.length r.entry.getStartBlock [] = .ok host.data := by
    by_cases h0 : host.data.length = 0
    · have hd : host.data = [] := List.length_eq_zero.mp h0
      refine ⟨fs.blocks, ?_, ?_⟩
      · rw [h0]
        exact writeLoop_stop _ _ _ _ _ _ _ (fun h => absurd h.1 (Nat.lt_irrefl 0))
      · rw [h0, readLoop_stop _ _ _ _ _ _ _ (fun h => absurd h.1 (Nat.lt_irrefl 0)), hd]
    · have hcap := le_ceilDiv_mul host.data.length fs.superblock.block_size hbs
      have hk1 : host.data.length ⌈/⌉ fs.superblock.block_size ≠ 0 := by
        intro hz
        rw [hz, Nat.zero_mul] at hcap
        omega
      have hk : num_blocks_needed fs.superblock.block_size
          (new_file_entry path host ct mt).getSize - 1 + 1
          = host.data.length ⌈/⌉ fs.superblock.block_size := by
        rw [hnsz, num_blocks_needed_eq _ _ hbs hsize]
        omega
      rw [hk] at hins hsucc
      have hri : r.insufficient = false := by
        cases hb : r.insufficient with
        | false => rfl
        | true => exact absurd (hins.mp hb) (by omega)
      obtain ⟨_, hstart, hlinked, _, _⟩ := hsucc hri
      have hlen : ((freeIndices fs.fat).take
          (host.data.length ⌈/⌉ fs.superblock.block_size)).length
          = host.data.length ⌈/⌉ fs.superblock.block_size := by
        rw [List.length_take]
        omega
      obtain ⟨blocks', hw, _, _, hrd⟩ := writeLoop_readLoop fs.superblock.block_size r.fat hbs
        ((freeIndices fs.fat).take (host.data.length ⌈/⌉ fs.superblock.block_size))
        host.data.length fs.blocks host.data.length host.data (hlinked hfat)
        ((freeFrom_nodup fs.fat 1).sublist (List.take_sublist _ _))
        (fun c hc => by
          rw [hblocks]
          exact (mem_take_freeIndices _ _ _ hc).2.1)
        rfl (by rw [hlen]; exact hcap) (Nat.le_refl _)
      rw [← hstart] at hw hrd
      exact ⟨blocks', hw, by
        rw [hrd _ [] (by omega)]
        rfl⟩
  obtain ⟨blocks', hwl, hrl⟩ := key
  refine ⟨_, _, write_eq fs path host ct mt idx parent r blocks' hp hany hal
    (by rw [hsz]; exact hwl), ?_⟩
  refine read_eq _ path input idx (calculateDirectorySize
    (parent.setChildren (parent.children ++ [r.entry]))) parent.children.length r.entry
    host.data ?_ ?_ ?_ (f5 hread) ?_
  · exact findDirectoryLoop_modifyAt (fun p => calculateDirectorySize
      (p.setChildren (p.children ++ [r.entry]))) (fun e => rfl) (fun e => rfl) _ _ _ _ hp
  · show findFirst (fun child => child.getFilename == extract_filename path
      && !(is_directory child)) (parent.children ++ [r.entry]) = _
    refine findFirst_append _ parent.children r.entry [] (fun x hx => ?_) ?_
    · show (x.getFilename == extract_filename path && !(is_directory x)) = false
      rw [beq_false_of_ne (hnew x hx), Bool.false_and]
    · show (r.entry.getFilename == extract_filename path && !(is_directory r.entry)) = true
      rw [f4, f3, beq_self_eq_true]
      rfl
  · unfold checkPassword
    rw [if_pos f2]
  · show readLoop fs.superblock.block_size r.fat blocks' (r.entry.getSize + r.fat.length + 1)
      r.entry.getSize r.entry.getStartBlock [] = .ok host.data
    rw [hsz]
    exact hrl

/-- Witness of `write_then_read`: five bytes written to `"/f"` on a fresh file system of
four blocks of four bytes, and read back. -/
theorem write_then_read_witness :
    ∃ s' st, write (FileSystem.create 4 4 0 0) [47, 102] (some ⟨[1, 2, 3, 4, 5], none⟩) 1 2
        = .ok (s', st)
      ∧ read s' [47, 102] [] true = .ok (.ok, some [1, 2, 3, 4, 5]) :=
  write_then_read (FileSystem.create 4 4 0 0) [47, 102] [] ⟨[1, 2, 3, 4, 5], none⟩ 1 2 []
    (FileSystem.create 4 4 0 0).root_directory (by rfl)
    (fun c hc => absurd hc (List.not_mem_nil c)) (by decide) (by decide) (by decide)
    (by decide) (by decide) (fun st h => Option.noConfusion h)

/-! ## `write` followed by `del` -/

theorem write_success_shape (s s' : FileSystem) (path : List Nat) (lf : Option HostFile)
    (ct mt : Int) (h : write s path lf ct mt = .ok (s', .ok)) :
    ∃ idx parent host r blocks',
      findDirectory s.root_directory (extract_directory_path path) = some (idx, parent)
      ∧ parent.children.any (fun child => child.getFilename == extract_filename path) = false
      ∧ lf = some host
      ∧ allocateBlocksForFile s.superblock.block_size s.fat (new_file_entry path host ct mt)
          (new_file_entry path host ct mt).getSize = .ok r
      ∧ r.insufficient = false
      ∧ blocks'.length = s.blocks.length
      ∧ s' = { s with
                fat := r.fat, blocks := blocks',
                root_directory := modifyAt (fun p => calculateDirectorySize
                  (p.setChildren (p.children ++ [r.entry]))) idx s.root_directory } := by
  unfold write at h
  cases hfd : findDirectory s.root_directory (extract_directory_path path) with
  | none =>
    simp only [hfd] at h
    injection h with h
    injection h with _ h2
    cases h2
  | some q =>
    obtain ⟨idx, parent⟩ := q
    simp only [hfd] at h
    split at h
    · injection h with h
      injection h with _ h2
      cases h2
    · rename_i hex
      cases lf with
      | none =>
        injection h with h
        injection h with _ h2
        cases h2
      | some host =>
        simp only at h
        cases hal : allocateBlocksForFile s.superblock.block_size s.fat
            (new_file_entry path host ct mt) (new_file_entry path host ct mt).getSize with
        | error e =>
          simp only [new_file_entry] at hal
          rw [hal] at h
          cases h
        | ok r =>
          have hal' := hal
          simp only [new_file_entry] at hal
          rw [hal] at h
          simp only at h
          cases hwl : writeLoop s.superblock.block_size r.fat r.entry.getSize s.blocks
              r.entry.getSize r.entry.getStartBlock host.data with
          | error e => rw [hwl] at h; cases h
          | ok blocks' =>
            rw [hwl] at h
            simp only at h
            injection h with h
            injection h with h1 h2
            have hri : r.insufficient = false := by
              cases hb : r.insufficient with
              | false => rfl
              | true =>
                rw [hb] at h2
                cases h2
            exact ⟨idx, parent, host, r, blocks', rfl, (Bool.not_eq_true _).mp hex, rfl, hal',
              hri, writeLoop_length _ _ _ _ _ _ _ _ hwl, h1.symm⟩

theorem del_eq (fs : FileSystem) (path input : List Nat) (idx : List Nat)
    (parent : DirectoryEntry) (i : Nat) (it : DirectoryEntry) (fat' : List Nat)
    (blocks' : List DiskBlock)
    (hp : findDirectory fs.root_directory (extract_directory_path path) = some (idx, parent))
    (hff : findFirst (fun it => it.getFilename == extract_filename path) parent.children
      = some (i, it))
    (hfile : is_directory it = false) (hpw : checkPassword it input = true)
    (hde : deallocateBlocksForFile fs.fat fs.blocks it = .ok (fat', blocks')) :
    del fs path input
      = .ok ({ fs with
                fat := fat', blocks := blocks',
                root_directory := modifyAt (fun p => p.setChildren (p.children.eraseIdx i))
                  idx fs.root_directory }, .ok) := by
  have hattr : (it.getAttribute &&& ATTR_DIRECTORY != 0) = false := hfile
  unfold del
  simp only [hp, hff, hattr, hpw, hde]
  rfl

/-- C19. On a state with a FAT of at most `0xFFFD` entries and a block for each entry, a
`write` that reports success followed by `del` of the same path: `del` succeeds, the FAT is
the FAT before the write, every block of the chain the file occupied is `FAT_FREE` and
zero-filled, the other blocks are as the write left them, and the children of the parent
directory are again those before the write, none with the name of the file. -/
theorem write_then_del (fs s' : FileSystem) (path input : List Nat)
    (linux_file : Option HostFile) (ct mt : Int)
    (hfat : fs.fat.length ≤ 0xFFFD) (hblocks : fs.blocks.length = fs.fat.length)
    (hw : write fs path linux_file ct mt = .ok (s', .ok)) :
    ∃ s'' idx parent entry chain,
      del s' path input = .ok (s'', .ok)
      ∧ findDirectory fs.root_directory (extract_directory_path path) = some (idx, parent)
      ∧ nodeAt s'.root_directory idx
          = some (calculateDirectorySize (parent.setChildren (parent.children ++ [entry])))
      ∧ entry.getFilename = extract_filename path
      ∧ IsChain s'.fat entry.getStartBlock chain ∧ chain ≠ []
      ∧ s''.fat = fs.fat
      ∧ (∀ b ∈ chain, s''.fat[b]? = some FAT_FREE ∧ b < s'.blocks.length)
      ∧ (∀ i : Nat, s''.blocks[i]?
          = if i ∈ chain then (s'.blocks[i]?).map DiskBlock.zeroed else s'.blocks[i]?)
      ∧ ∃ parent'', nodeAt s''.root_directory idx = some parent''
          ∧ parent''.children = parent.children
          ∧ ∀ c ∈ parent''.children, c.getFilename ≠ extract_filename path := by
  obtain ⟨idx, parent, host, r, blocks', hp, hany, _, hal, hri, hbl, hs'⟩ :=
    write_success_shape fs s' path linux_file ct mt hw
  subst hs'
  have hbs : 0 < fs.superblock.block_size := by
    rcases Nat.eq_zero_or_pos fs.superblock.block_size with h0 | h0
    · unfold allocateBlocksForFile at hal
      rw [if_pos h0] at hal
      cases hal
    · exact h0
  obtain ⟨r2, hal2, hrlen, hins, _, hsucc⟩ := allocateBlocksForFile_spec
    fs.superblock.block_size (new_file_entry path host ct mt).getSize fs.fat
    (new_file_entry path host ct mt) hbs (le_trans hfat (by decide))
  have hr2 : r2 = r := by
    rw [hal] at hal2
    injection hal2 with e
    exact e.symm
  subst hr2
  obtain ⟨_, hstart, hlinked, hframe, _⟩ := hsucc hri
  obtain ⟨_, f2, f3, f4, _⟩ := written_entry_fields _ _ _ _ _ _ _ _ hal
  generalize hK : num_blocks_needed fs.superblock.block_size
    (new_file_entry path host ct mt).getSize - 1 + 1 = K at hins hstart hlinked hframe
  have hKle : K ≤ (freeIndices fs.fat).length := by
    rcases Nat.lt_or_ge (freeIndices fs.fat).length K with h | h
    · have := hins.mpr h
      rw [hri] at this
      exact Bool.noConfusion this
    · exact h
  have hKpos : 0 < K := by omega
  have hclen : ((freeIndices fs.fat).take K).length = K := by
    rw [List.length_take]
    omega
  have hne : (freeIndices fs.fat).take K ≠ [] := by
    intro h
    rw [h] at hclen
    exact absurd hclen.symm (Nat.ne_of_gt hKpos)
  have hnd : ((freeIndices fs.fat).take K).Nodup :=
    (freeFrom_nodup fs.fat 1).sublist (List.take_sublist _ _)
  have hbounds : ∀ b ∈ (freeIndices fs.fat).take K,
      1 ≤ b ∧ b < r2.fat.length ∧ b < blocks'.length := by
    intro b hb
    obtain ⟨h1, h2, _⟩ := mem_take_freeIndices _ _ _ hb
    refine ⟨h1, by rw [hrlen]; exact h2, by rw [hbl, hblocks]; exact h2⟩
  have hcl : ((freeIndices fs.fat).take K).length ≤ r2.fat.length :=
    length_le_of_nodup_lt _ _ hnd (fun b hb => (hbounds b hb).2.1)
  obtain ⟨fat'', blocks'', hde, hfl, _, hfc, hbc, _⟩ := deallocateLoop_chain
    ((freeIndices fs.fat).take K) (r2.fat.length + 2) r2.fat blocks' r2.entry.getStartBlock
    (hlinked hfat) hstart hnd hbounds (by omega)
  have hfat'' : fat'' = fs.fat := by
    apply List.ext_getElem?
    intro i
    rw [hfc i]
    by_cases hi : i ∈ (freeIndices fs.fat).take K
    · rw [if_pos hi, (mem_take_freeIndices _ _ _ hi).2.2]
    · rw [if_neg hi, hframe i hi]
  have hnode : nodeAt fs.root_directory idx = some parent :=
    findDirectoryLoop_nodeAt _ _ _ _ hp
  have hnode' : nodeAt (modifyAt (fun p => calculateDirectorySize
      (p.setChildren (p.children ++ [r2.entry]))) idx fs.root_directory) idx
      = some (calculateDirectorySize (parent.setChildren (parent.children ++ [r2.entry]))) :=
    nodeAt_modifyAt _ idx fs.root_directory parent hnode
  have hnames : ∀ c ∈ parent.children, c.getFilename ≠ extract_filename path := by
    intro c hc hcn
    have := (List.any_eq_false.mp hany) c hc
    rw [hcn, beq_self_eq_true] at this
    exact this rfl
  have hdel := del_eq { fs with
      fat := r2.fat, blocks := blocks',
      root_directory := modifyAt (fun p => calculateDirectorySize
        (p.setChildren (p.children ++ [r2.entry]))) idx fs.root_directory }
    path input idx
    (calculateDirectorySize (parent.setChildren (parent.children ++ [r2.entry])))
    parent.children.length r2.entry fat'' blocks''
    (findDirectoryLoop_modifyAt (fun p => calculateDirectorySize
      (p.setChildren (p.children ++ [r2.entry]))) (fun e => rfl) (fun e => rfl) _ _ _ _ hp)
    (by
      show findFirst (fun it => it.getFilename == extract_filename path)
        (parent.children ++ [r2.entry]) = _
      refine findFirst_append _ parent.children r2.entry [] (fun x hx => ?_) ?_
      · exact beq_false_of_ne (hnames x hx)
      · show (r2.entry.getFilename == extract_filename path) = true
        rw [f4, beq_self_eq_true])
    f3
    (by unfold checkPassword; rw [if_pos f2])
    hde
  refine ⟨_, idx, parent, r2.entry, (freeIndices fs.fat).take K, hdel, hp, hnode', f4,
    ⟨hstart, hlinked hfat⟩, hne, hfat'', ?_, hbc, ?_⟩
  · intro b hb
    refine ⟨?_, (hbounds b hb).2.2⟩
    show fat''[b]? = some FAT_FREE
    rw [hfc b, if_pos hb]
  · refine ⟨_, nodeAt_modifyAt (fun p => p.setChildren
      (p.children.eraseIdx parent.children.length)) idx _ _ hnode', ?_, ?_⟩
    · show (parent.children ++ [r2.entry]).eraseIdx parent.children.length = parent.children
      rw [eraseIdx_append_cons, List.append_nil]
    · show ∀ c ∈ (parent.children ++ [r2.entry]).eraseIdx parent.children.length,
        c.getFilename ≠ extract_filename path
      rw [eraseIdx_append_cons, List.append_nil]
      exact hnames

/-- Witness of `write_then_del`: five bytes written to `"/f"` on a fresh file system of four
blocks of four bytes, then deleted. -/
theorem write_then_del_witness :
    ∃ s' s'', write (FileSystem.create 4 4 0 0) [47, 102] (some ⟨[1, 2, 3, 4, 5], none⟩) 1 2
        = .ok (s', .ok)
      ∧ del s' [47, 102] [] = .ok (s'', .ok)
      ∧ s''.fat = (FileSystem.create 4 4 0 0).fat := by
  have hw : ∃ s', write (FileSystem.create 4 4 0 0) [47, 102]
      (some ⟨[1, 2, 3, 4, 5], none⟩) 1 2 = .ok (s', .ok) := ⟨_, rfl⟩
  obtain ⟨s', hw⟩ := hw
  obtain ⟨s'', _, _, _, _, hd, _, _, _, _, _, hf, _⟩ := write_then_del
    (FileSystem.create 4 4 0 0) s' [47, 102] [] (some ⟨[1, 2, 3, 4, 5], none⟩) 1 2
    (by decide) (by decide) hw
  exact ⟨s', s'', hw, hd, hf⟩

/-! ## `addpw` on a missing entry -/

/-- C24 (code defect). When the parent directory resolves and no child of it has the name of
the last component, `addpw` calls `checkPassword(*fileEntry)` with `fileEntry == nullptr`:
the run dereferences a null pointer before it reaches the test that would report the file
as not found. -/
theorem addpw_missing_entry_faults (fs : FileSystem) (path password input : List Nat)
    (now : Int) (idx : List Nat) (parent : DirectoryEntry)
    (hp : findDirectory fs.root_directory (extract_directory_path path) = some (idx, parent))
    (hno : ∀ c ∈ parent.children, c.getFilename ≠ extract_filename path) :
    addpw fs path password input now = .error .nullDeref := by
  have hff : findFirst (fun child => child.getFilename == extract_filename path)
      parent.children = none :=
    findFirst_none _ _ (fun a ha => beq_false_of_ne (hno a ha))
  unfold addpw
  simp only [hp, hff]

/-- Witness of `addpw_missing_entry_faults`: `addpw("/x", "pw")` on a fresh file system. -/
theorem addpw_missing_entry_faults_witness :
    addpw (FileSystem.create 4 4 0 0) [47, 120] [112, 119] [] 0 = .error .nullDeref :=
  addpw_missing_entry_faults (FileSystem.create 4 4 0 0) [47, 120] [112, 119] [] 0 []
    (FileSystem.create 4 4 0 0).root_directory (by rfl)
    (fun c hc => absurd hc (List.not_mem_nil c))

/-! ## The read permission and the password gate -/

/-- C22, counterexample. The file `f` has its read bit cleared and the password `"x"`; `read`
with the input `"y"` reports the wrong password, not the missing permission. -/
theorem read_denied_counterexample :
    read { superblock := ⟨4, 16, 24, 4⟩, fat := [FAT_FREE, FAT_EOC, FAT_FREE, FAT_FREE],
           blocks := [⟨0, [0, 0, 0, 0]⟩, ⟨1, [1, 2, 3, 4]⟩, ⟨2, [0, 0, 0, 0]⟩,
             ⟨3, [0, 0, 0, 0]⟩],
           root_directory := .mk ⟨[47], 4, ⟨true, true⟩, 0, 0, [], 24, 16⟩
             [.mk ⟨[102], 4, ⟨false, true⟩, 0, 0, [120], 1, 0⟩ []] } [47, 102] [121] true
      = .ok (.authenticationFailed, none)
    ∧ read { superblock := ⟨4, 16, 24, 4⟩, fat := [FAT_FREE, FAT_EOC, FAT_FREE, FAT_FREE],
             blocks := [⟨0, [0, 0, 0, 0]⟩, ⟨1, [1, 2, 3, 4]⟩, ⟨2, [0, 0, 0, 0]⟩,
               ⟨3, [0, 0, 0, 0]⟩],
             root_directory := .mk ⟨[47], 4, ⟨true, true⟩, 0, 0, [], 24, 16⟩
               [.mk ⟨[102], 4, ⟨false, true⟩, 0, 0, [120], 1, 0⟩ []] } [47, 102] [121] true
        ≠ .ok (.permissionDenied, none) := by
  constructor
  · rfl
  · intro h
    have h2 : (Except.ok (Status.authenticationFailed, none) :
        Except Fault (Status × Option (List Nat))) = .ok (.permissionDenied, none) := h
    injection h2 with h2
    injection h2 with h3 _
    cases h3

/-- C22, amended. For a file whose read bit is false, `read` fails and writes no byte: it
reports the missing permission when the stored password is empty or equals the input, and
the wrong password when a stored password differs from the input (the password is checked
first). -/
theorem read_without_permission (fs : FileSystem) (path input : List Nat) (can_open : Bool)
    (idx : List Nat) (parent : DirectoryEntry) (i : Nat) (entry : DirectoryEntry)
    (hp : findDirectory fs.root_directory (extract_directory_path path) = some (idx, parent))
    (hff : findFirst (fun child => child.getFilename == extract_filename path
      && !(is_directory child)) parent.children = some (i, entry))
    (hperm : entry.getPermissions.read = false) :
    ((entry.getPassword = [] ∨ entry.getPassword = input) →
        read fs path input can_open = .ok (.permissionDenied, none))
      ∧ (entry.getPassword ≠ [] ∧ entry.getPassword ≠ input →
          read fs path input can_open = .ok (.authenticationFailed, none)) := by
  constructor
  · intro h
    have hpw : checkPassword entry input = true := by
      unfold checkPassword
      rcases h with h | h
      · rw [if_pos h]
      · by_cases h0 : entry.getPassword = []
        · rw [if_pos h0]
        · rw [if_neg h0, h, beq_self_eq_true]
    unfold read
    simp only [hp, hff, hpw, hperm]
    rfl
  · intro h
    have hpw : checkPassword entry input = false := by
      unfold checkPassword
      rw [if_neg h.1]
      exact beq_false_of_ne h.2
    unfold read
    simp only [hp, hff, hpw]
    rfl

/-- Witness of `read_without_permission`: the file `f` without read bit and without
password. -/
theorem read_without_permission_witness :
    read { superblock := ⟨4, 16, 24, 4⟩, fat := [FAT_FREE, FAT_EOC, FAT_FREE, FAT_FREE],
           blocks := [⟨0, [0, 0, 0, 0]⟩, ⟨1, [1, 2, 3, 4]⟩, ⟨2, [0, 0, 0, 0]⟩,
             ⟨3, [0, 0, 0, 0]⟩],
           root_directory := .mk ⟨[47], 4, ⟨true, true⟩, 0, 0, [], 24, 16⟩
             [.mk ⟨[102], 4, ⟨false, true⟩, 0, 0, [], 1, 0⟩ []] } [47, 102] [121] true
      = .ok (.permissionDenied, none) :=
  (read_without_permission _ [47, 102] [121] true []
    (.mk ⟨[47], 4, ⟨true, true⟩, 0, 0, [], 24, 16⟩
      [.mk ⟨[102], 4, ⟨false, true⟩, 0, 0, [], 1, 0⟩ []])
    0 (.mk ⟨[102], 4, ⟨false, true⟩, 0, 0, [], 1, 0⟩ []) (by rfl) (by rfl) (by rfl)).1
    (Or.inl rfl)

theorem checkPassword_eq_true (entry : DirectoryEntry) (input : List Nat) :
    checkPassword entry input = true ↔ (entry.getPassword = [] ∨ entry.getPassword = input) := by
  unfold checkPassword
  by_cases h0 : entry.getPassword = []
  · rw [if_pos h0]
    exact ⟨fun _ => Or.inl h0, fun _ => rfl⟩
  · rw [if_neg h0]
    constructor
    · intro h
      exact Or.inr (eq_of_beq h)
    · rintro (h | h)
      · exact absurd h h0
      · rw [h, beq_self_eq_true]

theorem checkPassword_eq_false (entry : DirectoryEntry) (input : List Nat) :
    checkPassword entry input = false
      ↔ (entry.getPassword ≠ [] ∧ entry.getPassword ≠ input) := by
  rw [← Bool.not_eq_true, checkPassword_eq_true, not_or]

/-- The first child with a name is also the first file with that name when it is a file. -/
theorem findFirst_file (name : List Nat) (cs : List DirectoryEntry) (i : Nat)
    (it : DirectoryEntry)
    (hff : findFirst (fun c => c.getFilename == name) cs = some (i, it))
    (hfile : is_directory it = false) :
    findFirst (fun child => child.getFilename == name && !(is_directory child)) cs
      = some (i, it) := by
  obtain ⟨L, R, hl, hL, hp, hpre⟩ := findFirst_prefix _ _ _ _ hff
  rw [hl, ← hL]
  refine findFirst_append _ L it R (fun x hx => ?_) ?_
  · show (x.getFilename == name && !(is_directory x)) = false
    have := hpre x hx
    simp only at this
    rw [this, Bool.false_and]
  · show (it.getFilename == name && !(is_directory it)) = true
    have : (it.getFilename == name) = true := hp
    rw [this, hfile]
    rfl

/-- C23. The password gate of `del`, `read`, `fs_chmod` and `addpw` on an existing file (the
first child of the resolved parent with the name of the last component, which has no
directory attribute). When the stored password is not empty and differs from the input,
each of the four reports the wrong password and returns the state as it was, `read` without
output. When the stored password is empty or equals the input, each goes on: `del` to the
deallocation and the removal of the entry, `read` to the permission test and the copy loop,
`fs_chmod` to the permission string, `addpw` to the assignment of the password. -/
theorem password_gate (fs : FileSystem) (path input permissions password : List Nat)
    (now : Int) (can_open : Bool) (idx : List Nat) (parent : DirectoryEntry) (i : Nat)
    (it : DirectoryEntry)
    (hp : findDirectory fs.root_directory (extract_directory_path path) = some (idx, parent))
    (hff : findFirst (fun c => c.getFilename == extract_filename path) parent.children
      = some (i, it))
    (hfile : is_directory it = false) :
    (it.getPassword ≠ [] ∧ it.getPassword ≠ input →
        del fs path input = .ok (fs, .authenticationFailed)
        ∧ read fs path input can_open = .ok (.authenticationFailed, none)
        ∧ fs_chmod fs path permissions input now = (fs, .authenticationFailed)
        ∧ addpw fs path password input now = .ok (fs, .authenticationFailed))
      ∧ (it.getPassword = [] ∨ it.getPassword = input →
        del fs path input
          = (match deallocateBlocksForFile fs.fat fs.blocks it with
            | .error e => .error e
            | .ok (fat, blocks) =>
              .ok ({ fs with
                      fat := fat, blocks := blocks,
                      root_directory := modifyAt (fun p => p.setChildren
                        (p.children.eraseIdx i)) idx fs.root_directory }, .ok))
        ∧ read fs path input can_open
          = (if !it.getPermissions.read then .ok (.permissionDenied, none)
            else if !can_open then .ok (.hostError, none)
            else
              match readLoop fs.superblock.block_size fs.fat fs.blocks
                  (it.getSize + fs.fat.length + 1) it.getSize it.getStartBlock [] with
              | .error e => .error e
              | .ok out => .ok (.ok, some out))
        ∧ fs_chmod fs path permissions input now
          = (match chmod_permissions it.getPermissions permissions with
            | none => (fs, .invalidArgument)
            | some currentPermissions =>
              ({ fs with
                  root_directory := modifyAt (fun p => p.setChildren (modifyNth (fun e =>
                    (e.setPermissions currentPermissions).setModificationTime now) i
                    p.children)) idx fs.root_directory }, .ok))
        ∧ addpw fs path password input now
          = .ok ({ fs with
                    root_directory := modifyAt (fun p => p.setChildren (modifyNth (fun e =>
                      (e.setPassword password).setModificationTime now) i p.children)) idx
                      fs.root_directory }, .ok)) := by
  have hattr : (it.getAttribute &&& ATTR_DIRECTORY != 0) = false := hfile
  have hff' := findFirst_file _ _ _ _ hff hfile
  constructor
  · intro h
    have hpw : checkPassword it input = false := (checkPassword_eq_false it input).mpr h
    refine ⟨?_, ?_, ?_, ?_⟩
    · unfold del
      simp only [hp, hff, hattr, hpw]
      rfl
    · unfold read
      simp only [hp, hff', hpw]
      rfl
    · unfold fs_chmod
      simp only [hp, hff, hpw]
      rfl
    · unfold addpw
      simp only [hp, hff, hpw]
      rfl
  · intro h
    have hpw : checkPassword it input = true := (checkPassword_eq_true it input).mpr h
    refine ⟨?_, ?_, ?_, ?_⟩
    · unfold del
      simp only [hp, hff, hattr, hpw]
      rfl
    · unfold read
      simp only [hp, hff', hpw]
      rfl
    · unfold fs_chmod
      simp only [hp, hff, hpw]
      rfl
    · unfold addpw
      simp only [hp, hff, hpw]
      rfl

/-- Witness of `password_gate`: the file `f` with the password `"x"`, and the input `"y"`. -/
theorem password_gate_witness :
    del { superblock := ⟨4, 16, 24, 4⟩, fat := [FAT_FREE, FAT_EOC, FAT_FREE, FAT_FREE],
          blocks := [⟨0, [0, 0, 0, 0]⟩, ⟨1, [1, 2, 3, 4]⟩, ⟨2, [0, 0, 0, 0]⟩,
            ⟨3, [0, 0, 0, 0]⟩],
          root_directory := .mk ⟨[47], 4, ⟨true, true⟩, 0, 0, [], 24, 16⟩
            [.mk ⟨[102], 4, ⟨true, true⟩, 0, 0, [120], 1, 0⟩ []] } [47, 102] [121]
      = .ok ({ superblock := ⟨4, 16, 24, 4⟩, fat := [FAT_FREE, FAT_EOC, FAT_FREE, FAT_FREE],
               blocks := [⟨0, [0, 0, 0, 0]⟩, ⟨1, [1, 2, 3, 4]⟩, ⟨2, [0, 0, 0, 0]⟩,
                 ⟨3, [0, 0, 0, 0]⟩],
               root_directory := .mk ⟨[47], 4, ⟨true, true⟩, 0, 0, [], 24, 16⟩
                 [.mk ⟨[102], 4, ⟨true, true⟩, 0, 0, [120], 1, 0⟩ []] },
             .authenticationFailed) :=
  ((password_gate _ [47, 102] [121] [43, 114] [112] 0 true []
    (.mk ⟨[47], 4, ⟨true, true⟩, 0, 0, [], 24, 16⟩
      [.mk ⟨[102], 4, ⟨true, true⟩, 0, 0, [120], 1, 0⟩ []])
    0 (.mk ⟨[102], 4, ⟨true, true⟩, 0, 0, [120], 1, 0⟩ []) (by rfl) (by rfl) (by rfl)).1
    ⟨by decide, by decide⟩).1

/-! ## `fs_chmod` -/

theorem fs_chmod_eq (fs : FileSystem) (path permissions input : List Nat) (now : Int)
    (idx : List Nat) (parent : DirectoryEntry) (i : Nat) (fileEntry : DirectoryEntry)
    (hp : findDirectory fs.root_directory (extract_directory_path path) = some (idx, parent))
    (hff : findFirst (fun child => child.getFilename == extract_filename path)
      parent.children = some (i, fileEntry))
    (hpw : checkPassword fileEntry input = true) :
    fs_chmod fs path permissions input now
      = (match chmod_permissions fileEntry.getPermissions permissions with
        | none => (fs, .invalidArgument)
        | some currentPermissions =>
          ({ fs with
              root_directory := modifyAt (fun p => p.setChildren (modifyNth (fun e =>
                (e.setPermissions currentPermissions).setModificationTime now) i
                p.children)) idx fs.root_directory }, .ok)) := by
  unfold fs_chmod
  simp only [hp, hff, hpw]
  rfl

/-- The permission strings of `fs_chmod`: each valid string sets the bits it names and keeps
the other one, and applying it to its own result changes nothing. -/
theorem chmod_permissions_spec (p : Permissions) (d : List Nat) :
    chmod_permissions p [43, 114] = some ⟨true, p.write⟩
      ∧ chmod_permissions p [45, 114] = some ⟨false, p.write⟩
      ∧ chmod_permissions p [43, 119] = some ⟨p.read, true⟩
      ∧ chmod_permissions p [45, 119] = some ⟨p.read, false⟩
      ∧ chmod_permissions p [43, 114, 119] = some ⟨true, true⟩
      ∧ chmod_permissions p [43, 119, 114] = some ⟨true, true⟩
      ∧ chmod_permissions p [45, 114, 119] = some ⟨false, false⟩
      ∧ chmod_permissions p [45, 119, 114] = some ⟨false, false⟩
      ∧ (d ∉ [[43, 114], [45, 114], [43, 119], [45, 119], [43, 114, 119], [43, 119, 114],
            [45, 114, 119], [45, 119, 114]] → chmod_permissions p d = none)
      ∧ ∀ cp, chmod_permissions p d = some cp → chmod_permissions cp d = some cp := by
  refine ⟨rfl, rfl, rfl, rfl, rfl, rfl, rfl, rfl, ?_, ?_⟩
  · intro hd
    simp only [List.mem_cons, List.mem_singleton, List.not_mem_nil, or_false, not_or] at hd
    obtain ⟨h1, h2, h3, h4, h5, h6, h7, h8⟩ := hd
    unfold chmod_permissions
    rw [if_neg h1, if_neg h3, if_neg h2, if_neg h4, if_neg (not_or.mpr ⟨h5, h6⟩),
      if_neg (not_or.mpr ⟨h7, h8⟩)]
  · intro cp h
    unfold chmod_permissions at h ⊢
    split at h
    · rename_i h1
      injection h with h
      rw [if_pos h1, ← h]
    · rename_i h1
      split at h
      · rename_i h2
        injection h with h
        rw [if_neg h1, if_pos h2, ← h]
      · rename_i h2
        split at h
        · rename_i h3
          injection h with h
          rw [if_neg h1, if_neg h2, if_pos h3, ← h]
        · rename_i h3
          split at h
          · rename_i h4
            injection h with h
            rw [if_neg h1, if_neg h2, if_neg h3, if_pos h4, ← h]
          · rename_i h4
            split at h
            · rename_i h5
              injection h with h
              rw [if_neg h1, if_neg h2, if_neg h3, if_neg h4, if_pos h5, h]
            · rename_i h5
              split at h
              · rename_i h6
                injection h with h
                rw [if_neg h1, if_neg h2, if_neg h3, if_neg h4, if_neg h5, if_pos h6, h]
              · cases h

theorem findFirst_modifyNth {α : Type} (p : α → Bool) (f : α → α) (l : List α) (i : Nat)
    (a : α) (h : findFirst p l = some (i, a)) (hf : p (f a) = p a) :
    findFirst p (modifyNth f i l) = some (i, f a) := by
  obtain ⟨L, R, hl, hL, hp, hpre⟩ := findFirst_prefix _ _ _ _ h
  rw [hl, ← hL, modifyNth_append]
  exact findFirst_append p L (f a) R hpre (hf.trans hp)

theorem modifyNth_congr_at {α : Type} (f g : α → α) :
    ∀ (l : List α) (i : Nat) (a : α), l[i]? = some a → f a = g a →
      modifyNth f i l = modifyNth g i l := by
  intro l
  induction l with
  | nil =>
    intro i a h
    rw [List.getElem?_nil] at h
    exact Option.noConfusion h
  | cons x l ih =>
    intro i a h hfg
    cases i with
    | zero =>
      rw [List.getElem?_cons_zero] at h
      injection h with h
      subst h
      show f x :: l = g x :: l
      rw [hfg]
    | succ i =>
      rw [List.getElem?_cons_succ] at h
      show x :: modifyNth f i l = x :: modifyNth g i l
      rw [ih i a h hfg]

/-- Two updates through the same pointer agree when they agree on the node it leads to. -/
theorem modifyAt_congr_at (f g : DirectoryEntry → DirectoryEntry) :
    ∀ (idx : List Nat) (cur d : DirectoryEntry), nodeAt cur idx = some d → f d = g d →
      modifyAt f idx cur = modifyAt g idx cur := by
  intro idx
  induction idx with
  | nil =>
    intro cur d h hfg
    injection h with h
    subst h
    exact hfg
  | cons i idx ih =>
    intro cur d h hfg
    rw [nodeAt] at h
    cases hc : cur.children[i]? with
    | none => rw [hc] at h; exact Option.noConfusion h
    | some c =>
      rw [hc] at h
      show cur.setChildren (modifyNth (modifyAt f idx) i cur.children)
        = cur.setChildren (modifyNth (modifyAt g idx) i cur.children)
      rw [modifyNth_congr_at _ _ _ _ c hc (ih c d h hfg)]

/-- What `fs_chmod` does on an entry without password, in terms of the result of
`chmod_permissions` on the permission string: nothing when it is `none`; when it is
`some cp`, the entry gets the permissions `cp` and the modification time `now` and nothing
else changes, and a second `fs_chmod` with the same string leaves the permissions `cp`. -/
theorem fs_chmod_of_chmod_permissions (fs : FileSystem) (path permissions input : List Nat)
    (now : Int)
    (idx : List Nat) (parent : DirectoryEntry) (i : Nat) (e : DirectoryEntry)
    (hp : findDirectory fs.root_directory (extract_directory_path path) = some (idx, parent))
    (hff : findFirst (fun child => child.getFilename == extract_filename path)
      parent.children = some (i, e))
    (hnopw : e.getPassword = []) :
    (chmod_permissions e.getPermissions permissions = none →
        fs_chmod fs path permissions input now = (fs, .invalidArgument))
      ∧ (∀ cp, chmod_permissions e.getPermissions permissions = some cp →
          ∃ L R, parent.children = L ++ e :: R ∧ L.length = i
            ∧ (fs_chmod fs path permissions input now).2 = .ok
            ∧ (fs_chmod fs path permissions input now).1.superblock = fs.superblock
            ∧ (fs_chmod fs path permissions input now).1.fat = fs.fat
            ∧ (fs_chmod fs path permissions input now).1.blocks = fs.blocks
            ∧ (fs_chmod fs path permissions input now).1.root_directory
                = modifyAt (fun p => p.setChildren (L ++ (.mk { e.fields with
                    permissions := cp, modification_time := now } e.children) :: R)) idx
                    fs.root_directory
            ∧ nodeAt (fs_chmod fs path permissions input now).1.root_directory idx
                = some (parent.setChildren (L ++ (.mk { e.fields with
                    permissions := cp, modification_time := now } e.children) :: R))
            ∧ ∀ input2 now2, ∃ p2 e2,
                nodeAt (fs_chmod (fs_chmod fs path permissions input now).1 path permissions
                  input2 now2).1.root_directory idx = some p2
                ∧ p2.children[i]? = some e2 ∧ e2.getPermissions = cp) := by
  have hpw : ∀ inp, checkPassword e inp = true :=
    fun inp => (checkPassword_eq_true e inp).mpr (Or.inl hnopw)
  have heq := fs_chmod_eq fs path permissions input now idx parent i e hp hff (hpw input)
  have hnode : nodeAt fs.root_directory idx = some parent :=
    findDirectoryLoop_nodeAt _ _ _ _ hp
  constructor
  · intro hnone
    rw [heq, hnone]
  · intro cp hcp
    rw [hcp] at heq
    obtain ⟨L, R, hl, hL, _, _⟩ := findFirst_prefix _ _ _ _ hff
    have hmod : modifyAt (fun p => p.setChildren (modifyNth (fun e =>
          (e.setPermissions cp).setModificationTime now) i p.children)) idx fs.root_directory
        = modifyAt (fun p => p.setChildren (L ++ (.mk { e.fields with
            permissions := cp, modification_time := now } e.children) :: R)) idx
            fs.root_directory := by
      refine modifyAt_congr_at _ _ idx _ parent hnode ?_
      show parent.setChildren (modifyNth (fun e =>
          (e.setPermissions cp).setModificationTime now) i parent.children) = _
      rw [hl, ← hL, modifyNth_append]
      rfl
    refine ⟨L, R, hl, hL, by rw [heq], by rw [heq], by rw [heq], by rw [heq], ?_, ?_, ?_⟩
    · rw [heq]
      exact hmod
    · rw [heq]
      show nodeAt (modifyAt (fun p => p.setChildren (modifyNth (fun e =>
          (e.setPermissions cp).setModificationTime now) i p.children)) idx
          fs.root_directory) idx = _
      rw [hmod]
      exact nodeAt_modifyAt _ idx fs.root_directory parent hnode
    · intro input2 now2
      have hp1 : findDirectory (fs_chmod fs path permissions input now).1.root_directory
          (extract_directory_path path)
          = some (idx, parent.setChildren (modifyNth (fun e =>
              (e.setPermissions cp).setModificationTime now) i parent.children)) := by
        rw [heq]
        exact findDirectoryLoop_modifyAt (fun p => p.setChildren (modifyNth (fun e =>
          (e.setPermissions cp).setModificationTime now) i p.children))
          (fun _ => rfl) (fun _ => rfl) _ _ _ _ hp
      have hff1 : findFirst (fun child => child.getFilename == extract_filename path)
          (parent.setChildren (modifyNth (fun e =>
            (e.setPermissions cp).setModificationTime now) i parent.children)).children
          = some (i, (e.setPermissions cp).setModificationTime now) := by
        rw [children_setChildren]
        exact findFirst_modifyNth _ _ _ _ _ hff rfl
      have heq2 := fs_chmod_eq (fs_chmod fs path permissions input now).1 path permissions
        input2 now2 idx _ i _ hp1 hff1
        ((checkPassword_eq_true _ input2).mpr (Or.inl hnopw))
      have hcp2 : chmod_permissions
          ((e.setPermissions cp).setModificationTime now).getPermissions permissions
          = some cp := (chmod_permissions_spec e.getPermissions permissions).2.2.2.2.2.2.2.2.2
            cp hcp
      rw [hcp2] at heq2
      have h1 := nodeAt_modifyAt (fun p => p.setChildren (modifyNth (fun e =>
        (e.setPermissions cp).setModificationTime now2) i p.children)) idx _ _
        (findDirectoryLoop_nodeAt _ _ _ _ hp1)
      rw [heq2]
      refine ⟨_, (((e.setPermissions cp).setModificationTime now).setPermissions
        cp).setModificationTime now2, h1, ?_, rfl⟩
      rw [children_setChildren, getElem?_modifyNth, children_setChildren,
        getElem?_modifyNth, findFirst_getElem _ _ _ _ hff]
      rfl

/-- C27. On an existing entry without password (the first child of the resolved parent with
the name of the last component), `fs_chmod` with one of the strings `+r`, `-r`, `+w`, `-w`,
`+rw`, `+wr`, `-rw`, `-wr` reports success and replaces that child by itself with the new
permissions and the modification time `now`: the bits the string names are `true` for `+`
and `false` for `-`, the bit it does not name is as before. The other children, the other
nodes, the FAT and the blocks are as before. With any other string it returns the state as
it was. A second `fs_chmod` with the same string leaves the same permissions. -/
theorem fs_chmod_spec (fs : FileSystem) (path permissions input : List Nat) (now : Int)
    (idx : List Nat) (parent : DirectoryEntry) (i : Nat) (e : DirectoryEntry)
    (hp : findDirectory fs.root_directory (extract_directory_path path) = some (idx, parent))
    (hff : findFirst (fun child => child.getFilename == extract_filename path)
      parent.children = some (i, e))
    (hnopw : e.getPassword = []) :
    (permissions ∉ [[43, 114], [45, 114], [43, 119], [45, 119], [43, 114, 119],
          [43, 119, 114], [45, 114, 119], [45, 119, 114]] →
        fs_chmod fs path permissions input now = (fs, .invalidArgument))
      ∧ (∀ cp,
          ((permissions = [43, 114] ∧ cp = ⟨true, e.getPermissions.write⟩)
            ∨ (permissions = [45, 114] ∧ cp = ⟨false, e.getPermissions.write⟩)
            ∨ (permissions = [43, 119] ∧ cp = ⟨e.getPermissions.read, true⟩)
            ∨ (permissions = [45, 119] ∧ cp = ⟨e.getPermissions.read, false⟩)
            ∨ ((permissions = [43, 114, 119] ∨ permissions = [43, 119, 114])
                ∧ cp = ⟨true, true⟩)
            ∨ ((permissions = [45, 114, 119] ∨ permissions = [45, 119, 114])
                ∧ cp = ⟨false, false⟩)) →
          ∃ L R, parent.children = L ++ e :: R ∧ L.length = i
            ∧ (fs_chmod fs path permissions input now).2 = .ok
            ∧ (fs_chmod fs path permissions input now).1.superblock = fs.superblock
            ∧ (fs_chmod fs path permissions input now).1.fat = fs.fat
            ∧ (fs_chmod fs path permissions input now).1.blocks = fs.blocks
            ∧ (fs_chmod fs path permissions input now).1.root_directory
                = modifyAt (fun p => p.setChildren (L ++ (.mk { e.fields with
                    permissions := cp, modification_time := now } e.children) :: R)) idx
                    fs.root_directory
            ∧ nodeAt (fs_chmod fs path permissions input now).1.root_directory idx
                = some (parent.setChildren (L ++ (.mk { e.fields with
                    permissions := cp, modification_time := now } e.children) :: R))
            ∧ ∀ input2 now2, ∃ p2 e2,
                nodeAt (fs_chmod (fs_chmod fs path permissions input now).1 path permissions
                  input2 now2).1.root_directory idx = some p2
                ∧ p2.children[i]? = some e2 ∧ e2.getPermissions = cp) := by
  obtain ⟨t1, t2, t3, t4, t5, t6, t7, t8, tnone, _⟩ :=
    chmod_permissions_spec e.getPermissions permissions
  obtain ⟨hinv, hval⟩ := fs_chmod_of_chmod_permissions fs path permissions input now idx
    parent i e hp hff hnopw
  refine ⟨fun h => hinv (tnone h), fun cp h => hval cp ?_⟩
  rcases h with ⟨h1, h2⟩ | ⟨h1, h2⟩ | ⟨h1, h2⟩ | ⟨h1, h2⟩ | ⟨h1 | h1, h2⟩ | ⟨h1 | h1, h2⟩
  · rw [h1, h2]; exact t1
  · rw [h1, h2]; exact t2
  · rw [h1, h2]; exact t3
  · rw [h1, h2]; exact t4
  · rw [h1, h2]; exact t5
  · rw [h1, h2]; exact t6
  · rw [h1, h2]; exact t7
  · rw [h1, h2]; exact t8

/-- Witness of `fs_chmod_spec`: `fs_chmod("/f", "-w")` on the file `f` without password,
with both bits set, at the clock value 7. -/
theorem fs_chmod_spec_witness :
    (fs_chmod { superblock := ⟨4, 16, 24, 4⟩, fat := [FAT_FREE, FAT_EOC, FAT_FREE, FAT_FREE],
                blocks := [⟨0, [0, 0, 0, 0]⟩, ⟨1, [1, 2, 3, 4]⟩, ⟨2, [0, 0, 0, 0]⟩,
                  ⟨3, [0, 0, 0, 0]⟩],
                root_directory := .mk ⟨[47], 4, ⟨true, true⟩, 0, 0, [], 24, 16⟩
                  [.mk ⟨[102], 4, ⟨true, true⟩, 0, 0, [], 1, 0⟩ []] }
        [47, 102] [45, 119] [] 7).2 = .ok
      ∧ (fs_chmod { superblock := ⟨4, 16, 24, 4⟩,
                    fat := [FAT_FREE, FAT_EOC, FAT_FREE, FAT_FREE],
                    blocks := [⟨0, [0, 0, 0, 0]⟩, ⟨1, [1, 2, 3, 4]⟩, ⟨2, [0, 0, 0, 0]⟩,
                      ⟨3, [0, 0, 0, 0]⟩],
                    root_directory := .mk ⟨[47], 4, ⟨true, true⟩, 0, 0, [], 24, 16⟩
                      [.mk ⟨[102], 4, ⟨true, true⟩, 0, 0, [], 1, 0⟩ []] }
          [47, 102] [45, 119] [] 7).1.root_directory
        = .mk ⟨[47], 4, ⟨true, true⟩, 0, 0, [], 24, 16⟩
            [.mk ⟨[102], 4, ⟨true, false⟩, 0, 7, [], 1, 0⟩ []] := by
  obtain ⟨L, R, hl, hL, h2, _, _, _, hroot, _⟩ := (fs_chmod_spec
    { superblock := ⟨4, 16, 24, 4⟩, fat := [FAT_FREE, FAT_EOC, FAT_FREE, FAT_FREE],
      blocks := [⟨0, [0, 0, 0, 0]⟩, ⟨1, [1, 2, 3, 4]⟩, ⟨2, [0, 0, 0, 0]⟩, ⟨3, [0, 0, 0, 0]⟩],
      root_directory := .mk ⟨[47], 4, ⟨true, true⟩, 0, 0, [], 24, 16⟩
        [.mk ⟨[102], 4, ⟨true, true⟩, 0, 0, [], 1, 0⟩ []] }
    [47, 102] [45, 119] [] 7 []
    (.mk ⟨[47], 4, ⟨true, true⟩, 0, 0, [], 24, 16⟩
      [.mk ⟨[102], 4, ⟨true, true⟩, 0, 0, [], 1, 0⟩ []])
    0 (.mk ⟨[102], 4, ⟨true, true⟩, 0, 0, [], 1, 0⟩ []) (by rfl) (by rfl) (by rfl)).2
    ⟨true, false⟩ (Or.inr (Or.inr (Or.inr (Or.inl ⟨rfl, rfl⟩))))
  have hL0 : L = [] := List.length_eq_zero.mp hL
  subst hL0
  have hR : R = [] := by
    have h : [DirectoryEntry.mk ⟨[102], 4, ⟨true, true⟩, 0, 0, [], 1, 0⟩ []]
        = DirectoryEntry.mk ⟨[102], 4, ⟨true, true⟩, 0, 0, [], 1, 0⟩ [] :: R := hl
    injection h with _ h
    exact h.symm
  subst hR
  exact ⟨h2, hroot⟩

/-! ## Directory sizes after `del`; the indices used by `write` -/

/-- C21 (code defect), evaluated: on `FileSystem(4, 4)`, `write("/f", 5 bytes)` sets the size
of the root to 5; `del("/f")` then removes the file and does not recompute the size. The
root is left without children and with the stored size 5, while the sizes of its immediate
file children sum to 0. -/
theorem del_leaves_stale_directory_size :
    ∃ s1 s2, write (FileSystem.create 4 4 0 0) [47, 102] (some ⟨[1, 2, 3, 4, 5], none⟩) 1 2
        = .ok (s1, .ok)
      ∧ s1.root_directory.getSize = 5
      ∧ del s1 [47, 102] [] = .ok (s2, .ok)
      ∧ is_directory s2.root_directory = true
      ∧ s2.root_directory.children = []
      ∧ s2.root_directory.getSize = 5
      ∧ immediateFileSize s2.root_directory = 0 :=
  ⟨_, _, rfl, rfl, rfl, by decide, rfl, rfl, rfl⟩

/-- C30 (code defect), evaluated. On `FileSystem(2, 4)`, `write("/a", 5 bytes)` claims block
1, finds no second block, and the copy loop follows the entry `FAT_USED = 0xFFFE` left in
the FAT: `blocks[0xFFFE]` is outside the array of two blocks. On `FileSystem(1, 4)`,
`write("/a", 1 byte)` finds no block at all, the start block stays 0, and the byte is
copied into block 0. -/
theorem write_leaves_block_range :
    write (FileSystem.create 2 4 0 0) [47, 97] (some ⟨[1, 2, 3, 4, 5], none⟩) 0 0
        = .error .outOfBounds
      ∧ ∃ s, write (FileSystem.create 1 4 0 0) [47, 97] (some ⟨[9], none⟩) 0 0
          = .ok (s, .insufficientSpace)
        ∧ (FileSystem.create 1 4 0 0).blocks = [⟨0, [0, 0, 0, 0]⟩]
        ∧ s.blocks = [⟨0, [9, 0, 0, 0]⟩] :=
  ⟨rfl, _, rfl, rfl, rfl⟩

/-! ## The directory-tree codec -/

/-- C26. For every tree whose fields hold values of their C++ types (name and password
lengths and child counts below `2^32`, at any depth, bytes of any value), `read_directory`
applied to the bytes that `write_directory` emits, followed by any other bytes `r`,
returns, rebuilds the same tree (every field, the children in order) and leaves exactly
`r` unread; its recursion is as deep as the tree is high. -/
theorem directory_codec_roundtrip (e : DirectoryEntry) (r : List Nat) (hwf : e.WF) :
    (∀ fuel, e.height ≤ fuel → read_directory fuel (write_directory e ++ r) = some (e, r))
      ∧ read_directory e.height (write_directory e) = some (e, []) := by
  refine ⟨fun fuel hf => read_directory_write_directory e fuel r hwf hf, ?_⟩
  have h := read_directory_write_directory e e.height [] hwf (Nat.le_refl _)
  rw [List.append_nil] at h
  exact h

/-- Witness of `directory_codec_roundtrip`: a root with a file whose name holds a NUL and a
`'/'` byte and whose password is a NUL byte, and an empty subdirectory with an empty name;
two more bytes follow the encoding. -/
theorem directory_codec_roundtrip_witness :
    read_directory 2
        (write_directory (.mk ⟨[47], 4, ⟨true, true⟩, 0, -1, [], 24, 16⟩
          [.mk ⟨[102, 0, 47], 4, ⟨false, true⟩, 5, 6, [0], 1, 0⟩ [],
           .mk ⟨[], 0, ⟨true, false⟩, 7, 8, [], 65533, 16⟩ []]) ++ [7, 7])
      = some (.mk ⟨[47], 4, ⟨true, true⟩, 0, -1, [], 24, 16⟩
          [.mk ⟨[102, 0, 47], 4, ⟨false, true⟩, 5, 6, [0], 1, 0⟩ [],
           .mk ⟨[], 0, ⟨true, false⟩, 7, 8, [], 65533, 16⟩ []], [7, 7]) :=
  (directory_codec_roundtrip (.mk ⟨[47], 4, ⟨true, true⟩, 0, -1, [], 24, 16⟩
      [.mk ⟨[102, 0, 47], 4, ⟨false, true⟩, 5, 6, [0], 1, 0⟩ [],
       .mk ⟨[], 0, ⟨true, false⟩, 7, 8, [], 65533, 16⟩ []]) [7, 7]
    (by simp [DirectoryEntry.WF, DirectoryEntry.WFList, EntryFields.WF])).1 2 (by decide)

/-! ## `countFiles` and `countDirectories` -/

theorem descendants_eq (e : DirectoryEntry) : descendants e = descendantsList e.children := by
  cases e
  rfl

theorem countFiles_eq (e : DirectoryEntry) : countFiles e = countFilesLoop e.children 0 := by
  cases e
  rfl

theorem countDirectories_eq (e : DirectoryEntry) :
    countDirectories e = countDirectoriesLoop e.children 1 := by
  cases e
  rfl

mutual
theorem countFiles_mod : ∀ (e : DirectoryEntry),
    (∀ d ∈ descendants e, is_directory d = false → d.children = []) →
    countFiles e % 2 ^ 32
      = ((descendants e).filter (fun d => !is_directory d)).length % 2 ^ 32
  | .mk f cs, h => by
    have := countFilesLoop_mod cs 0 h
    rw [Nat.zero_add] at this
    exact this
theorem countFilesLoop_mod : ∀ (cs : List DirectoryEntry) (count : Nat),
    (∀ d ∈ descendantsList cs, is_directory d = false → d.children = []) →
    countFilesLoop cs count % 2 ^ 32
      = (count + ((descendantsList cs).filter (fun d => !is_directory d)).length) % 2 ^ 32
  | [], count, _ => rfl
  | c :: cs, count, h => by
    have hc : ∀ d ∈ descendants c, is_directory d = false → d.children = [] :=
      fun d hd => h d (List.mem_cons_of_mem _ (List.mem_append_left _ hd))
    have hcs : ∀ d ∈ descendantsList cs, is_directory d = false → d.children = [] :=
      fun d hd => h d (List.mem_cons_of_mem _ (List.mem_append_right _ hd))
    have ih1 := countFiles_mod c hc
    have ih2 := fun k => countFilesLoop_mod cs k hcs
    unfold countFilesLoop
    show (if (!is_directory c) = true then countFilesLoop cs ((count + 1) % 2 ^ 32)
        else countFilesLoop cs ((count + countFiles c) % 2 ^ 32)) % 2 ^ 32
      = (count + ((c :: (descendants c ++ descendantsList cs)).filter
          (fun d => !is_directory d)).length) % 2 ^ 32
    by_cases hd : is_directory c = true
    · rw [if_neg (by rw [hd]; decide), ih2, List.filter_cons_of_neg (by rw [hd]; decide),
        List.filter_append, List.length_append, Nat.add_mod, Nat.mod_mod, ← Nat.add_mod,
        Nat.add_mod, Nat.add_mod count, ih1, ← Nat.add_mod count, ← Nat.add_mod]
      omega
    · have hd' : is_directory c = false := (Bool.not_eq_true _).mp hd
      have hleaf : descendants c = [] := by
        rw [descendants_eq, h c (List.mem_cons_self _ _) hd']
        rfl
      rw [if_pos (by rw [hd']; rfl), ih2, List.filter_cons_of_pos (by rw [hd']; rfl), hleaf,
        List.nil_append, List.length_cons, Nat.add_mod, Nat.mod_mod, ← Nat.add_mod]
      omega
end
mutual
theorem countDirectories_mod : ∀ (e : DirectoryEntry),
    (∀ d ∈ descendants e, is_directory d = false → d.children = []) →
    countDirectories e % 2 ^ 32
      = (1 + ((descendants e).filter is_directory).length) % 2 ^ 32
  | .mk _ cs, h => countDirectoriesLoop_mod cs 1 h
theorem countDirectoriesLoop_mod : ∀ (cs : List DirectoryEntry) (count : Nat),
    (∀ d ∈ descendantsList cs, is_directory d = false → d.children = []) →
    countDirectoriesLoop cs count % 2 ^ 32
      = (count + ((descendantsList cs).filter is_directory).length) % 2 ^ 32
  | [], count, _ => rfl
  | c :: cs, count, h => by
    have hc : ∀ d ∈ descendants c, is_directory d = false → d.children = [] :=
      fun d hd => h d (List.mem_cons_of_mem _ (List.mem_append_left _ hd))
    have hcs : ∀ d ∈ descendantsList cs, is_directory d = false → d.children = [] :=
      fun d hd => h d (List.mem_cons_of_mem _ (List.mem_append_right _ hd))
    have ih1 := countDirectories_mod c hc
    have ih2 := fun k => countDirectoriesLoop_mod cs k hcs
    unfold countDirectoriesLoop
    show (if is_directory c = true then
          countDirectoriesLoop cs ((count + countDirectories c) % 2 ^ 32)
        else countDirectoriesLoop cs count) % 2 ^ 32
      = (count + ((c :: (descendants c ++ descendantsList cs)).filter
          is_directory).length) % 2 ^ 32
    by_cases hd : is_directory c = true
    · rw [if_pos hd, ih2, List.filter_cons_of_pos hd, List.filter_append, List.length_cons,
        List.length_append]
      omega
    · have hd' : is_directory c = false := (Bool.not_eq_true _).mp hd
      have hleaf : descendants c = [] := by
        rw [descendants_eq, h c (List.mem_cons_self _ _) hd']
        rfl
      rw [if_neg hd, ih2, List.filter_cons_of_neg hd, hleaf, List.nil_append]
end

theorem countFilesLoop_lt : ∀ (cs : List DirectoryEntry) (count : Nat), count < 2 ^ 32 →
    countFilesLoop cs count < 2 ^ 32
  | [], count, h => h
  | c :: cs, count, _ => by
    unfold countFilesLoop
    split
    · exact countFilesLoop_lt cs _ (Nat.mod_lt _ (by norm_num))
    · exact countFilesLoop_lt cs _ (Nat.mod_lt _ (by norm_num))

theorem countDirectoriesLoop_lt : ∀ (cs : List DirectoryEntry) (count : Nat), count < 2 ^ 32 →
    countDirectoriesLoop cs count < 2 ^ 32
  | [], count, h => h
  | c :: cs, count, h => by
    unfold countDirectoriesLoop
    split
    · exact countDirectoriesLoop_lt cs _ (Nat.mod_lt _ (by norm_num))
    · exact countDirectoriesLoop_lt cs _ h

theorem length_filter_add_not {α : Type} (p : α → Bool) (l : List α) :
    (l.filter (fun d => !p d)).length + (l.filter p).length = l.length := by
  induction l with
  | nil => rfl
  | cons a l ih =>
    by_cases h : p a = true
    · rw [List.filter_cons_of_neg (by rw [h]; decide), List.filter_cons_of_pos h,
        List.length_cons, List.length_cons]
      omega
    · have h' : p a = false := (Bool.not_eq_true _).mp h
      rw [List.filter_cons_of_pos (by rw [h']; rfl), List.filter_cons_of_neg h,
        List.length_cons, List.length_cons]
      omega

/-- C28. For a tree in which the nodes without the directory attribute have no children and
which has fewer than `2^32` nodes, `countFiles` is the number of nodes below the root, at
any depth, without the directory attribute, `countDirectories` is the number of nodes below
the root with the directory attribute plus one for the root, and the two add up to the
number of nodes of the tree, the root included. -/
theorem count_files_and_directories (root : DirectoryEntry)
    (hleaf : ∀ d ∈ descendants root, is_directory d = false → d.children = [])
    (hsmall : (descendants root).length + 1 < 2 ^ 32) :
    countFiles root = ((descendants root).filter (fun d => !is_directory d)).length
      ∧ countDirectories root
          = ((descendants root).filter is_directory).length + 1
      ∧ countFiles root + countDirectories root = (descendants root).length + 1 := by
  have hsum := length_filter_add_not is_directory (descendants root)
  have h1 := countFiles_mod root hleaf
  have h2 := countDirectories_mod root hleaf
  have l1 : countFiles root < 2 ^ 32 := by
    rw [countFiles_eq]
    exact countFilesLoop_lt _ 0 (by norm_num)
  have l2 : countDirectories root < 2 ^ 32 := by
    rw [countDirectories_eq]
    exact countDirectoriesLoop_lt _ 1 (by norm_num)
  rw [Nat.mod_eq_of_lt l1, Nat.mod_eq_of_lt (by omega)] at h1
  rw [Nat.mod_eq_of_lt l2, Nat.mod_eq_of_lt (by omega)] at h2
  refine ⟨h1, by omega, by omega⟩

/-- Witness of `count_files_and_directories`: a root with a file, and a directory that holds
a file and an empty directory: 2 files, 3 directories, 5 nodes. -/
theorem count_files_and_directories_witness :
    countFiles (.mk ⟨[47], 0, ⟨true, true⟩, 0, 0, [], 24, 16⟩
        [.mk ⟨[102], 4, ⟨true, true⟩, 0, 0, [], 1, 0⟩ [],
         .mk ⟨[100], 0, ⟨true, true⟩, 0, 0, [], 65533, 16⟩
           [.mk ⟨[103], 4, ⟨true, true⟩, 0, 0, [], 2, 0⟩ [],
            .mk ⟨[101], 0, ⟨true, true⟩, 0, 0, [], 65533, 16⟩ []]]) = 2
      ∧ countDirectories (.mk ⟨[47], 0, ⟨true, true⟩, 0, 0, [], 24, 16⟩
        [.mk ⟨[102], 4, ⟨true, true⟩, 0, 0, [], 1, 0⟩ [],
         .mk ⟨[100], 0, ⟨true, true⟩, 0, 0, [], 65533, 16⟩
           [.mk ⟨[103], 4, ⟨true, true⟩, 0, 0, [], 2, 0⟩ [],
            .mk ⟨[101], 0, ⟨true, true⟩, 0, 0, [], 65533, 16⟩ []]]) = 3 :=
  let h := count_files_and_directories (.mk ⟨[47], 0, ⟨true, true⟩, 0, 0, [], 24, 16⟩
        [.mk ⟨[102], 4, ⟨true, true⟩, 0, 0, [], 1, 0⟩ [],
         .mk ⟨[100], 0, ⟨true, true⟩, 0, 0, [], 65533, 16⟩
           [.mk ⟨[103], 4, ⟨true, true⟩, 0, 0, [], 2, 0⟩ [],
            .mk ⟨[101], 0, ⟨true, true⟩, 0, 0, [], 65533, 16⟩ []]]) (by decide) (by decide)
  ⟨h.1, h.2.1⟩

/-! ## Termination of the FAT operations -/

theorem allocateLoop_cap (entry : DirectoryEntry) :
    ∀ (k : Nat) (fat : List Nat) (prev : Nat), fat.length ≤ 0xFFFF → prev < fat.length →
      fat[prev]? ≠ some FAT_FREE → (freeIndices fat).length < k →
      allocateLoop entry k fat prev
        = allocateLoop entry ((freeIndices fat).length + 1) fat prev := by
  intro k
  induction k with
  | zero => intro _ _ _ _ _ h; omega
  | succ k ih =>
    intro fat prev hlen hprev hnf hk
    cases hfl : freeIndices fat with
    | nil =>
      show allocateLoop entry (k + 1) fat prev = allocateLoop entry (0 + 1) fat prev
      unfold allocateLoop
      rw [findNextFreeBlock_eq fat hlen, hfl]
      simp
    | cons c fl =>
      have hc : c ∈ freeIndices fat := by rw [hfl]; exact List.mem_cons_self _ _
      obtain ⟨hc1, hc2, hc3⟩ := (mem_freeFrom fat 1 c).mp hc
      have hcp : c ≠ prev := fun h => hnf (h ▸ hc3)
      have hpfl : prev ∉ fl := fun h =>
        hnf ((mem_freeFrom fat 1 prev).mp (by
          show prev ∈ freeIndices fat
          rw [hfl]; exact List.mem_cons_of_mem _ h)).2.2
      have hcv : c ≠ FAT_FREE := by simp only [FAT_FREE]; omega
      have hfl' := freeIndices_after_claim fat c prev c fl hfl hpfl hcv
      have hstep : ∀ j, allocateLoop entry (j + 1) fat prev
          = allocateLoop entry j ((fat.set c FAT_USED).set prev c) c := by
        intro j
        rw [allocateLoop, findNextFreeBlock_eq fat hlen, hfl]
        simp only [if_neg hcv, vecSet, List.length_set, hprev, if_true]
      rw [hstep k, List.length_cons, hstep (fl.length + 1)]
      have := ih ((fat.set c FAT_USED).set prev c) c (by simpa using hlen)
        (by simpa using hc2)
        (by
          rw [List.getElem?_set_ne (Ne.symm hcp), List.getElem?_set_self hc2]
          decide)
        (by rw [hfl']; rw [hfl] at hk; simpa using hk)
      rw [hfl'] at this
      exact this

/-- The loop of `deallocateBlocksForFile` ends within two iterations more than there are
entries other than `FAT_FREE`: by returning, or by indexing outside the FAT or the block
array. -/
theorem deallocateLoop_bounded :
    ∀ (fuel : Nat) (fat : List Nat) (blocks : List DiskBlock) (block : Nat),
      fat.length ≤ 0xFFFF → fat.length - fat.count FAT_FREE + 2 ≤ fuel →
      (∃ r, deallocateLoop fuel fat blocks block = .ok r)
        ∨ deallocateLoop fuel fat blocks block = .error .outOfBounds := by
  intro fuel
  induction fuel with
  | zero => intro _ _ _ _ h; omega
  | succ f ih =>
    intro fat blocks block hlen hm
    unfold deallocateLoop
    by_cases hcond : block ≠ FAT_EOC ∧ block ≠ 0
    · rw [if_pos hcond]
      cases hget : fat[block]? with
      | none =>
        right
        simp only [vecGet, hget]
      | some next =>
        cases hblk : blocks[block]? with
        | none =>
          right
          simp only [vecGet, hget, hblk]
        | some b =>
          simp only [vecGet, hget, hblk]
          by_cases hv : next = FAT_FREE
          · right
            subst hv
            obtain ⟨f', rfl⟩ : ∃ f', f = f' + 1 := ⟨f - 1, by omega⟩
            unfold deallocateLoop
            rw [if_pos ⟨by decide, by decide⟩]
            have hnone : (fat.set block FAT_FREE)[FAT_FREE]? = none :=
              List.getElem?_eq_none (by
                rw [List.length_set]
                simp only [FAT_FREE]
                omega)
            simp only [vecGet, hnone]
          · have hcount := count_set_free fat block next hget hv
            have hle : (fat.set block FAT_FREE).count FAT_FREE
                ≤ (fat.set block FAT_FREE).length := List.count_le_length _ _
            rw [List.length_set] at hle
            exact ih (fat.set block FAT_FREE) _ next (by rw [List.length_set]; exact hlen)
              (by rw [List.length_set]; omega)
    · rw [if_neg hcond]
      exact Or.inl ⟨_, rfl⟩

/-- C25, counterexample. In the FAT `[FREE, 2, 1]` the chain from block 1 is the cycle
`1, 2, 1, ...`: `deallocateBlocksForFile` frees blocks 1 and 2, comes back to block 1, reads
`FAT_FREE` as the next block and indexes the FAT at `0xFFFF`, outside its three entries; it
does not return. -/
theorem deallocate_cyclic_counterexample :
    deallocateBlocksForFile [FAT_FREE, 2, 1] [⟨0, [0]⟩, ⟨1, [5]⟩, ⟨2, [6]⟩]
        ((DirectoryEntry.init 0 0 0).setStartBlock 1) = .error .outOfBounds
      ∧ ¬ ∃ r, deallocateBlocksForFile [FAT_FREE, 2, 1] [⟨0, [0]⟩, ⟨1, [5]⟩, ⟨2, [6]⟩]
          ((DirectoryEntry.init 0 0 0).setStartBlock 1) = .ok r := by
  have h : deallocateBlocksForFile [FAT_FREE, 2, 1] [⟨0, [0]⟩, ⟨1, [5]⟩, ⟨2, [6]⟩]
      ((DirectoryEntry.init 0 0 0).setStartBlock 1) = .error .outOfBounds := rfl
  refine ⟨h, ?_⟩
  rintro ⟨r, hr⟩
  rw [h] at hr
  cases hr

/-- C25, amended. On a FAT of at most 65535 entries: the scan of `findNextFreeBlock` returns
within `fat.size() + 1` steps; `allocateBlocksForFile`, for a block size `> 0`, returns, and
its loop does the same as a loop of at most as many iterations as there are free entries;
the loop of `deallocateBlocksForFile` ends within `fat.size() + 2` steps for every start
block, by returning or by indexing outside the FAT or the block array, and it returns when
the start block heads a chain of distinct blocks with indices `≥ 1` inside the FAT and the
block array that ends in `FAT_EOC`, and when the start block is `0` or `FAT_EOC`, then
without a change. -/
theorem fat_operations_bounded (fat : List Nat) (hlen : fat.length ≤ 0xFFFF) :
    (findNextFreeBlockLoop fat (fat.length + 1) 1 = findNextFreeBlock fat
        ∧ ∃ r, findNextFreeBlock fat = .ok r)
      ∧ (∀ bs n entry, 0 < bs →
          (∃ r, allocateBlocksForFile bs fat entry n = .ok r)
          ∧ ∀ c fl, freeIndices fat = c :: fl →
              allocateBlocksForFile bs fat entry n
                = allocateLoop (entry.setStartBlock c)
                    (min (num_blocks_needed bs n - 1) (fl.length + 1)) (fat.set c FAT_USED) c
              ∧ fl.length + 1 < fat.length)
      ∧ (∀ blocks entry,
          (∃ r, deallocateBlocksForFile fat blocks entry = .ok r)
            ∨ deallocateBlocksForFile fat blocks entry = .error .outOfBounds)
      ∧ (∀ blocks entry chain, IsChain fat entry.getStartBlock chain → chain.Nodup →
          (∀ b ∈ chain, 1 ≤ b ∧ b < fat.length ∧ b < blocks.length) →
          ∃ r, deallocateBlocksForFile fat blocks entry = .ok r)
      ∧ ∀ blocks entry, entry.getStartBlock = 0 ∨ entry.getStartBlock = FAT_EOC →
          deallocateBlocksForFile fat blocks entry = .ok (fat, blocks) := by
  refine ⟨⟨?_, _, findNextFreeBlock_eq fat hlen⟩, ?_, ?_, ?_, ?_⟩
  · rw [findNextFreeBlock_eq fat hlen]
    by_cases h0 : fat.length = 0
    · have hnil : fat = [] := List.length_eq_zero.mp h0
      subst hnil
      rfl
    · exact findNextFreeBlockLoop_eq fat hlen (fat.length + 1) 1 (by omega) (by omega)
  · intro bs n entry hbs
    obtain ⟨r, hr, _⟩ := allocateBlocksForFile_spec bs n fat entry hbs hlen
    refine ⟨⟨r, hr⟩, ?_⟩
    intro c fl hfl
    have hc : c ∈ freeIndices fat := by rw [hfl]; exact List.mem_cons_self _ _
    obtain ⟨hc1, hc2, hc3⟩ := (mem_freeFrom fat 1 c).mp hc
    have hcv : c ≠ FAT_FREE := by simp only [FAT_FREE]; omega
    have hfl' := freeIndices_after_first fat c fl hfl
    have hstep : allocateBlocksForFile bs fat entry n
        = allocateLoop (entry.setStartBlock c) (num_blocks_needed bs n - 1)
            (fat.set c FAT_USED) c := by
      unfold allocateBlocksForFile
      rw [if_neg (by omega), findNextFreeBlock_eq fat hlen, hfl]
      simp only [if_neg hcv]
    have hfree_len : (c :: fl).length ≤ fat.length - 1 := by
      rw [← hfl]
      have hnd := freeFrom_nodup fat 1
      have := length_le_of_nodup_lt ((freeIndices fat).map (fun x => x - 1)) (fat.length - 1)
        ((List.nodup_map_iff_inj_on hnd).mpr (fun x hx y hy hxy => by
          have h1 := ((mem_freeFrom fat 1 x).mp hx).1
          have h2 := ((mem_freeFrom fat 1 y).mp hy).1
          omega))
        (fun b hb => by
          obtain ⟨x, hx, rfl⟩ := List.mem_map.mp hb
          have h1 := (mem_freeFrom fat 1 x).mp hx
          omega)
      rw [List.length_map] at this
      exact this
    rw [List.length_cons] at hfree_len
    refine ⟨?_, by omega⟩
    rw [hstep]
    rcases Nat.lt_or_ge fl.length (num_blocks_needed bs n - 1) with h | h
    · rw [Nat.min_eq_right (by omega)]
      have := allocateLoop_cap (entry.setStartBlock c) (num_blocks_needed bs n - 1)
        (fat.set c FAT_USED) c (by simpa using hlen) (by simpa using hc2)
        (by rw [List.getElem?_set_self hc2]; decide) (by rw [hfl']; exact h)
      rw [hfl'] at this
      exact this
    · rw [Nat.min_eq_left (by omega)]
  · intro blocks entry
    exact deallocateLoop_bounded (fat.length + 2) fat blocks entry.getStartBlock hlen
      (by omega)
  · intro blocks entry chain hc hnd hr
    have hcl : chain.length ≤ fat.length :=
      length_le_of_nodup_lt chain fat.length hnd (fun b hb => (hr b hb).2.1)
    obtain ⟨fat', blocks', h1, _⟩ := deallocateLoop_chain chain
      (fat.length + 2) fat blocks entry.getStartBlock hc.2 hc.1 hnd hr (by omega)
    exact ⟨_, h1⟩
  · intro blocks entry he
    unfold deallocateBlocksForFile deallocateLoop
    rw [if_neg]
    intro h
    rcases he with h0 | h0
    · exact h.2 h0
    · exact h.1 h0

/-- Witness of `fat_operations_bounded`: the cyclic FAT `[FREE, 2, 1]`. -/
theorem fat_operations_bounded_witness :
    (∃ r, deallocateBlocksForFile [FAT_FREE, 2, 1] [⟨0, [0]⟩, ⟨1, [5]⟩, ⟨2, [6]⟩]
        ((DirectoryEntry.init 0 0 0).setStartBlock 1) = .ok r)
      ∨ deallocateBlocksForFile [FAT_FREE, 2, 1] [⟨0, [0]⟩, ⟨1, [5]⟩, ⟨2, [6]⟩]
        ((DirectoryEntry.init 0 0 0).setStartBlock 1) = .error .outOfBounds :=
  (fat_operations_bounded [FAT_FREE, 2, 1] (by decide)).2.2.1 _ _

/-! ## `mkdir` followed by `findDirectory` -/

theorem find_last_of_none (c : Nat) :
    ∀ (p : List Nat), find_last_of p c = none → c ∉ p := by
  intro p
  induction p with
  | nil => intro _ h; exact absurd h (List.not_mem_nil c)
  | cons x xs ih =>
    intro h
    unfold find_last_of at h
    cases hr : find_last_of xs c with
    | some j => rw [hr] at h; exact Option.noConfusion h
    | none =>
      rw [hr] at h
      simp only at h
      by_cases hx : x = c
      · rw [if_pos hx] at h
        exact Option.noConfusion h
      · intro hm
        rcases List.mem_cons.mp hm with e | e
        · exact hx e.symm
        · exact ih hr e

theorem find_last_of_some (c : Nat) :
    ∀ (p : List Nat) (i : Nat), find_last_of p c = some i →
      ∃ A B, p = A ++ c :: B ∧ A.length = i ∧ c ∉ B := by
  intro p
  induction p with
  | nil => intro i h; exact Option.noConfusion h
  | cons x xs ih =>
    intro i h
    unfold find_last_of at h
    cases hr : find_last_of xs c with
    | some j =>
      rw [hr] at h
      simp only at h
      injection h with h
      obtain ⟨A, B, hp, hA, hB⟩ := ih j hr
      exact ⟨x :: A, B, by rw [hp]; rfl, by rw [List.length_cons, hA, h], hB⟩
    | none =>
      rw [hr] at h
      simp only at h
      by_cases hx : x = c
      · rw [if_pos hx] at h
        injection h with h
        exact ⟨[], xs, by rw [hx]; rfl, h, find_last_of_none c xs hr⟩
      · rw [if_neg hx] at h
        exact Option.noConfusion h

theorem getlines_no_slash : ∀ (B : List Nat), 47 ∉ B → B ≠ [] → getlines B = [B] := by
  intro B
  induction B with
  | nil => intro _ h; exact absurd rfl h
  | cons b B ih =>
    intro hB _
    have hb : b ≠ 47 := fun h => hB (h ▸ List.mem_cons_self _ _)
    have hB' : 47 ∉ B := fun h => hB (List.mem_cons_of_mem _ h)
    unfold getlines
    rw [if_neg hb]
    cases B with
    | nil => rfl
    | cons b' B' => rw [ih hB' (List.cons_ne_nil _ _)]

theorem getlines_append_slash (B : List Nat) :
    ∀ (A : List Nat), getlines (A ++ 47 :: B) = A.splitOn 47 ++ getlines B := by
  intro A
  induction A with
  | nil =>
    show getlines (47 :: B) = [[]] ++ getlines B
    rw [getlines, if_pos rfl]
    rfl
  | cons a A ih =>
    have hstep : (a :: A).splitOn 47
        = if (a == 47) = true then [] :: A.splitOn 47
          else List.modifyHead (List.cons a) (A.splitOn 47) :=
      List.splitOnP_cons _ a A
    show getlines (a :: (A ++ 47 :: B)) = _
    rw [getlines]
    by_cases ha : a = 47
    · subst ha
      rw [hstep, if_pos (rfl : (47 : Nat) = 47),
        if_pos (show ((47 : Nat) == 47) = true from rfl), ih]
      rfl
    · rw [hstep, if_neg ha, if_neg (by simpa using ha), ih]
      cases hs : A.splitOn 47 with
      | nil => exact absurd hs (List.splitOnP_ne_nil _ A)
      | cons w ws => rfl

/-- The segments of a path whose part after the last `'/'` is not empty: those of
`extract_directory_path`, then `extract_filename`. -/
theorem segments_extract (p : List Nat) (hname : extract_filename p ≠ []) :
    segments p = segments (extract_directory_path p) ++ [extract_filename p] := by
  cases hfl : find_last_of p 47 with
  | none =>
    have hfn : extract_filename p = p := by
      unfold extract_filename
      rw [hfl]
    have hno := find_last_of_none 47 p hfl
    have hdir : extract_directory_path p = [] := by
      unfold extract_directory_path
      rw [if_neg (fun h => hno (by rw [h]; exact List.mem_cons_self _ _)), hfl]
    rw [hfn] at hname ⊢
    rw [hdir, ← getlines_filter p, getlines_no_slash p hno hname,
      List.filter_cons_of_pos (by simpa using hname)]
    rfl
  | some pos =>
    obtain ⟨A, B, hp, hA, hB⟩ := find_last_of_some 47 p pos hfl
    have hfn : extract_filename p = B := by
      unfold extract_filename
      rw [hfl]
      show p.drop (pos + 1) = B
      rw [hp, ← hA, List.drop_append]
      rfl
    rw [hfn] at hname ⊢
    have hp1 : p ≠ [47] := by
      intro h
      rw [h] at hp
      cases A with
      | nil =>
        injection hp with _ hp
        exact hname hp.symm
      | cons a A =>
        injection hp with _ hp
        exact absurd hp.symm (List.append_ne_nil_of_right_ne_nil _ (List.cons_ne_nil _ _))
    have hdir : extract_directory_path p = A := by
      unfold extract_directory_path
      rw [if_neg hp1, hfl]
      show p.take pos = A
      rw [hp, ← hA, List.take_left]
    rw [hdir, ← getlines_filter p, hp, getlines_append_slash, List.filter_append,
      getlines_no_slash B hB hname, List.filter_cons_of_pos (by simpa using hname)]
    rfl

theorem findDirectoryLoop_append :
    ∀ (A B : List (List Nat)) (cur : DirectoryEntry) (idx : List Nat) (d : DirectoryEntry)
      (idx2 : List Nat) (d2 : DirectoryEntry),
      findDirectoryLoop cur A = some (idx, d) → findDirectoryLoop d B = some (idx2, d2) →
      findDirectoryLoop cur (A ++ B) = some (idx ++ idx2, d2) := by
  intro A
  induction A with
  | nil =>
    intro B cur idx d idx2 d2 h h2
    simp only [findDirectoryLoop, Option.some.injEq, Prod.mk.injEq] at h
    obtain ⟨h1, h3⟩ := h
    subst h1 h3
    exact h2
  | cons comp rest ih =>
    intro B cur idx d idx2 d2 h h2
    rw [findDirectoryLoop] at h
    show findDirectoryLoop cur (comp :: (rest ++ B)) = _
    by_cases hc : comp = []
    · rw [if_pos hc] at h
      rw [findDirectoryLoop, if_pos hc]
      exact ih B cur idx d idx2 d2 h h2
    · rw [if_neg hc] at h
      cases hf : findFirst (fun entry => entry.getFilename == comp
          && (entry.getAttribute &&& ATTR_DIRECTORY != 0)) cur.children with
      | none => rw [hf] at h; exact Option.noConfusion h
      | some q =>
        obtain ⟨i, entry⟩ := q
        rw [hf] at h
        cases hr : findDirectoryLoop entry rest with
        | none => simp only [hr] at h; exact Option.noConfusion h
        | some q2 =>
          obtain ⟨idx', d'⟩ := q2
          simp only [hr, Option.some.injEq, Prod.mk.injEq] at h
          obtain ⟨h1, h3⟩ := h
          subst h1 h3
          rw [findDirectoryLoop, if_neg hc, hf]
          simp only [ih B entry idx' d' idx2 d2 hr h2]
          rfl
/-- C29, counterexample. On a fresh file system `mkdir("/")` succeeds: the part of `"/"` after
the last `'/'` is empty, and a directory with the empty name is appended to the root.
`findDirectory("/")` afterwards returns the root, which has a child. Likewise, after
`mkdir("/a")`, `mkdir("/a/")` succeeds by appending a directory with the empty name to `a`,
and `findDirectory("/a/")` returns `a`, not the new node. -/
theorem mkdir_trailing_slash_counterexample :
    (mkdir (FileSystem.create 4 4 0 0) [47] 1 2).2 = .ok
      ∧ (mkdir (FileSystem.create 4 4 0 0) [47] 1 2).1.root_directory.children
          = [new_directory_entry [47] 1 2]
      ∧ (new_directory_entry [47] 1 2).getFilename = []
      ∧ findDirectory (mkdir (FileSystem.create 4 4 0 0) [47] 1 2).1.root_directory [47]
          = some ([], (mkdir (FileSystem.create 4 4 0 0) [47] 1 2).1.root_directory)
      ∧ (mkdir (mkdir (FileSystem.create 4 4 0 0) [47, 97] 1 2).1 [47, 97, 47] 3 4).2 = .ok
      ∧ findDirectory (mkdir (mkdir (FileSystem.create 4 4 0 0) [47, 97] 1 2).1
            [47, 97, 47] 3 4).1.root_directory [47, 97, 47]
          = some ([0], (new_directory_entry [47, 97] 1 2).setChildren
              [new_directory_entry [47, 97, 47] 3 4])
      ∧ (new_directory_entry [47, 97, 47] 3 4).getFilename = [] :=
  ⟨rfl, rfl, rfl, rfl, rfl, rfl, rfl⟩

/-- C29, amended. For a path whose part after the last `'/'` is not empty (the whole path
when it has no `'/'`): if `mkdir` succeeds, `findDirectory` of the same path afterwards
returns the node that `mkdir` appended as the last child of the parent, a childless
directory whose name is that part, the last non-empty segment of the path. -/
theorem mkdir_then_findDirectory (fs : FileSystem) (path : List Nat) (ct mt : Int)
    (hname : extract_filename path ≠ [])
    (hok : (mkdir fs path ct mt).2 = .ok) :
    ∃ pidx parent,
      findDirectory fs.root_directory (extract_directory_path path) = some (pidx, parent)
      ∧ nodeAt (mkdir fs path ct mt).1.root_directory pidx
          = some (parent.setChildren (parent.children ++ [new_directory_entry path ct mt]))
      ∧ findDirectory (mkdir fs path ct mt).1.root_directory path
          = some (pidx ++ [parent.children.length], new_directory_entry path ct mt)
      ∧ (new_directory_entry path ct mt).getFilename = extract_filename path
      ∧ is_directory (new_directory_entry path ct mt) = true
      ∧ (new_directory_entry path ct mt).children = []
      ∧ (segments path).getLast? = some (extract_filename path) := by
  cases hfd : findDirectory fs.root_directory (extract_directory_path path) with
  | none =>
    have e : mkdir fs path ct mt = (fs, .notFound) := by simp only [mkdir, hfd]
    rw [e] at hok
    cases hok
  | some q =>
    obtain ⟨pidx, parent⟩ := q
    have heq := mkdir_eq fs path ct mt pidx parent hfd
    by_cases hex : parent.children.any (fun entry => entry.getFilename == extract_filename path)
        = true
    · rw [heq, if_pos hex] at hok
      cases hok
    · rw [if_neg hex] at heq
      obtain ⟨hn, hd, hc⟩ := new_directory_entry_props path ct mt
      have hseg := segments_extract path hname
      have hfd' : findDirectoryLoop fs.root_directory (segments (extract_directory_path path))
          = some (pidx, parent) := by
        rw [← findDirectory_segments]
        exact hfd
      have h1 := findDirectoryLoop_modifyAt (fun p => p.setChildren
        (p.children ++ [new_directory_entry path ct mt])) (fun _ => rfl) (fun _ => rfl)
        _ _ _ _ hfd'
      have hff : findFirst (fun entry => entry.getFilename == extract_filename path
          && (entry.getAttribute &&& ATTR_DIRECTORY != 0))
          (parent.children ++ [new_directory_entry path ct mt])
          = some (parent.children.length, new_directory_entry path ct mt) := by
        refine findFirst_append _ parent.children _ [] (fun x hx => ?_) ?_
        · show (x.getFilename == extract_filename path
            && (x.getAttribute &&& ATTR_DIRECTORY != 0)) = false
          have hx' : (x.getFilename == extract_filename path) = false := by
            cases hb : (x.getFilename == extract_filename path) with
            | false => rfl
            | true => exact absurd (List.any_eq_true.mpr ⟨x, hx, hb⟩) hex
          rw [hx', Bool.false_and]
        · show ((new_directory_entry path ct mt).getFilename == extract_filename path
            && is_directory (new_directory_entry path ct mt)) = true
          rw [hn, hd, beq_self_eq_true]
          rfl
      have h2 : findDirectoryLoop (parent.setChildren
          (parent.children ++ [new_directory_entry path ct mt])) [extract_filename path]
          = some ([parent.children.length], new_directory_entry path ct mt) := by
        rw [findDirectoryLoop, if_neg hname, children_setChildren, hff]
        rfl
      refine ⟨pidx, parent, rfl, ?_, ?_, hn, hd, hc, ?_⟩
      · rw [heq]
        exact nodeAt_modifyAt _ pidx fs.root_directory parent
          (findDirectoryLoop_nodeAt _ _ _ _ hfd)
      · rw [heq, findDirectory_segments, hseg]
        exact findDirectoryLoop_append _ _ _ _ _ _ _ h1 h2
      · rw [hseg, List.getLast?_append_of_ne_nil _ (List.cons_ne_nil _ _)]
        rfl

/-- Witness of `mkdir_then_findDirectory`: `mkdir("/a")` then `mkdir("/a/b")` on a fresh
file system. -/
theorem mkdir_then_findDirectory_witness :
    findDirectory (mkdir (mkdir (FileSystem.create 4 4 0 0) [47, 97] 1 2).1
        [47, 97, 47, 98] 3 4).1.root_directory [47, 97, 47, 98]
      = some ([0, 0], new_directory_entry [47, 97, 47, 98] 3 4) :=
  let ⟨_, _, h, _, h3, _⟩ := mkdir_then_findDirectory
    (mkdir (FileSystem.create 4 4 0 0) [47, 97] 1 2).1 [47, 97, 47, 98] 3 4
    (by decide) (by decide)
  by
    injection (show findDirectory (mkdir (FileSystem.create 4 4 0 0) [47, 97] 1 2).1.root_directory
        (extract_directory_path [47, 97, 47, 98])
      = some ([0], new_directory_entry [47, 97] 1 2) from rfl).symm.trans h with e
    injection e with e1 e2
    rw [← e1, ← e2] at h3
    exact h3

end FatFs
